import Mathlib

/-!
Verification of the go-diff line diff engine and its unified formatter.

The definitions below are a shallow embedding of the Go sources:
`diff.go` (the Myers shortest-edit-script engine) and the unified
formatter file (`unifiedFormatter`).  Loops are embedded as structural
recursions whose fuel argument matches the loop bound of the source
(`for d := 0; d <= max; d++` has `max+1` iterations, the inner scan over
diagonals `k = -d, -d+2, ..., d` has `d+1` iterations, and the two
`while` loops run for an exactly computed number of steps).  Machine
integers are modelled as `Int`; out-of-range list indexing, which would
panic in Go, is modelled by `List.getD` (theorems establish the indices
stay in range on all reachable states).
-/

namespace GoDiff

/-- Op models the diff operation for a line (Go `Op`: EqlOp, AddOp, DelOp). -/
inductive Op where
  | eql : Op
  | add : Op
  | del : Op
deriving DecidableEq

/-- String form of an Op (Go `Op.String`: "=", "<", ">"). -/
def Op.string : Op → String
  | .eql => "="
  | .add => "<"
  | .del => ">"

/-- LineDiff models the diff result for a single line. -/
structure LineDiff where
  op : Op
  line : String
deriving DecidableEq

/-- Result models the outcome of a Diff operation. -/
structure Result where
  leftName : String
  rightName : String
  diffs : List LineDiff
deriving DecidableEq

/-- Go constant `DefaultLeftName`. -/
def DefaultLeftName : String := "l.txt"

/-- Go constant `DefaultRightName`. -/
def DefaultRightName : String := "r.txt"

/-- The text written by `Result.Print`: for each entry `"%s %s"` of the
op marker and the line. -/
def printString (r : Result) : String :=
  String.join (r.diffs.map (fun e => e.op.string ++ " " ++ e.line))

/-- Lines of the edit script consumed from the left side (Equal and
Deleted entries), in order. -/
def collectLeft (ds : List LineDiff) : List String :=
  ds.filterMap (fun e => if e.op = Op.add then none else some e.line)

/-- Lines of the edit script consumed from the right side (Equal and
Added entries), in order. -/
def collectRight (ds : List LineDiff) : List String :=
  ds.filterMap (fun e => if e.op = Op.del then none else some e.line)

/-- Number of non-Equal entries of an edit script. -/
def nonEqlCount (ds : List LineDiff) : Nat :=
  (ds.filter (fun e => e.op ≠ Op.eql)).length

section Engine

variable (left right : List String)

/-- The greedy diagonal extension of `runFull`:
`for x < l && y < r && p.Left[x] == p.Right[y] { x++; y++ }`.
The fuel argument counts the remaining iterations; `snake` supplies
`(l - x).toNat`, which is exact: the guard forces `x < l`, so the loop
body runs at most that often. -/
def snakeAux : Nat → Int → Int → Int × Int
  | 0, x, y => (x, y)
  | fuel + 1, x, y =>
    if x < (left.length : Int) ∧ y < (right.length : Int) ∧
        left.getD x.toNat "" = right.getD y.toNat "" then
      snakeAux fuel (x + 1) (y + 1)
    else
      (x, y)

/-- The snake loop of `runFull` starting at `(x, y)`. -/
def snake (x y : Int) : Int × Int :=
  snakeAux left right ((left.length : Int) - x).toNat x y

variable (l r mx : Int)

/-- The choice of the predecessor diagonal in `runFull` and
`runFullBacktrack`:
`k == -d || (k != d && v[max+k-1] < v[max+k+1])`. -/
def ruleCond (v : Int → Int) (d k : Int) : Prop :=
  k = -d ∨ (k ≠ d ∧ v (mx + k - 1) < v (mx + k + 1))

instance (v : Int → Int) (d k : Int) : Decidable (ruleCond mx v d k) := by
  unfold ruleCond; infer_instance

/-- The pre-snake x value chosen by `runFull` for diagonal `k`. -/
def chooseX (v : Int → Int) (d k : Int) : Int :=
  if ruleCond mx v d k then v (mx + k + 1) else v (mx + k - 1) + 1

/-- Inner loop of `runFull` over the diagonals `k = -d, -d+2, ..., d`.
`steps` is the number of remaining iterations (`d+1` at entry).  The
result is `.inr v` when the exit condition `x >= l && y >= r` fired
(the data is unused afterwards; `runFull` returns at that point) and
`.inl v` when the loop ran to completion. -/
def scanKAux (d : Int) : Nat → Int → (Int → Int) → ((Int → Int) ⊕ (Int → Int))
  | 0, _, v => Sum.inl v
  | steps + 1, k, v =>
    let x := chooseX mx v d k
    let p := snake left right x (x - k)
    let vNew : Int → Int := fun i => if i = mx + k then p.1 else v i
    if l ≤ p.1 ∧ r ≤ p.2 then Sum.inr vNew
    else scanKAux d steps (k + 2) vNew

/-- Outer loop of `runFull`: `for d := 0; d <= max; d++`, with fuel
`max+1`.  Returns the recorded `trace` (one copy of `v` per started
round, taken before the round ran, exactly as the Go code appends to
`trace`) or `none` for the `panic("unexpected")` branch after the loop. -/
def searchAux : Nat → Nat → List (Int → Int) → (Int → Int) →
    Option (List (Int → Int))
  | 0, _, _, _ => none
  | fuel + 1, d, trace, v =>
    let traceNew := trace ++ [v]
    match scanKAux left right l r mx (d : Int) (d + 1) (-(d : Int)) v with
    | Sum.inl vNew => searchAux fuel (d + 1) traceNew vNew
    | Sum.inr _ => some traceNew

/-- The search phase of `runFull`, producing the backtracking trace. -/
def searchTrace : Option (List (Int → Int)) :=
  searchAux left right l r mx (mx.toNat + 1) 0 [] (fun _ => 0)

/-- The equal-run loop of `runFullBacktrack`:
`for x > prevX && y > prevY { x--; y--; result.keepLine(p.Left[x]) }`.
Fuel is `min (x - prevX) (y - prevY)`, the exact iteration count. -/
def eqWalkAux : Nat → Int → Int → List LineDiff → Int × Int × List LineDiff
  | 0, x, y, acc => (x, y, acc)
  | fuel + 1, x, y, acc =>
    eqWalkAux fuel (x - 1) (y - 1)
      (acc ++ [⟨Op.eql, left.getD (x - 1).toNat ""⟩])

/-- The equal-run loop of `runFullBacktrack` with its guard. -/
def eqWalk (x y px py : Int) (acc : List LineDiff) :
    Int × Int × List LineDiff :=
  eqWalkAux left (min (x - px) (y - py)).toNat x y acc

/-- Backtracking loop of `runFullBacktrack`:
`for d := len(trace)-1; d >= 0; d--`.  The argument is the reversed
trace, so the element being processed is `trace[d]` with
`d = rest.length`. -/
def btAux : List (Int → Int) → Int → Int → List LineDiff → List LineDiff
  | [], _, _, acc => acc
  | v :: rest, x, y, acc =>
    let d : Int := (rest.length : Int)
    let k := x - y
    let prevK := if ruleCond mx v d k then k + 1 else k - 1
    let prevX := v (mx + prevK)
    let prevY := prevX - prevK
    let w := eqWalk left x y prevX prevY acc
    if 0 < d then
      if prevX < w.1 then
        btAux rest (w.1 - 1) w.2.1
          (w.2.2 ++ [⟨Op.del, left.getD (w.1 - 1).toNat ""⟩])
      else
        btAux rest w.1 (w.2.1 - 1)
          (w.2.2 ++ [⟨Op.add, right.getD (w.2.1 - 1).toNat ""⟩])
    else
      btAux rest w.1 w.2.1 w.2.2

/-- `runFullBacktrack`: walk the trace backwards from `(l, r)` and
reverse the accumulated script. -/
def runFullBacktrack (trace : List (Int → Int)) : List LineDiff :=
  (btAux left right mx trace.reverse l r []).reverse

end Engine

/-- `runFull`: search plus backtrack; `none` models the
`panic("unexpected")` branch. -/
def runFull (left right : List String) : Option (List LineDiff) :=
  let l : Int := left.length
  let r : Int := right.length
  let mx : Int := l + r
  (searchTrace left right l r mx).map
    (fun trace => runFullBacktrack left right l r mx trace)

/-- `runFast`: the fast paths of `run` (`none` means the general
algorithm must run). -/
def runFast (left right : List String) : Option (List LineDiff) :=
  if left.length + right.length = 0 then some []
  else if left.length = 0 then some (right.map (fun s => ⟨Op.add, s⟩))
  else if right.length = 0 then some (left.map (fun s => ⟨Op.del, s⟩))
  else none

/-- `differ.run`: fast paths first, then the full algorithm.  `none`
models the panic of `runFull`. -/
def differRun (left : List String) (leftName : String)
    (right : List String) (rightName : String) : Option Result :=
  match runFast left right with
  | some ds => some ⟨leftName, rightName, ds⟩
  | none => (runFull left right).map (fun ds => ⟨leftName, rightName, ds⟩)

/-- `DiffLines`: diff two string arrays under the default names. -/
def DiffLines (left right : List String) : Option Result :=
  differRun left DefaultLeftName right DefaultRightName

/-- `readLines`: repeated `bufio.ReadString('\n')` until `io.EOF`.  The
accumulator holds the characters of the line being read; on end of
input the loop breaks without appending the pending characters, so an
unterminated final fragment is dropped. -/
def readLinesAux : List Char → List Char → List String
  | [], _ => []
  | c :: rest, acc =>
    if c = '\n' then String.mk (acc ++ [c]) :: readLinesAux rest []
    else readLinesAux rest (acc ++ [c])

/-- `readLines` on the full contents of a reader. -/
def readLines (content : String) : List String :=
  readLinesAux content.data []

/-- Length of a longest common subsequence of two lists (the `LCS` of
the specification), by the standard recursion. -/
def lcsLen : List String → List String → Nat
  | [], _ => 0
  | _ :: _, [] => 0
  | a :: as, b :: bs =>
    if a = b then lcsLen as bs + 1
    else max (lcsLen (a :: as) bs) (lcsLen as (b :: bs))

/-! ### Unified formatter (from the `unifiedFormatter` source file) -/

/-- The scan state of `unifiedFormatter` (its mutable fields). -/
structure UFState where
  leftLine : Int
  rightLine : Int
  hunk : Bool
  hunkIndex : Int
  eqlRun : Int
  hunkStartLeft : Int
  hunkStartRight : Int
deriving DecidableEq

/-- The initial formatter state set up at the top of `Format`. -/
def ufInit : UFState :=
  ⟨0, 0, false, 0, 0, 0, 0⟩

/-- `unifiedFormatter.evalDiffInsideHunk`. -/
def evalDiffInsideHunk (c : Int) (s : UFState) (e : LineDiff) : UFState :=
  match e.op with
  | Op.eql =>
    { s with eqlRun := s.eqlRun + 1, hunk := decide (s.eqlRun + 1 ≤ 2 * c),
             leftLine := s.leftLine + 1, rightLine := s.rightLine + 1 }
  | Op.add => { s with eqlRun := 0, rightLine := s.rightLine + 1 }
  | Op.del => { s with eqlRun := 0, leftLine := s.leftLine + 1 }

/-- `unifiedFormatter.evalDiffOutsideHunk`. -/
def evalDiffOutsideHunk (c : Int) (s : UFState) (e : LineDiff) : UFState :=
  match e.op with
  | Op.eql => { s with leftLine := s.leftLine + 1, rightLine := s.rightLine + 1 }
  | Op.add =>
    { s with hunk := true, hunkStartLeft := max (s.leftLine - c) 0,
             hunkStartRight := max (s.rightLine - c) 0,
             rightLine := s.rightLine + 1 }
  | Op.del =>
    { s with hunk := true, hunkStartLeft := max (s.leftLine - c) 0,
             hunkStartRight := max (s.rightLine - c) 0,
             leftLine := s.leftLine + 1 }

/-- One iteration of the scan loop of `Format` (state part only):
dispatch on the hunk flag and, when a hunk was just opened, record the
edit-script index to resume from. -/
def ufStep (c : Int) (index : Int) (s : UFState) (e : LineDiff) : UFState :=
  if s.hunk then
    evalDiffInsideHunk c s e
  else
    let t := evalDiffOutsideHunk c s e
    if t.hunk then { t with hunkIndex := max (index - c) 0 } else t

/-- The formatter state after scanning the first `i` entries of the
edit script (iteration `i` of the `for index, diff := range r.Diffs`
loop processes `diffs[i]`). -/
def ufStateAt (c : Int) (diffs : List LineDiff) : Nat → UFState
  | 0 => ufInit
  | i + 1 =>
    match diffs.get? i with
    | some e => ufStep c (i : Int) (ufStateAt c diffs i) e
    | none => ufStateAt c diffs i

/-- The body-emission loop of `formatHunk`: emit entries starting at the
hunk index, decrementing the remaining-line counters, and stop once both
remaining counters are zero. -/
def emitHunkBody : Int → Int → List LineDiff → List LineDiff
  | _, _, [] => []
  | lrem, rrem, e :: rest =>
    let lrem2 := match e.op with
      | Op.eql => lrem - 1
      | Op.add => lrem
      | Op.del => lrem - 1
    let rrem2 := match e.op with
      | Op.eql => rrem - 1
      | Op.add => rrem - 1
      | Op.del => rrem
    e :: (if lrem2 = 0 ∧ rrem2 = 0 then [] else emitHunkBody lrem2 rrem2 rest)

/-- An emitted hunk: its range-header data and its body. -/
structure Hunk where
  startL : Int
  extL : Int
  startR : Int
  extR : Int
  hunkIndex : Int
  body : List LineDiff
deriving DecidableEq

/-- `unifiedFormatter.formatHunk`: compute the extents (subtracting the
trailing context `c + 1` when the hunk closed before end-of-script,
i.e. when the hunk flag is off) and emit the body. -/
def mkHunk (c : Int) (diffs : List LineDiff) (s : UFState) : Hunk :=
  let extentLeft := s.leftLine - s.hunkStartLeft
  let extentRight := s.rightLine - s.hunkStartRight
  let extL := if s.hunk then extentLeft else extentLeft - (c + 1)
  let extR := if s.hunk then extentRight else extentRight - (c + 1)
  ⟨s.hunkStartLeft, extL, s.hunkStartRight, extR, s.hunkIndex,
    emitHunkBody extL extR (diffs.drop s.hunkIndex.toNat)⟩

/-- One iteration of the scan loop of `Format` including hunk emission. -/
def ufStepH (c : Int) (diffs : List LineDiff) (index : Int)
    (sh : UFState × List Hunk) (e : LineDiff) : UFState × List Hunk :=
  let s := sh.1
  if s.hunk then
    let t := evalDiffInsideHunk c s e
    if t.hunk then (t, sh.2) else (t, sh.2 ++ [mkHunk c diffs t])
  else
    let t := evalDiffOutsideHunk c s e
    if t.hunk then ({ t with hunkIndex := max (index - c) 0 }, sh.2)
    else (t, sh.2)

/-- The formatter state and emitted hunks after scanning the first `i`
entries of the edit script. -/
def ufScanAt (c : Int) (diffs : List LineDiff) : Nat → UFState × List Hunk
  | 0 => (ufInit, [])
  | i + 1 =>
    match diffs.get? i with
    | some e => ufStepH c diffs (i : Int) (ufScanAt c diffs i) e
    | none => ufScanAt c diffs i

/-- `unifiedFormatter.Format` (hunk structure only): scan the script,
then flush a still-open hunk at end-of-script. -/
def unifiedHunks (c : Int) (diffs : List LineDiff) : List Hunk :=
  let sh := ufScanAt c diffs diffs.length
  if sh.1.hunk then sh.2 ++ [mkHunk c diffs sh.1] else sh.2

/-- Length of the trailing run of consecutive Equal entries of a script
prefix. -/
def trailingEqlCount (ds : List LineDiff) : Nat :=
  (ds.reverse.takeWhile (fun e => e.op = Op.eql)).length

/-! ### Modification time (from `unifiedFormatter.modificationTime`) -/

/-- The environment seen by `modificationTime`: the current wall-clock
time (`time.Now()`) and the result of `os.Stat` plus `ModTime` for each
name (`none` models a stat error). -/
structure TimeEnv where
  now : String
  statModTime : String → Option String

/-- The string form of the Go zero time `time.Time{}.UTC()`. -/
def epochSentinel : String := "0001-01-01 00:00:00 +0000 UTC"

/-- `unifiedFormatter.modificationTime`: default names report the
current time; a stat failure degrades to the zero-time sentinel. -/
def modificationTime (env : TimeEnv) (name : String) : String :=
  if name = DefaultLeftName ∨ name = DefaultRightName then env.now
  else
    match env.statModTime name with
    | none => epochSentinel
    | some t => t

/-- A concrete edit script on which the formatter closes its second
hunk after a single Equal entry (the consecutive-equal counter is not
reset when a hunk opens). -/
def closeCex : List LineDiff :=
  [⟨Op.add, "a0"⟩, ⟨Op.eql, "e1"⟩, ⟨Op.eql, "e2"⟩, ⟨Op.eql, "e3"⟩,
   ⟨Op.add, "a4"⟩, ⟨Op.eql, "e5"⟩]

/-- Lines consumed from the left in a script, as an integer. -/
def cntL (xs : List LineDiff) : Int := ((collectLeft xs).length : Int)

/-- Lines consumed from the right in a script, as an integer. -/
def cntR (xs : List LineDiff) : Int := ((collectRight xs).length : Int)

/-- A hunk whose header extents match the line counts of its body. -/
def hunkConsistent (h : Hunk) : Prop :=
  h.extL = cntL h.body ∧ h.extR = cntR h.body

/-- All changed entries among the first `i` script entries lie in the
emitted index range of the hunk. -/
def hunkCoversUpTo (diffs : List LineDiff) (i : Nat) (h : Hunk) : Prop :=
  ∀ j (hj : j < diffs.length), j < i → (diffs.get ⟨j, hj⟩).op ≠ Op.eql →
    h.hunkIndex ≤ (j : Int) ∧ (j : Int) < h.hunkIndex + h.body.length

/-- Scan phase: no change seen yet; the state is the initial one with
both counters advanced and no hunk. -/
def ufPhase0 (c : Int) (diffs : List LineDiff) (i : Nat) : Prop :=
  (∀ e ∈ diffs.take i, e.op = Op.eql) ∧
  ufScanAt c diffs i = (⟨(i : Int), (i : Int), false, 0, 0, 0, 0⟩, [])

/-- Scan phase: the first hunk is open; `i0` is the index of the first
change and `run` the current consecutive-equal count, realised by an
all-Equal run right before position `i`. -/
def ufPhase1 (c : Int) (diffs : List LineDiff) (i : Nat) : Prop :=
  ∃ (i0 run : Nat), ∃ h0 : i0 < diffs.length,
    i0 + run < i ∧
    (∀ e ∈ diffs.take i0, e.op = Op.eql) ∧
    (diffs.get ⟨i0, h0⟩).op ≠ Op.eql ∧
    (ufScanAt c diffs i).2 = [] ∧
    (ufStateAt c diffs i).hunk = true ∧
    (ufStateAt c diffs i).hunkStartLeft = ((i0 - c.toNat : Nat) : Int) ∧
    (ufStateAt c diffs i).hunkStartRight = ((i0 - c.toNat : Nat) : Int) ∧
    (ufStateAt c diffs i).hunkIndex = ((i0 - c.toNat : Nat) : Int) ∧
    (ufStateAt c diffs i).eqlRun = (run : Int) ∧
    run ≤ 2 * c.toNat ∧
    (∀ j (hj : j < diffs.length), i - run ≤ j → j < i →
      (diffs.get ⟨j, hj⟩).op = Op.eql)

/-- Scan phase: the single hunk has been emitted and no further change
has been seen. -/
def ufPhase2 (c : Int) (diffs : List LineDiff) (i : Nat) : Prop :=
  ∃ H, (ufScanAt c diffs i).2 = [H] ∧ (ufStateAt c diffs i).hunk = false ∧
    hunkConsistent H ∧ hunkCoversUpTo diffs i H

/-- Scan phase: a second hunk has been opened, so the final output has
at least two hunks. -/
def ufPhase3 (c : Int) (diffs : List LineDiff) (i : Nat) : Prop :=
  2 ≤ (ufScanAt c diffs i).2.length ∨
  (1 ≤ (ufScanAt c diffs i).2.length ∧ (ufStateAt c diffs i).hunk = true)

/-! ## The Myers engine: reachability and the idealized round arrays -/

/-- The lines at positions `i` and `j` exist and are equal. -/
def matchAt (left right : List String) (i j : Nat) : Prop :=
  i < left.length ∧ j < right.length ∧ left.getD i "" = right.getD j ""

instance (left right : List String) (i j : Nat) :
    Decidable (matchAt left right i j) := by
  unfold matchAt
  infer_instance

/-- Edit-graph reachability: `Reach left right d x y` holds when the
point that has consumed `x` left lines and `y` right lines is reachable
from the origin with exactly `d` non-diagonal steps (deletions of
existing left lines and insertions of existing right lines), diagonal
steps being free and allowed only on matching lines. -/
inductive Reach (left right : List String) : Nat → Nat → Nat → Prop where
  | zero : Reach left right 0 0 0
  | diag {d x y} : Reach left right d x y → matchAt left right x y →
      Reach left right d (x + 1) (y + 1)
  | del {d x y} : Reach left right d x y → x < left.length →
      Reach left right (d + 1) (x + 1) y
  | ins {d x y} : Reach left right d x y → y < right.length →
      Reach left right (d + 1) x (y + 1)

/-- A diagonal run of matches from `(x0, y0)` to `(x, y)`. -/
def DiagRun (left right : List String) (x0 y0 x y : Nat) : Prop :=
  x0 ≤ x ∧ y0 ≤ y ∧ x - x0 = y - y0 ∧
    ∀ t, t < x - x0 → matchAt left right (x0 + t) (y0 + t)

/-- The middle offset of the v array. -/
def mxOf (left right : List String) : Int :=
  (left.length : Int) + (right.length : Int)

/-- Diagonal `k` is scanned in round `d`. -/
def roundValid (d : Nat) (k : Int) : Prop :=
  -(d : Int) ≤ k ∧ k ≤ (d : Int) ∧ ((d : Int) + k) % 2 = 0

instance (d : Nat) (k : Int) : Decidable (roundValid d k) :=
  inferInstanceAs (Decidable (_ ∧ _ ∧ _))

/-- One full round of the forward search applied to a round-start
array: every diagonal of the round receives its furthest-reaching
value, every other entry is kept. -/
def roundUpd (left right : List String) (w : Int → Int) (d : Nat) :
    Int → Int :=
  fun i =>
    let mx := mxOf left right
    let k := i - mx
    if roundValid d k then
      (snake left right (chooseX mx w (d : Int) k)
        (chooseX mx w (d : Int) k - k)).1
    else w i

/-- The v array at the start of round `d` (after rounds `0 .. d-1`),
assuming no early exit: `vArr left right d` is `trace[d]` of the Go
code. -/
def vArr (left right : List String) : Nat → Int → Int
  | 0 => fun _ => 0
  | d + 1 => roundUpd left right (vArr left right d) d

/-- The value the forward search records in round `d` on diagonal `k`. -/
def valAt (left right : List String) (d : Nat) (k : Int) : Int :=
  (snake left right
    (chooseX (mxOf left right) (vArr left right d) (d : Int) k)
    (chooseX (mxOf left right) (vArr left right d) (d : Int) k - k)).1

/-- The exit condition `x >= l && y >= r` holds for the value recorded
in round `d` on diagonal `k`. -/
def exitCond (left right : List String) (d : Nat) (k : Int) : Prop :=
  (left.length : Int) ≤ valAt left right d k ∧
  (right.length : Int) ≤ valAt left right d k - k

/-- Some diagonal of round `d` satisfies the exit condition. -/
def roundExits (left right : List String) (d : Nat) : Prop :=
  ∃ k, roundValid d k ∧ exitCond left right d k

/-- The trace recorded by the search after starting rounds `0 .. n-1`. -/
def traceList (left right : List String) (n : Nat) : List (Int → Int) :=
  (List.range n).map (vArr left right)

/-! ### Snake lemmas -/

/-- The loop guard of the snake. -/
def snakeGuard (left right : List String) (x y : Int) : Prop :=
  x < (left.length : Int) ∧ y < (right.length : Int) ∧
    left.getD x.toNat "" = right.getD y.toNat ""

instance (left right : List String) (x y : Int) :
    Decidable (snakeGuard left right x y) := by
  unfold snakeGuard
  infer_instance

/-! ### The scan loops compute the idealized arrays -/

/-- Mid-round description of the v array: diagonals before the cursor
hold next-round values, diagonals at or after it still hold round-start
values. -/
def midScan (left right : List String) (dN : Nat) (k : Int)
    (v : Int → Int) : Prop :=
  ∀ i : Int, v i = if i - mxOf left right < k then vArr left right (dN + 1) i
    else vArr left right dN i

/-- Lines of the Equal entries of a script, in order. -/
def eqlLines (ds : List LineDiff) : List String :=
  ds.filterMap (fun e => if e.op = Op.eql then some e.line else none)

/-! ## Claim C8: the concrete scenario and the default rendering -/

/-- C8: on the fixed test vectors the engine produces exactly
Deleted/Equal/Added in that order, and the default renderer prints
`"> removed line\n= unchanged line\n< added line\n"`, with `=` for
Equal, `<` for Added and `>` for Deleted, each entry rendered as
`<marker> <line-text>`. -/
theorem concrete_scenario_diff_and_render :
    DiffLines ["removed line\n", "unchanged line\n"]
        ["unchanged line\n", "added line\n"] =
      some ⟨DefaultLeftName, DefaultRightName,
        [⟨Op.del, "removed line\n"⟩, ⟨Op.eql, "unchanged line\n"⟩,
          ⟨Op.add, "added line\n"⟩]⟩ ∧
    printString ⟨DefaultLeftName, DefaultRightName,
        [⟨Op.del, "removed line\n"⟩, ⟨Op.eql, "unchanged line\n"⟩,
          ⟨Op.add, "added line\n"⟩]⟩ =
      "> removed line\n= unchanged line\n< added line\n" ∧
    Op.string Op.eql = "=" ∧ Op.string Op.add = "<" ∧
    Op.string Op.del = ">" := by
  refine ⟨by decide, by decide, rfl, rfl, rfl⟩

/-! ## Claim C7: empty-input fast paths -/

/-- C7: diffing empty against empty gives the empty script; empty left
against non-empty right gives all-Added entries carrying the right
lines in order; non-empty left against empty right gives all-Deleted
entries carrying the left lines in order. -/
theorem diff_empty_cases (left right : List String) (ln rn : String) :
    differRun [] ln [] rn = some ⟨ln, rn, []⟩ ∧
    (right ≠ [] →
      differRun [] ln right rn =
        some ⟨ln, rn, right.map (fun s => ⟨Op.add, s⟩)⟩) ∧
    (left ≠ [] →
      differRun left ln [] rn =
        some ⟨ln, rn, left.map (fun s => ⟨Op.del, s⟩)⟩) := by
  refine ⟨rfl, fun hr => ?_, fun hl => ?_⟩
  · have : right.length ≠ 0 := by simpa using hr
    simp [differRun, runFast, this]
  · have : left.length ≠ 0 := by simpa using hl
    simp [differRun, runFast, this]

/-- Witness for C7 at concrete inputs. -/
theorem diff_empty_cases_wit :
    differRun [] "a.txt" ["x\n"] "b.txt" =
      some ⟨"a.txt", "b.txt", [⟨Op.add, "x\n"⟩]⟩ ∧
    differRun ["y\n"] "a.txt" [] "b.txt" =
      some ⟨"a.txt", "b.txt", [⟨Op.del, "y\n"⟩]⟩ :=
  ⟨(diff_empty_cases ["y\n"] ["x\n"] "a.txt" "b.txt").2.1 (by decide),
   (diff_empty_cases ["y\n"] ["x\n"] "a.txt" "b.txt").2.2 (by decide)⟩

/-! ## Claim C9: modification-time fallback -/

/-- C9 counterexample: for a default label the emitted timestamp is the
current time supplied by the environment, not the fixed epoch sentinel,
so the claim that a default label yields the epoch sentinel fails. -/
theorem modificationTime_default_not_sentinel :
    modificationTime ⟨"2025-10-11 12:00:00 +0000 UTC", fun _ => none⟩
        DefaultLeftName =
      "2025-10-11 12:00:00 +0000 UTC" ∧
    modificationTime ⟨"2025-10-11 12:00:00 +0000 UTC", fun _ => none⟩
        DefaultLeftName ≠ epochSentinel := by
  refine ⟨rfl, by decide⟩

/-- C9 amended: resolving a modification time never fails the format
operation; a stat failure on a non-default name degrades to the fixed
epoch sentinel, a default label reports the current time, and a
successful stat reports the stat result. -/
theorem modificationTime_total_cases (env : TimeEnv) (name : String) :
    (name = DefaultLeftName ∨ name = DefaultRightName →
      modificationTime env name = env.now) ∧
    (¬(name = DefaultLeftName ∨ name = DefaultRightName) →
      env.statModTime name = none →
      modificationTime env name = epochSentinel) ∧
    (¬(name = DefaultLeftName ∨ name = DefaultRightName) →
      ∀ t, env.statModTime name = some t →
        modificationTime env name = t) := by
  refine ⟨fun h => by simp [modificationTime, h], fun h hs => ?_, fun h t ht => ?_⟩
  · simp [modificationTime, h, hs]
  · simp [modificationTime, h, ht]

/-! ## Formatter state-machine lemmas -/

/-- The state part of the scan-with-hunks machine is the plain state
machine. -/
lemma ufScanAt_fst (c : Int) (diffs : List LineDiff) (i : Nat) :
    (ufScanAt c diffs i).1 = ufStateAt c diffs i := by
  induction i with
  | zero => rfl
  | succ i ih =>
    simp only [ufScanAt, ufStateAt]
    cases h : diffs.get? i with
    | none => exact ih
    | some e =>
      simp only [ufStepH, ufStep, ih]
      by_cases hh : (ufStateAt c diffs i).hunk <;> simp [hh] <;> split <;> simp

/-- One scan step leaves the hunk list unchanged or appends one hunk. -/
lemma ufStepH_snd (c : Int) (diffs : List LineDiff) (idx : Int)
    (sh : UFState × List Hunk) (e : LineDiff) :
    (ufStepH c diffs idx sh e).2 = sh.2 ∨
    ∃ h, (ufStepH c diffs idx sh e).2 = sh.2 ++ [h] := by
  by_cases hb : sh.1.hunk
  · by_cases ht : (evalDiffInsideHunk c sh.1 e).hunk
    · exact Or.inl (by simp [ufStepH, hb, ht])
    · exact Or.inr ⟨mkHunk c diffs (evalDiffInsideHunk c sh.1 e),
        by simp [ufStepH, hb, ht]⟩
  · by_cases ht : (evalDiffOutsideHunk c sh.1 e).hunk
    · exact Or.inl (by simp [ufStepH, hb, ht])
    · exact Or.inl (by simp [ufStepH, hb, ht])

/-- The hunks list never shrinks during the scan. -/
lemma ufScanAt_hunks_mono (c : Int) (diffs : List LineDiff) (i j : Nat)
    (hij : i ≤ j) :
    ∃ hs, (ufScanAt c diffs j).2 = (ufScanAt c diffs i).2 ++ hs := by
  induction j with
  | zero => exact ⟨[], by simp [Nat.le_zero.mp hij]⟩
  | succ j ih =>
    rcases Nat.lt_or_ge i (j + 1) with hlt | hge
    · obtain ⟨hs, hhs⟩ := ih (Nat.lt_succ_iff.mp hlt)
      show ∃ hs', (ufScanAt c diffs (j + 1)).2 = _
      simp only [ufScanAt]
      cases h : diffs.get? j with
      | none => exact ⟨hs, hhs⟩
      | some e =>
        rcases ufStepH_snd c diffs (j : Int) (ufScanAt c diffs j) e with
          h2 | ⟨hk, h2⟩
        · exact ⟨hs, by rw [h2, hhs]⟩
        · exact ⟨hs ++ [hk], by rw [h2, hhs, List.append_assoc]⟩
    · have : i = j + 1 := le_antisymm hij hge
      exact ⟨[], by simp [this]⟩

/-- The left and right counters of the formatter state equal the number
of lines consumed so far from the left (Equal and Deleted entries) and
from the right (Equal and Added entries) of the scanned prefix. -/
lemma ufStateAt_counters (c : Int) (diffs : List LineDiff) (i : Nat)
    (hi : i ≤ diffs.length) :
    (ufStateAt c diffs i).leftLine = (collectLeft (diffs.take i)).length ∧
    (ufStateAt c diffs i).rightLine = (collectRight (diffs.take i)).length := by
  induction i with
  | zero => simp [ufStateAt, ufInit, collectLeft, collectRight]
  | succ i ih =>
    have hi' : i ≤ diffs.length := Nat.le_of_succ_le hi
    have hilt : i < diffs.length := Nat.lt_of_succ_le hi
    obtain ⟨ihL, ihR⟩ := ih hi'
    set e := diffs.get ⟨i, hilt⟩ with hedef
    have he : diffs.get? i = some e := List.get?_eq_get hilt
    have htake : diffs.take (i + 1) = diffs.take i ++ [e] := by
      rw [List.take_succ]
      simp [List.getElem?_eq_getElem hilt, hedef, List.get_eq_getElem]
    have hcl : collectLeft (diffs.take (i + 1)) =
        collectLeft (diffs.take i) ++ collectLeft [e] := by
      simp [collectLeft, htake]
    have hcr : collectRight (diffs.take (i + 1)) =
        collectRight (diffs.take i) ++ collectRight [e] := by
      simp [collectRight, htake]
    simp only [ufStateAt, he]
    rw [hcl, hcr]
    simp only [List.length_append]
    constructor
    · cases hop : e.op <;>
        simp [ufStep, evalDiffInsideHunk, evalDiffOutsideHunk, collectLeft,
          hop, ihL] <;> split <;> simp [hop, ihL]
    · cases hop : e.op <;>
        simp [ufStep, evalDiffInsideHunk, evalDiffOutsideHunk, collectRight,
          hop, ihR] <;> split <;> simp [hop, ihR]

/-! ## Claim C5: hunk opening is clamped at zero -/

/-- C5: when the first Added or Deleted entry is met outside a hunk at
edit-script index `i`, with the current counters being the number of
lines consumed so far from each side, the opened hunk records starting
lines `max(Lc - c, 0)` and `max(Rc - c, 0)` and resumes emission from
index `max(i - c, 0)`; none of the recorded values is negative. -/
theorem hunk_open_clamped (c : Int) (diffs : List LineDiff) (i : Nat)
    (hi : i < diffs.length)
    (hout : (ufStateAt c diffs i).hunk = false)
    (hne : (diffs.get ⟨i, hi⟩).op ≠ Op.eql) :
    (ufStateAt c diffs (i + 1)).hunk = true ∧
    (ufStateAt c diffs (i + 1)).hunkStartLeft =
      max (((collectLeft (diffs.take i)).length : Int) - c) 0 ∧
    (ufStateAt c diffs (i + 1)).hunkStartRight =
      max (((collectRight (diffs.take i)).length : Int) - c) 0 ∧
    (ufStateAt c diffs (i + 1)).hunkIndex = max ((i : Int) - c) 0 ∧
    0 ≤ (ufStateAt c diffs (i + 1)).hunkStartLeft ∧
    0 ≤ (ufStateAt c diffs (i + 1)).hunkStartRight ∧
    0 ≤ (ufStateAt c diffs (i + 1)).hunkIndex := by
  set e := diffs.get ⟨i, hi⟩ with hedef
  have he : diffs.get? i = some e := List.get?_eq_get hi
  obtain ⟨ihL, ihR⟩ := ufStateAt_counters c diffs i (Nat.le_of_lt hi)
  have hstep : ufStateAt c diffs (i + 1) =
      ufStep c (i : Int) (ufStateAt c diffs i) e := by
    simp only [ufStateAt, he]
  rw [hstep]
  cases hop : e.op with
  | eql => exact absurd hop hne
  | add =>
    simp [ufStep, evalDiffOutsideHunk, hout, hop, ihL, ihR, le_max_right]
  | del =>
    simp [ufStep, evalDiffOutsideHunk, hout, hop, ihL, ihR, le_max_right]

/-- Witness for C5 at a concrete input: one deletion at index 0 with
context 3; the recorded start lines and resume index are clamped to 0. -/
theorem hunk_open_clamped_wit :
    (ufStateAt 3 [⟨Op.del, "x\n"⟩] 1).hunk = true ∧
    (ufStateAt 3 [⟨Op.del, "x\n"⟩] 1).hunkStartLeft = 0 ∧
    (ufStateAt 3 [⟨Op.del, "x\n"⟩] 1).hunkStartRight = 0 ∧
    (ufStateAt 3 [⟨Op.del, "x\n"⟩] 1).hunkIndex = 0 := by
  have h := hunk_open_clamped 3 [⟨Op.del, "x\n"⟩] 0 (by decide)
    (by decide) (by decide)
  refine ⟨h.1, ?_, ?_, ?_⟩
  · rw [h.2.1]; decide
  · rw [h.2.2.1]; decide
  · rw [h.2.2.2.1]; decide

/-- Witness for C9 amended at concrete inputs. -/
theorem modificationTime_total_cases_wit :
    modificationTime ⟨"T", fun _ => none⟩ DefaultLeftName = "T" ∧
    modificationTime ⟨"T", fun _ => none⟩ "other.txt" = epochSentinel ∧
    modificationTime ⟨"T", fun _ => some "M"⟩ "other.txt" = "M" :=
  ⟨(modificationTime_total_cases ⟨"T", fun _ => none⟩ DefaultLeftName).1
      (Or.inl rfl),
   (modificationTime_total_cases ⟨"T", fun _ => none⟩ "other.txt").2.1
      (by decide) rfl,
   (modificationTime_total_cases ⟨"T", fun _ => some "M"⟩ "other.txt").2.2
      (by decide) "M" rfl⟩

/-! ## Claim C4: hunk closure -/

/-- C4 counterexample: with context 1 the formatter is inside a hunk at
index 5 of `closeCex`, the entry there is Equal, and the hunk closes,
although the run of consecutive Equal entries ending at index 5 has
length 1, which does not strictly exceed 2·c = 2.  So a hunk does not
close exactly when a run of consecutive Equal entries exceeds 2·c. -/
theorem hunk_close_not_run_based :
    (ufStateAt 1 closeCex 5).hunk = true ∧
    (closeCex.get ⟨5, by decide⟩).op = Op.eql ∧
    (ufStateAt 1 closeCex 6).hunk = false ∧
    trailingEqlCount (closeCex.take 6) = 1 ∧
    ¬(2 * 1 < (1 : Int)) := by
  refine ⟨by decide, by decide, by decide, by decide, by decide⟩

/-- Appending an entry to a script extends or resets the trailing
Equal-run length. -/
lemma trailingEqlCount_append (ds : List LineDiff) (e : LineDiff) :
    trailingEqlCount (ds ++ [e]) =
      if e.op = Op.eql then trailingEqlCount ds + 1 else 0 := by
  by_cases h : e.op = Op.eql <;>
    simp [trailingEqlCount, List.takeWhile_cons, h]

/-- Before any hunk has been flushed, the consecutive-equal counter is
an honest trailing-run length: it is `0` while no hunk is open (the
prefix is then all Equal) and equals the trailing Equal-run of the
scanned prefix while the first hunk is open. -/
lemma firstHunk_eqlRun (c : Int) (diffs : List LineDiff) (i : Nat)
    (hi : i ≤ diffs.length) (hemp : (ufScanAt c diffs i).2 = []) :
    ((ufStateAt c diffs i).hunk = false →
      (∀ e ∈ diffs.take i, e.op = Op.eql) ∧ (ufStateAt c diffs i).eqlRun = 0) ∧
    ((ufStateAt c diffs i).hunk = true →
      (ufStateAt c diffs i).eqlRun = trailingEqlCount (diffs.take i)) := by
  induction i with
  | zero =>
    refine ⟨fun _ => ⟨by simp, rfl⟩, fun h => ?_⟩
    simp [ufStateAt, ufInit] at h
  | succ i ih =>
    have hi' : i ≤ diffs.length := Nat.le_of_succ_le hi
    have hilt : i < diffs.length := Nat.lt_of_succ_le hi
    set e := diffs.get ⟨i, hilt⟩ with hedef
    have he : diffs.get? i = some e := List.get?_eq_get hilt
    have htake : diffs.take (i + 1) = diffs.take i ++ [e] := by
      rw [List.take_succ]
      simp [List.getElem?_eq_getElem hilt, hedef, List.get_eq_getElem]
    have hscan : ufScanAt c diffs (i + 1) =
        ufStepH c diffs (i : Int) (ufScanAt c diffs i) e := by
      simp only [ufScanAt, he]
    have hstep : ufStateAt c diffs (i + 1) =
        ufStep c (i : Int) (ufStateAt c diffs i) e := by
      simp only [ufStateAt, he]
    have hprev : (ufScanAt c diffs i).2 = [] := by
      obtain ⟨hs, hhs⟩ := ufScanAt_hunks_mono c diffs i (i + 1) (Nat.le_succ i)
      rw [hemp] at hhs
      exact (List.append_eq_nil.mp hhs.symm).1
    obtain ⟨ihout, ihin⟩ := ih hi' hprev
    by_cases hh : (ufStateAt c diffs i).hunk
    · -- inside the first hunk
      have hrun := ihin hh
      rw [hstep]
      cases hop : e.op with
      | eql =>
        constructor
        · intro hcl
          -- the hunk closed at this entry, so a hunk was appended and the
          -- hunk list at i+1 is nonempty, contradicting hemp
          exfalso
          have hcl2 : (evalDiffInsideHunk c (ufStateAt c diffs i) e).hunk
              = false := by
            simpa [ufStep, hh] using hcl
          rw [hscan] at hemp
          simp [ufStepH, ufScanAt_fst c diffs i, hh, hcl2] at hemp
        · intro _
          simp [ufStep, hh, evalDiffInsideHunk, hop, htake,
            trailingEqlCount_append, hrun]
      | add =>
        refine ⟨fun hcl => ?_, fun _ => ?_⟩
        · simp [ufStep, hh, evalDiffInsideHunk, hop] at hcl
        · simp [ufStep, hh, evalDiffInsideHunk, hop, htake,
            trailingEqlCount_append]
      | del =>
        refine ⟨fun hcl => ?_, fun _ => ?_⟩
        · simp [ufStep, hh, evalDiffInsideHunk, hop] at hcl
        · simp [ufStep, hh, evalDiffInsideHunk, hop, htake,
            trailingEqlCount_append]
    · -- outside: the prefix is all Equal and the counter is zero
      obtain ⟨hall, hzero⟩ := ihout (by simpa using hh)
      rw [hstep]
      cases hop : e.op with
      | eql =>
        refine ⟨fun _ => ⟨?_, ?_⟩, fun hcl => ?_⟩
        · intro x hx
          rw [htake] at hx
          rcases List.mem_append.mp hx with h1 | h1
          · exact hall x h1
          · simp at h1
            rw [h1, hop]
        · simpa [ufStep, hh, evalDiffOutsideHunk, hop] using hzero
        · simp [ufStep, evalDiffOutsideHunk, hop, hh] at hcl
      | add =>
        refine ⟨fun hcl => ?_, fun _ => ?_⟩
        · simp [ufStep, hh, evalDiffOutsideHunk, hop] at hcl
        · have h0 : trailingEqlCount (diffs.take (i + 1)) = 0 := by
            simp [htake, trailingEqlCount_append, hop]
          rw [h0]
          simpa [ufStep, hh, evalDiffOutsideHunk, hop] using hzero
      | del =>
        refine ⟨fun hcl => ?_, fun _ => ?_⟩
        · simp [ufStep, hh, evalDiffOutsideHunk, hop] at hcl
        · have h0 : trailingEqlCount (diffs.take (i + 1)) = 0 := by
            simp [htake, trailingEqlCount_append, hop]
          rw [h0]
          simpa [ufStep, hh, evalDiffOutsideHunk, hop] using hzero

/-- C4 amended: a hunk closes exactly when the formatter's
consecutive-equal counter strictly exceeds 2·c; the counter is reset
only by Added/Deleted entries inside a hunk (it persists across hunk
boundaries), and only while the first hunk is open does it equal the
trailing run of consecutive Equal entries of the scanned prefix.  A
hunk closed this way is flushed with the measured counter extents each
reduced by c + 1, while a hunk still open at end-of-script is flushed
with the final counter extents unreduced. -/
theorem hunk_close_and_flush (c : Int) (diffs : List LineDiff) :
    (∀ (i : Nat) (hi : i < diffs.length),
      (ufStateAt c diffs i).hunk = true →
      (diffs.get ⟨i, hi⟩).op = Op.eql →
      (((ufStateAt c diffs (i + 1)).hunk = false ↔
          2 * c < (ufStateAt c diffs i).eqlRun + 1) ∧
        ((ufScanAt c diffs i).2 = [] →
          (ufStateAt c diffs i).eqlRun =
            trailingEqlCount (diffs.take i)) ∧
        ((ufStateAt c diffs (i + 1)).hunk = false →
          (ufScanAt c diffs (i + 1)).2 = (ufScanAt c diffs i).2 ++
            [mkHunk c diffs (ufStateAt c diffs (i + 1))] ∧
          (mkHunk c diffs (ufStateAt c diffs (i + 1))).extL =
            ((collectLeft (diffs.take (i + 1))).length : Int) -
              (ufStateAt c diffs (i + 1)).hunkStartLeft - (c + 1) ∧
          (mkHunk c diffs (ufStateAt c diffs (i + 1))).extR =
            ((collectRight (diffs.take (i + 1))).length : Int) -
              (ufStateAt c diffs (i + 1)).hunkStartRight - (c + 1)))) ∧
    ((ufStateAt c diffs diffs.length).hunk = true →
      unifiedHunks c diffs = (ufScanAt c diffs diffs.length).2 ++
        [mkHunk c diffs (ufStateAt c diffs diffs.length)] ∧
      (mkHunk c diffs (ufStateAt c diffs diffs.length)).extL =
        ((collectLeft diffs).length : Int) -
          (ufStateAt c diffs diffs.length).hunkStartLeft ∧
      (mkHunk c diffs (ufStateAt c diffs diffs.length)).extR =
        ((collectRight diffs).length : Int) -
          (ufStateAt c diffs diffs.length).hunkStartRight) := by
  constructor
  · intro i hi hin hop
    set e := diffs.get ⟨i, hi⟩ with hedef
    have he : diffs.get? i = some e := List.get?_eq_get hi
    have hscan : ufScanAt c diffs (i + 1) =
        ufStepH c diffs (i : Int) (ufScanAt c diffs i) e := by
      simp only [ufScanAt, he]
    have hstep : ufStateAt c diffs (i + 1) =
        ufStep c (i : Int) (ufStateAt c diffs i) e := by
      simp only [ufStateAt, he]
    refine ⟨?_, ?_, ?_⟩
    · rw [hstep]
      simp only [ufStep, hin, if_pos, evalDiffInsideHunk, hop]
      constructor
      · intro h
        have := of_decide_eq_false h
        omega
      · intro h
        simp [decide_eq_false_iff_not]
        omega
    · intro hemp
      exact ((firstHunk_eqlRun c diffs i (Nat.le_of_lt hi) hemp).2 hin)
    · intro hcl
      have hcl2 : (evalDiffInsideHunk c (ufStateAt c diffs i) e).hunk
          = false := by
        rw [hstep] at hcl
        simpa [ufStep, hin] using hcl
      have hflush : (ufScanAt c diffs (i + 1)).2 =
          (ufScanAt c diffs i).2 ++
            [mkHunk c diffs (ufStateAt c diffs (i + 1))] := by
        rw [hscan, hstep]
        simp [ufStepH, ufScanAt_fst c diffs i, hin, hcl2, ufStep]
      obtain ⟨hL, hR⟩ := ufStateAt_counters c diffs (i + 1) hi
      refine ⟨hflush, ?_, ?_⟩
      · simp [mkHunk, hcl, hL]
      · simp [mkHunk, hcl, hR]
  · intro hopen
    obtain ⟨hL, hR⟩ :=
      ufStateAt_counters c diffs diffs.length (Nat.le_refl _)
    refine ⟨?_, ?_, ?_⟩
    · simp [unifiedHunks, ufScanAt_fst, hopen]
    · simp [mkHunk, hopen, hL]
    · simp [mkHunk, hopen, hR]

/-- Witness for C4 amended at concrete inputs: with context 0 and the
script Deleted-then-Equal the open hunk closes on the Equal entry
(counter 1 exceeds 0) and is flushed with extents reduced by 1; with
the one-entry script Deleted the hunk is still open at end-of-script
and is flushed with the final counters. -/
theorem hunk_close_and_flush_wit :
    (((ufStateAt 0 [⟨Op.del, "d"⟩, ⟨Op.eql, "e"⟩] 2).hunk = false ↔
        2 * 0 < (ufStateAt 0 [⟨Op.del, "d"⟩, ⟨Op.eql, "e"⟩] 1).eqlRun + 1) ∧
      (ufStateAt 0 [⟨Op.del, "d"⟩, ⟨Op.eql, "e"⟩] 1).eqlRun =
        trailingEqlCount ([⟨Op.del, "d"⟩, ⟨Op.eql, "e"⟩].take 1)) ∧
    unifiedHunks 0 [⟨Op.del, "d"⟩] =
      (ufScanAt 0 [⟨Op.del, "d"⟩] 1).2 ++
        [mkHunk 0 [⟨Op.del, "d"⟩] (ufStateAt 0 [⟨Op.del, "d"⟩] 1)] := by
  have h1 := hunk_close_and_flush 0 [⟨Op.del, "d"⟩, ⟨Op.eql, "e"⟩]
  have h2 := hunk_close_and_flush 0 [⟨Op.del, "d"⟩]
  have ha := h1.1 1 (by decide) (by decide) (by decide)
  exact ⟨⟨ha.1, ha.2.1 (by decide)⟩, (h2.2 (by decide)).1⟩

/-! ## readLines: unterminated fragments are dropped -/

/-- With no newline in the remaining input, `readLines` reaches
end-of-input and discards the pending characters (the `io.EOF`
break without an append). -/
lemma readLinesAux_no_newline (cs : List Char) (acc : List Char)
    (h : ('\n' : Char) ∉ cs) : readLinesAux cs acc = [] := by
  induction cs generalizing acc with
  | nil => rfl
  | cons c rest ih =>
    have hc : c ≠ '\n' := fun hc => h (hc ▸ List.mem_cons_self c rest)
    have hr : ('\n' : Char) ∉ rest := fun hr => h (List.mem_cons_of_mem c hr)
    simp [readLinesAux, hc, ih _ hr]

/-- Reading one newline-terminated line appends it (terminator
included) and continues with an empty accumulator. -/
lemma readLinesAux_line (t : List Char) (cs acc : List Char)
    (h : ('\n' : Char) ∉ t) :
    readLinesAux (t ++ '\n' :: cs) acc =
      String.mk (acc ++ t ++ ['\n']) :: readLinesAux cs [] := by
  induction t generalizing acc with
  | nil => simp [readLinesAux]
  | cons c rest ih =>
    have hc : c ≠ '\n' := fun hc => h (hc ▸ List.mem_cons_self c rest)
    have hr : ('\n' : Char) ∉ rest := fun hr => h (List.mem_cons_of_mem c hr)
    rw [List.cons_append, readLinesAux, if_neg hc, ih (acc ++ [c]) hr]
    simp

/-- `readLines` keeps exactly the newline-terminated lines of the
input and silently drops the final unterminated fragment. -/
lemma readLines_join (ls : List String) (frag : String)
    (hls : ∀ s ∈ ls, ∃ t : String, s = t ++ "\n" ∧ ('\n' : Char) ∉ t.data)
    (hf : ('\n' : Char) ∉ frag.data) :
    readLines (String.join ls ++ frag) = ls := by
  induction ls with
  | nil =>
    have : (String.join [] ++ frag).data = frag.data := by
      simp [String.data_append]
    simp only [readLines, this]
    exact readLinesAux_no_newline frag.data [] hf
  | cons s ls ih =>
    obtain ⟨t, hst, hnt⟩ := hls s (List.mem_cons_self s ls)
    have hdata : (String.join (s :: ls) ++ frag).data =
        t.data ++ '\n' :: (String.join ls ++ frag).data := by
      simp [String.data_append, String.data_join, hst]
    simp only [readLines, hdata]
    rw [readLinesAux_line t.data _ [] hnt]
    have hrest : readLinesAux (String.join ls ++ frag).data [] = ls := by
      have := ih (fun x hx => hls x (List.mem_cons_of_mem s hx))
      simpa [readLines] using this
    rw [hrest]
    congr 1
    rw [hst]
    apply String.ext
    simp [String.data_append]

/-- Every line kept by `readLines` contains a newline. -/
lemma readLines_mem_newline (content : String) (s : String)
    (hs : s ∈ readLines content) : ('\n' : Char) ∈ s.data := by
  suffices h : ∀ cs acc s, s ∈ readLinesAux cs acc → ('\n' : Char) ∈ s.data by
    exact h content.data [] s hs
  intro cs
  induction cs with
  | nil => intro acc s hmem; simp [readLinesAux] at hmem
  | cons c rest ih =>
    intro acc s hmem
    by_cases hc : c = '\n'
    · rw [readLinesAux, if_pos hc] at hmem
      rcases List.mem_cons.mp hmem with h1 | h1
      · rw [h1, hc]
        simp
      · exact ih [] s h1
    · rw [readLinesAux, if_neg hc] at hmem
      exact ih (acc ++ [c]) s hmem

/-! ## Claim C6: hunk coverage and header consistency -/

lemma cntL_append (xs ys : List LineDiff) :
    cntL (xs ++ ys) = cntL xs + cntL ys := by
  simp [cntL, collectLeft]

lemma cntR_append (xs ys : List LineDiff) :
    cntR (xs ++ ys) = cntR xs + cntR ys := by
  simp [cntR, collectRight]

lemma cntL_nonneg (xs : List LineDiff) : 0 ≤ cntL xs := by
  simp [cntL]

lemma cntR_nonneg (xs : List LineDiff) : 0 ≤ cntR xs := by
  simp [cntR]

/-- Each entry is consumed from at least one side. -/
lemma cnt_sum_ge (xs : List LineDiff) : (xs.length : Int) ≤ cntL xs + cntR xs := by
  induction xs with
  | nil => simp [cntL, cntR, collectLeft, collectRight]
  | cons e rest ih =>
    have hL : cntL (e :: rest) = cntL [e] + cntL rest := by
      simpa using cntL_append [e] rest
    have hR : cntR (e :: rest) = cntR [e] + cntR rest := by
      simpa using cntR_append [e] rest
    have he : 1 ≤ cntL [e] + cntR [e] := by
      cases hop : e.op <;> simp [cntL, cntR, collectLeft, collectRight, hop]
    simp only [List.length_cons]
    push_cast
    omega

/-- An all-Equal segment is consumed whole on both sides. -/
lemma cntL_all_eql (xs : List LineDiff) (h : ∀ e ∈ xs, e.op = Op.eql) :
    cntL xs = xs.length := by
  induction xs with
  | nil => simp [cntL, collectLeft]
  | cons e rest ih =>
    have he := h e (List.mem_cons_self e rest)
    have hL : cntL (e :: rest) = cntL [e] + cntL rest := by
      simpa using cntL_append [e] rest
    have ih2 := ih (fun x hx => h x (List.mem_cons_of_mem e hx))
    simp only [List.length_cons]
    rw [hL, ih2]
    simp [cntL, collectLeft, he]
    ring

/-- An all-Equal segment is consumed whole on both sides. -/
lemma cntR_all_eql (xs : List LineDiff) (h : ∀ e ∈ xs, e.op = Op.eql) :
    cntR xs = xs.length := by
  induction xs with
  | nil => simp [cntR, collectRight]
  | cons e rest ih =>
    have he := h e (List.mem_cons_self e rest)
    have hR : cntR (e :: rest) = cntR [e] + cntR rest := by
      simpa using cntR_append [e] rest
    have ih2 := ih (fun x hx => h x (List.mem_cons_of_mem e hx))
    simp only [List.length_cons]
    rw [hR, ih2]
    simp [cntR, collectRight, he]
    ring

/-- The body-emission loop of `formatHunk` emits exactly the prefix of
the slice whose consumed-line counts on both sides equal the given
extents: the two remaining counters hit zero simultaneously exactly at
the end of that prefix. -/
lemma emitHunkBody_take (m : Nat) : ∀ (s : List LineDiff), 1 ≤ m →
    m ≤ s.length →
    emitHunkBody (cntL (s.take m)) (cntR (s.take m)) s = s.take m := by
  induction m with
  | zero => intro s h1; omega
  | succ m ih =>
    intro s _ hm
    match s with
    | [] => simp at hm
    | e :: rest =>
      have hsplit : (e :: rest).take (m + 1) = [e] ++ rest.take m := by
        simp
      rw [hsplit, cntL_append, cntR_append]
      rcases Nat.eq_zero_or_pos m with hm0 | hmpos
      · subst hm0
        simp only [List.take_zero]
        cases hop : e.op <;>
          simp [emitHunkBody, cntL, cntR, collectLeft, collectRight, hop]
      · have hmr : m ≤ rest.length := by simpa using hm
        have hne : rest.take m ≠ [] := by
          intro hcon
          have := congrArg List.length hcon
          simp [Nat.min_eq_left hmr] at this
          omega
        have hlen : 1 ≤ ((rest.take m).length : Int) := by
          have : 0 < (rest.take m).length := List.length_pos.mpr hne
          exact_mod_cast this
        have hsum := cnt_sum_ge (rest.take m)
        have hnz : ¬(cntL (rest.take m) = 0 ∧ cntR (rest.take m) = 0) := by
          rintro ⟨h1, h2⟩
          rw [h1, h2] at hsum
          omega
        have hrec := ih rest hmpos hmr
        have harith : ∀ z : Int, 1 + z - 1 = z := fun z => by ring
        cases hop : e.op with
        | eql =>
          have hL1 : cntL [e] = 1 := by simp [cntL, collectLeft, hop]
          have hR1 : cntR [e] = 1 := by simp [cntR, collectRight, hop]
          rw [hL1, hR1]
          simp only [emitHunkBody, hop, harith]
          rw [if_neg hnz, hrec]
          rfl
        | add =>
          have hL1 : cntL [e] = 0 := by simp [cntL, collectLeft, hop]
          have hR1 : cntR [e] = 1 := by simp [cntR, collectRight, hop]
          rw [hL1, hR1]
          simp only [emitHunkBody, hop, harith, zero_add]
          rw [if_neg hnz, hrec]
          rfl
        | del =>
          have hL1 : cntL [e] = 1 := by simp [cntL, collectLeft, hop]
          have hR1 : cntR [e] = 0 := by simp [cntR, collectRight, hop]
          rw [hL1, hR1]
          simp only [emitHunkBody, hop, harith, zero_add]
          rw [if_neg hnz, hrec]
          rfl

/-- Positional all-Equal facts transfer to the extracted segment. -/
lemma all_eql_segment (diffs : List LineDiff) (a b : Nat)
    (h : ∀ j (hj : j < diffs.length), a ≤ j → j < b →
      (diffs.get ⟨j, hj⟩).op = Op.eql) :
    ∀ e ∈ (diffs.drop a).take (b - a), e.op = Op.eql := by
  intro e he
  obtain ⟨t, ht, rfl⟩ := List.mem_iff_getElem.mp he
  have ht2 : t < b - a := lt_of_lt_of_le ht (by simp)
  have ht4 : t < diffs.length - a := by
    have h5 := ht
    rw [List.length_take, List.length_drop] at h5
    omega
  have ht3 : a + t < diffs.length := by omega
  have hget : ((diffs.drop a).take (b - a))[t] = diffs[a + t] := by
    rw [List.getElem_take, List.getElem_drop]
  rw [hget]
  exact h (a + t) ht3 (Nat.le_add_right a t) (by omega)

/-- A prefix of the all-Equal opening run is all Equal. -/
lemma take_of_all_eql (diffs : List LineDiff) (i0 n : Nat) (hn : n ≤ i0)
    (h : ∀ e ∈ diffs.take i0, e.op = Op.eql) :
    ∀ e ∈ diffs.take n, e.op = Op.eql := by
  intro e he
  apply h
  have : diffs.take n = (diffs.take i0).take n := by
    rw [List.take_take, Nat.min_eq_left hn]
  rw [this] at he
  exact List.mem_of_mem_take he

/-- Flushing a hunk still open at end-of-script: the emitted hunk is
header-consistent and its index range covers every change. -/
lemma mkHunk_flush_spec (c : Int) (diffs : List LineDiff)
    (s : UFState) (i0 : Nat) (h0len : i0 < diffs.length)
    (h0eql : ∀ e ∈ diffs.take i0, e.op = Op.eql)
    (hSL : s.hunkStartLeft = ((i0 - c.toNat : Nat) : Int))
    (hSR : s.hunkStartRight = ((i0 - c.toNat : Nat) : Int))
    (hHI : s.hunkIndex = ((i0 - c.toNat : Nat) : Int))
    (hLc : s.leftLine = cntL diffs)
    (hRc : s.rightLine = cntR diffs)
    (hopen : s.hunk = true) :
    hunkConsistent (mkHunk c diffs s) ∧
    hunkCoversUpTo diffs diffs.length (mkHunk c diffs s) := by
  set hIN : Nat := i0 - c.toNat with hINdef
  have hINle : hIN ≤ i0 := Nat.sub_le _ _
  have hINlt : hIN < diffs.length := lt_of_le_of_lt hINle h0len
  set slice : List LineDiff := diffs.drop hIN with hslice
  have hslen : slice.length = diffs.length - hIN := by simp [hslice]
  have hm1 : 1 ≤ slice.length := by omega
  have hsplitL : cntL diffs = hIN + cntL slice := by
    have h1 : diffs = diffs.take hIN ++ slice := (List.take_append_drop hIN diffs).symm
    have h2 : cntL (diffs.take hIN) = (diffs.take hIN).length :=
      cntL_all_eql _ (take_of_all_eql diffs i0 hIN hINle h0eql)
    have h3 : (diffs.take hIN).length = hIN := by
      simp [Nat.min_eq_left (le_of_lt hINlt)]
    calc cntL diffs = cntL (diffs.take hIN ++ slice) := by rw [← h1]
    _ = cntL (diffs.take hIN) + cntL slice := cntL_append _ _
    _ = hIN + cntL slice := by rw [h2, h3]
  have hsplitR : cntR diffs = hIN + cntR slice := by
    have h1 : diffs = diffs.take hIN ++ slice := (List.take_append_drop hIN diffs).symm
    have h2 : cntR (diffs.take hIN) = (diffs.take hIN).length :=
      cntR_all_eql _ (take_of_all_eql diffs i0 hIN hINle h0eql)
    have h3 : (diffs.take hIN).length = hIN := by
      simp [Nat.min_eq_left (le_of_lt hINlt)]
    calc cntR diffs = cntR (diffs.take hIN ++ slice) := by rw [← h1]
    _ = cntR (diffs.take hIN) + cntR slice := cntR_append _ _
    _ = hIN + cntR slice := by rw [h2, h3]
  have hextL : s.leftLine - s.hunkStartLeft = cntL (slice.take slice.length) := by
    rw [hLc, hSL, List.take_length, hsplitL]
    ring
  have hextR : s.rightLine - s.hunkStartRight = cntR (slice.take slice.length) := by
    rw [hRc, hSR, List.take_length, hsplitR]
    ring
  have hbody : emitHunkBody (s.leftLine - s.hunkStartLeft)
      (s.rightLine - s.hunkStartRight) slice = slice.take slice.length := by
    rw [hextL, hextR]
    exact emitHunkBody_take slice.length slice hm1 (le_refl _)
  have hHIN : s.hunkIndex.toNat = hIN := by rw [hHI]; simp
  have hmk : mkHunk c diffs s =
      ⟨s.hunkStartLeft, s.leftLine - s.hunkStartLeft, s.hunkStartRight,
        s.rightLine - s.hunkStartRight, s.hunkIndex,
        slice.take slice.length⟩ := by
    rw [mkHunk]
    simp only [hopen, if_pos, hHIN, ← hslice, hbody]
  constructor
  · rw [hmk]
    exact ⟨hextL, hextR⟩
  · intro j hj hjlen hne
    rw [hmk]
    simp only [List.take_length]
    have hji0 : i0 ≤ j := by
      by_contra hlt
      push_neg at hlt
      have hjt : j < (diffs.take i0).length := by
        rw [List.length_take, Nat.min_eq_left (le_of_lt h0len)]
        exact hlt
      have hsame : (diffs.take i0).get ⟨j, hjt⟩ = diffs.get ⟨j, hj⟩ := by
        simp [List.get_eq_getElem, List.getElem_take]
      exact hne (hsame ▸ h0eql _ (List.get_mem _ _ _))
    constructor
    · rw [hHI]
      exact_mod_cast le_trans hINle hji0
    · rw [hHI, hslen]
      omega

/-- Flushing a hunk that closed on an Equal entry after a full trailing
context run: the emitted hunk is header-consistent and covers every
change of the scanned prefix. -/
lemma mkHunk_close_spec (c : Int) (diffs : List LineDiff) (hc : 0 ≤ c)
    (s : UFState) (i0 n : Nat) (h0len : i0 < diffs.length)
    (hn : n ≤ diffs.length)
    (h0eql : ∀ e ∈ diffs.take i0, e.op = Op.eql)
    (hrun : ∀ j (hj : j < diffs.length), n - (2 * c.toNat + 1) ≤ j →
      j < n → (diffs.get ⟨j, hj⟩).op = Op.eql)
    (hlow : i0 + 2 * c.toNat + 2 ≤ n)
    (hSL : s.hunkStartLeft = ((i0 - c.toNat : Nat) : Int))
    (hSR : s.hunkStartRight = ((i0 - c.toNat : Nat) : Int))
    (hHI : s.hunkIndex = ((i0 - c.toNat : Nat) : Int))
    (hLc : s.leftLine = cntL (diffs.take n))
    (hRc : s.rightLine = cntR (diffs.take n))
    (hclosed : s.hunk = false) :
    hunkConsistent (mkHunk c diffs s) ∧
    hunkCoversUpTo diffs n (mkHunk c diffs s) := by
  set cN : Nat := c.toNat with hcN
  have hcc : (cN : Int) = c := Int.toNat_of_nonneg hc
  set hIN : Nat := i0 - cN with hINdef
  have hINle : hIN ≤ i0 := Nat.sub_le _ _
  have hINlt : hIN < diffs.length := lt_of_le_of_lt hINle h0len
  set slice : List LineDiff := diffs.drop hIN with hslice
  have hslen : slice.length = diffs.length - hIN := by simp [hslice]
  set m : Nat := n - cN - 1 - hIN with hmdef
  have hm1 : 1 ≤ m := by omega
  have hmle : m ≤ slice.length := by omega
  have hsum1 : hIN + m = n - cN - 1 := by omega
  have hsum2 : (n - cN - 1) + (cN + 1) = n := by omega
  -- split the scanned prefix into [0, hIN) ++ [hIN, n-cN-1) ++ trailing context
  have hsplitA : diffs.take n =
      diffs.take (n - cN - 1) ++ (diffs.drop (n - cN - 1)).take (cN + 1) := by
    rw [← List.take_add, hsum2]
  have hsplitB : diffs.take (n - cN - 1) = diffs.take hIN ++ slice.take m := by
    rw [hslice, ← List.take_add, hsum1]
  have hsegEql : ∀ e ∈ (diffs.drop (n - cN - 1)).take (cN + 1), e.op = Op.eql := by
    have heq : n - (n - cN - 1) = cN + 1 := by omega
    have := all_eql_segment diffs (n - cN - 1) n
      (fun j hj hj1 hj2 => hrun j hj (by omega) hj2)
    rw [heq] at this
    exact this
  have hseglen : ((diffs.drop (n - cN - 1)).take (cN + 1)).length = cN + 1 := by
    rw [List.length_take, List.length_drop]
    omega
  have hpreL : cntL (diffs.take hIN) = hIN := by
    have h2 := cntL_all_eql _ (take_of_all_eql diffs i0 hIN hINle h0eql)
    rw [h2, List.length_take]
    omega
  have hpreR : cntR (diffs.take hIN) = hIN := by
    have h2 := cntR_all_eql _ (take_of_all_eql diffs i0 hIN hINle h0eql)
    rw [h2, List.length_take]
    omega
  have hcntLn : cntL (diffs.take n) = hIN + cntL (slice.take m) + (cN + 1) := by
    rw [hsplitA, cntL_append, hsplitB, cntL_append, hpreL,
      cntL_all_eql _ hsegEql, hseglen]
    push_cast
    ring
  have hcntRn : cntR (diffs.take n) = hIN + cntR (slice.take m) + (cN + 1) := by
    rw [hsplitA, cntR_append, hsplitB, cntR_append, hpreR,
      cntR_all_eql _ hsegEql, hseglen]
    push_cast
    ring
  have hextL : s.leftLine - s.hunkStartLeft - (c + 1) = cntL (slice.take m) := by
    rw [hLc, hSL, hcntLn, ← hcc]
    ring
  have hextR : s.rightLine - s.hunkStartRight - (c + 1) = cntR (slice.take m) := by
    rw [hRc, hSR, hcntRn, ← hcc]
    ring
  have hbody : emitHunkBody (s.leftLine - s.hunkStartLeft - (c + 1))
      (s.rightLine - s.hunkStartRight - (c + 1)) slice = slice.take m := by
    rw [hextL, hextR]
    exact emitHunkBody_take m slice hm1 hmle
  have hHIN : s.hunkIndex.toNat = hIN := by rw [hHI]; simp
  have hmk : mkHunk c diffs s =
      ⟨s.hunkStartLeft, s.leftLine - s.hunkStartLeft - (c + 1),
        s.hunkStartRight, s.rightLine - s.hunkStartRight - (c + 1),
        s.hunkIndex, slice.take m⟩ := by
    rw [mkHunk]
    simp only [hclosed, Bool.false_eq_true, if_false, hHIN, ← hslice, hbody]
  have hblen : (slice.take m).length = m := by
    rw [List.length_take]
    omega
  constructor
  · rw [hmk]
    exact ⟨hextL, hextR⟩
  · intro j hj hjn hne
    rw [hmk]
    simp only
    have hji0 : i0 ≤ j := by
      by_contra hlt
      push_neg at hlt
      have hjt : j < (diffs.take i0).length := by
        rw [List.length_take, Nat.min_eq_left (le_of_lt h0len)]
        exact hlt
      have hsame : (diffs.take i0).get ⟨j, hjt⟩ = diffs.get ⟨j, hj⟩ := by
        simp [List.get_eq_getElem, List.getElem_take]
      exact hne (hsame ▸ h0eql _ (List.get_mem _ _ _))
    have hjhigh : j < n - (2 * cN + 1) := by
      by_contra hge
      push_neg at hge
      exact hne (hrun j hj hge hjn)
    constructor
    · rw [hHI]
      exact_mod_cast le_trans hINle hji0
    · rw [hHI, hblen]
      omega

/-- Clamping at zero in terms of truncated subtraction. -/
lemma max_sub_toNat (c : Int) (hc : 0 ≤ c) (a : Nat) :
    max ((a : Int) - c) 0 = ((a - c.toNat : Nat) : Int) := by
  omega

/-- The phase invariant of the unified formatter scan. -/
lemma ufPhases (c : Int) (diffs : List LineDiff) (hc : 0 ≤ c) :
    ∀ i, i ≤ diffs.length →
      ufPhase0 c diffs i ∨ ufPhase1 c diffs i ∨ ufPhase2 c diffs i ∨
        ufPhase3 c diffs i := by
  intro i
  induction i with
  | zero =>
    intro _
    exact Or.inl ⟨by simp, by simp [ufScanAt, ufInit]⟩
  | succ i ih =>
    intro hi
    have hi' : i ≤ diffs.length := Nat.le_of_succ_le hi
    have hilt : i < diffs.length := Nat.lt_of_succ_le hi
    set e := diffs.get ⟨i, hilt⟩ with hedef
    have he : diffs.get? i = some e := List.get?_eq_get hilt
    have htake : diffs.take (i + 1) = diffs.take i ++ [e] := by
      rw [List.take_succ]
      simp [List.getElem?_eq_getElem hilt, hedef, List.get_eq_getElem]
    have hscan : ufScanAt c diffs (i + 1) =
        ufStepH c diffs (i : Int) (ufScanAt c diffs i) e := by
      simp only [ufScanAt, he]
    have hstep : ufStateAt c diffs (i + 1) =
        ufStep c (i : Int) (ufStateAt c diffs i) e := by
      simp only [ufStateAt, he]
    have hfst := ufScanAt_fst c diffs i
    rcases ih hi' with hP | hP | hP | hP
    · -- Phase 0
      obtain ⟨hall, hsc⟩ := hP
      have hstate : ufStateAt c diffs i = ⟨(i : Int), (i : Int), false, 0, 0, 0, 0⟩ := by
        rw [← hfst, hsc]
      cases hop : e.op with
      | eql =>
        refine Or.inl ⟨?_, ?_⟩
        · intro x hx
          rw [htake] at hx
          rcases List.mem_append.mp hx with h1 | h1
          · exact hall x h1
          · simp at h1
            rw [h1, hop]
        · rw [hscan, hsc]
          simp [ufStepH, evalDiffOutsideHunk, hop]
      | add =>
        refine Or.inr (Or.inl ⟨i, 0, hilt, by omega, hall, by rw [hop]; simp, ?_, ?_, ?_, ?_, ?_, ?_, by omega, ?_⟩)
        · rw [hscan, hsc]
          simp [ufStepH, evalDiffOutsideHunk, hop]
        · rw [hstep, hstate]
          simp [ufStep, evalDiffOutsideHunk, hop]
        · rw [hstep, hstate]
          simp [ufStep, evalDiffOutsideHunk, hop, max_sub_toNat c hc i]
        · rw [hstep, hstate]
          simp [ufStep, evalDiffOutsideHunk, hop, max_sub_toNat c hc i]
        · rw [hstep, hstate]
          simp [ufStep, evalDiffOutsideHunk, hop, max_sub_toNat c hc i]
        · rw [hstep, hstate]
          simp [ufStep, evalDiffOutsideHunk, hop]
        · intro j hj hjl hju
          omega
      | del =>
        refine Or.inr (Or.inl ⟨i, 0, hilt, by omega, hall, by rw [hop]; simp, ?_, ?_, ?_, ?_, ?_, ?_, by omega, ?_⟩)
        · rw [hscan, hsc]
          simp [ufStepH, evalDiffOutsideHunk, hop]
        · rw [hstep, hstate]
          simp [ufStep, evalDiffOutsideHunk, hop]
        · rw [hstep, hstate]
          simp [ufStep, evalDiffOutsideHunk, hop, max_sub_toNat c hc i]
        · rw [hstep, hstate]
          simp [ufStep, evalDiffOutsideHunk, hop, max_sub_toNat c hc i]
        · rw [hstep, hstate]
          simp [ufStep, evalDiffOutsideHunk, hop, max_sub_toNat c hc i]
        · rw [hstep, hstate]
          simp [ufStep, evalDiffOutsideHunk, hop]
        · intro j hj hjl hju
          omega
    · -- Phase 1
      obtain ⟨i0, run, h0, hlt, h0eql, h0ne, hemp, hin, hSL, hSR, hHI, hrun,
        hrle, hpos⟩ := hP
      cases hop : e.op with
      | eql =>
        by_cases hstay : run + 1 ≤ 2 * c.toNat
        · -- the hunk stays open
          have hopen : (evalDiffInsideHunk c (ufStateAt c diffs i) e).hunk
              = true := by
            simp [evalDiffInsideHunk, hop, hrun]
            omega
          refine Or.inr (Or.inl ⟨i0, run + 1, h0, by omega, h0eql, h0ne, ?_, ?_, ?_, ?_, ?_, ?_, hstay, ?_⟩)
          · rw [hscan]
            simp [ufStepH, hfst, hin, hopen, hemp]
          · rw [hstep]
            simp [ufStep, hin, hopen]
          · rw [hstep]
            simp [ufStep, hin, evalDiffInsideHunk, hop, hSL]
          · rw [hstep]
            simp [ufStep, hin, evalDiffInsideHunk, hop, hSR]
          · rw [hstep]
            simp [ufStep, hin, evalDiffInsideHunk, hop, hHI]
          · rw [hstep]
            simp [ufStep, hin, evalDiffInsideHunk, hop, hrun]
          · intro j hj hjl hju
            rcases Nat.lt_or_ge j i with hji | hji
            · exact hpos j hj (by omega) hji
            · have hji2 : j = i := by omega
              subst hji2
              exact hedef ▸ hop
        · -- the hunk closes: the single hunk is emitted
          have hrun2cN : run = 2 * c.toNat := by omega
          have hclosed : (evalDiffInsideHunk c (ufStateAt c diffs i) e).hunk
              = false := by
            simp [evalDiffInsideHunk, hop, hrun]
            omega
          have hstate1 : ufStateAt c diffs (i + 1) =
              evalDiffInsideHunk c (ufStateAt c diffs i) e := by
            rw [hstep]
            simp [ufStep, hin]
          have hclosed1 : (ufStateAt c diffs (i + 1)).hunk = false := by
            rw [hstate1]
            exact hclosed
          have hscan1 : ufScanAt c diffs (i + 1) =
              (ufStateAt c diffs (i + 1),
                [mkHunk c diffs (ufStateAt c diffs (i + 1))]) := by
            rw [hscan, hstate1]
            simp [ufStepH, hfst, hin, hclosed, hemp]
          obtain ⟨hLc, hRc⟩ := ufStateAt_counters c diffs (i + 1) hi
          have hSL1 : (ufStateAt c diffs (i + 1)).hunkStartLeft =
              ((i0 - c.toNat : Nat) : Int) := by
            rw [hstate1]
            simpa [evalDiffInsideHunk, hop] using hSL
          have hSR1 : (ufStateAt c diffs (i + 1)).hunkStartRight =
              ((i0 - c.toNat : Nat) : Int) := by
            rw [hstate1]
            simpa [evalDiffInsideHunk, hop] using hSR
          have hHI1 : (ufStateAt c diffs (i + 1)).hunkIndex =
              ((i0 - c.toNat : Nat) : Int) := by
            rw [hstate1]
            simpa [evalDiffInsideHunk, hop] using hHI
          have hspec := mkHunk_close_spec c diffs hc
            (ufStateAt c diffs (i + 1)) i0 (i + 1) h0 hi h0eql
            (fun j hj hjl hju => by
              rcases Nat.lt_or_ge j i with hji | hji
              · exact hpos j hj (by omega) hji
              · have hji2 : j = i := by omega
                subst hji2
                exact hedef ▸ hop)
            (by omega) hSL1 hSR1 hHI1 (by rw [hLc]; rfl) (by rw [hRc]; rfl)
            hclosed1
          refine Or.inr (Or.inr (Or.inl
            ⟨mkHunk c diffs (ufStateAt c diffs (i + 1)), ?_, hclosed1,
              hspec.1, ?_⟩))
          · rw [hscan1]
          · exact hspec.2
      | add =>
        have hopen : (evalDiffInsideHunk c (ufStateAt c diffs i) e).hunk
            = true := by
          simpa [evalDiffInsideHunk, hop] using hin
        refine Or.inr (Or.inl ⟨i0, 0, h0, by omega, h0eql, h0ne, ?_, ?_, ?_, ?_, ?_, ?_, by omega, ?_⟩)
        · rw [hscan]
          simp [ufStepH, hfst, hin, hopen, hemp]
        · rw [hstep]
          simp [ufStep, hin, hopen]
        · rw [hstep]
          simp [ufStep, hin, evalDiffInsideHunk, hop, hSL]
        · rw [hstep]
          simp [ufStep, hin, evalDiffInsideHunk, hop, hSR]
        · rw [hstep]
          simp [ufStep, hin, evalDiffInsideHunk, hop, hHI]
        · rw [hstep]
          simp [ufStep, hin, evalDiffInsideHunk, hop]
        · intro j hj hjl hju
          omega
      | del =>
        have hopen : (evalDiffInsideHunk c (ufStateAt c diffs i) e).hunk
            = true := by
          simpa [evalDiffInsideHunk, hop] using hin
        refine Or.inr (Or.inl ⟨i0, 0, h0, by omega, h0eql, h0ne, ?_, ?_, ?_, ?_, ?_, ?_, by omega, ?_⟩)
        · rw [hscan]
          simp [ufStepH, hfst, hin, hopen, hemp]
        · rw [hstep]
          simp [ufStep, hin, hopen]
        · rw [hstep]
          simp [ufStep, hin, evalDiffInsideHunk, hop, hSL]
        · rw [hstep]
          simp [ufStep, hin, evalDiffInsideHunk, hop, hSR]
        · rw [hstep]
          simp [ufStep, hin, evalDiffInsideHunk, hop, hHI]
        · rw [hstep]
          simp [ufStep, hin, evalDiffInsideHunk, hop]
        · intro j hj hjl hju
          omega
    · -- Phase 2
      obtain ⟨H, hone, hout, hcons, hcov⟩ := hP
      cases hop : e.op with
      | eql =>
        have hstill : (evalDiffOutsideHunk c (ufStateAt c diffs i) e).hunk
            = false := by
          simpa [evalDiffOutsideHunk, hop] using hout
        refine Or.inr (Or.inr (Or.inl ⟨H, ?_, ?_, hcons, ?_⟩))
        · rw [hscan]
          simp [ufStepH, hfst, hout, hstill, hone]
        · rw [hstep]
          simp [ufStep, hout, hstill]
        · intro j hj hjl hne
          rcases Nat.lt_or_ge j i with hji | hji
          · exact hcov j hj hji hne
          · exfalso
            have hji2 : j = i := by omega
            subst hji2
            exact hne (hedef ▸ hop)
      | add =>
        have hopened : (evalDiffOutsideHunk c (ufStateAt c diffs i) e).hunk
            = true := by
          simp [evalDiffOutsideHunk, hop]
        refine Or.inr (Or.inr (Or.inr (Or.inr ⟨?_, ?_⟩)))
        · rw [hscan]
          simp [ufStepH, hfst, hout, hopened, hone]
        · rw [hstep]
          simp [ufStep, hout, hopened]
      | del =>
        have hopened : (evalDiffOutsideHunk c (ufStateAt c diffs i) e).hunk
            = true := by
          simp [evalDiffOutsideHunk, hop]
        refine Or.inr (Or.inr (Or.inr (Or.inr ⟨?_, ?_⟩)))
        · rw [hscan]
          simp [ufStepH, hfst, hout, hopened, hone]
        · rw [hstep]
          simp [ufStep, hout, hopened]
    · -- Phase 3
      rcases hP with h2 | ⟨h1, hopen⟩
      · refine Or.inr (Or.inr (Or.inr (Or.inl ?_)))
        obtain ⟨hs, hhs⟩ := ufScanAt_hunks_mono c diffs i (i + 1) (Nat.le_succ i)
        rw [hhs]
        simp only [List.length_append]
        omega
      · by_cases ht : (evalDiffInsideHunk c (ufStateAt c diffs i) e).hunk
        · refine Or.inr (Or.inr (Or.inr (Or.inr ⟨?_, ?_⟩)))
          · rw [hscan]
            simp only [ufStepH, hfst, hopen, if_pos, ht, if_true]
            exact h1
          · rw [hstep]
            simp [ufStep, hopen, ht]
        · refine Or.inr (Or.inr (Or.inr (Or.inl ?_)))
          rw [hscan]
          simp only [ufStepH, hfst, hopen, if_pos, ht]
          simp only [Bool.false_eq_true, if_false, List.length_append,
            List.length_cons, List.length_nil]
          omega

/-- C6 counterexample: on `closeCex` with context 1 the formatter emits
two hunks and the second hunk's header extents do not match the line
counts of its emitted body (the stale consecutive-equal counter closes
it after a single Equal entry), so hunk headers are not always
internally consistent. -/
theorem unified_hunk_header_mismatch :
    (unifiedHunks 1 closeCex).length = 2 ∧
    ∃ h ∈ unifiedHunks 1 closeCex,
      ¬(h.extL = cntL h.body ∧ h.extR = cntR h.body) := by
  refine ⟨by decide, ?_⟩
  decide

/-- C6 amended: for every edit script and context `c ≥ 0` on which the
formatter opens at most one hunk, every non-Equal entry lies inside the
emitted index range of a hunk, the emitted hunk is unique, and every
emitted hunk's header extents equal the number of Equal-or-Deleted and
Equal-or-Added lines of its body. -/
theorem unified_single_hunk (c : Int) (diffs : List LineDiff) (hc : 0 ≤ c)
    (hone : (unifiedHunks c diffs).length ≤ 1) :
    (∀ h ∈ unifiedHunks c diffs,
      h.extL = cntL h.body ∧ h.extR = cntR h.body) ∧
    (∀ j (hj : j < diffs.length), (diffs.get ⟨j, hj⟩).op ≠ Op.eql →
      ∃ h ∈ unifiedHunks c diffs,
        h.hunkIndex ≤ (j : Int) ∧ (j : Int) < h.hunkIndex + h.body.length) ∧
    (∀ h1 ∈ unifiedHunks c diffs, ∀ h2 ∈ unifiedHunks c diffs, h1 = h2) := by
  have hfst := ufScanAt_fst c diffs diffs.length
  rcases ufPhases c diffs hc diffs.length (le_refl _) with hP | hP | hP | hP
  · -- no change at all: no hunks
    obtain ⟨hall, hsc⟩ := hP
    have hu : unifiedHunks c diffs = [] := by
      simp [unifiedHunks, hsc]
    rw [hu]
    refine ⟨by simp, ?_, by simp⟩
    intro j hj hne
    exfalso
    have hjt : j < (diffs.take diffs.length).length := by
      simpa using hj
    have hsame : (diffs.take diffs.length).get ⟨j, hjt⟩ = diffs.get ⟨j, hj⟩ := by
      simp [List.get_eq_getElem, List.getElem_take]
    exact hne (hsame ▸ hall _ (List.get_mem _ _ _))
  · -- one hunk, still open at end-of-script: flushed there
    obtain ⟨i0, run, h0, hlt, h0eql, h0ne, hemp, hin, hSL, hSR, hHI, hrun,
      hrle, hpos⟩ := hP
    obtain ⟨hLc, hRc⟩ := ufStateAt_counters c diffs diffs.length (le_refl _)
    have hspec := mkHunk_flush_spec c diffs (ufStateAt c diffs diffs.length)
      i0 h0 h0eql hSL hSR hHI
      (by rw [hLc, List.take_length]; rfl)
      (by rw [hRc, List.take_length]; rfl) hin
    have hu : unifiedHunks c diffs =
        [mkHunk c diffs (ufStateAt c diffs diffs.length)] := by
      simp [unifiedHunks, hfst, hin, hemp]
    rw [hu]
    refine ⟨?_, ?_, ?_⟩
    · intro h hh
      simp at hh
      rw [hh]
      exact hspec.1
    · intro j hj hne
      exact ⟨_, List.mem_singleton_self _, hspec.2 j hj hj hne⟩
    · intro h1 hh1 h2 hh2
      simp at hh1 hh2
      rw [hh1, hh2]
  · -- one hunk, already emitted
    obtain ⟨H, hone2, hout, hcons, hcov⟩ := hP
    have hu : unifiedHunks c diffs = [H] := by
      simp [unifiedHunks, hfst, hout, hone2]
    rw [hu]
    refine ⟨?_, ?_, ?_⟩
    · intro h hh
      simp at hh
      rw [hh]
      exact hcons
    · intro j hj hne
      exact ⟨H, List.mem_singleton_self _, hcov j hj hj hne⟩
    · intro h1 hh1 h2 hh2
      simp at hh1 hh2
      rw [hh1, hh2]
  · -- impossible: at least two hunks, contradicting the hypothesis
    exfalso
    have h2 : 2 ≤ (unifiedHunks c diffs).length := by
      rcases hP with h2 | ⟨h1, hopen⟩
      · by_cases hfl : (ufScanAt c diffs diffs.length).1.hunk
        · have hu : unifiedHunks c diffs =
              (ufScanAt c diffs diffs.length).2 ++
                [mkHunk c diffs (ufScanAt c diffs diffs.length).1] := by
            simp [unifiedHunks, hfl]
          rw [hu, List.length_append, List.length_singleton]
          omega
        · have hu : unifiedHunks c diffs =
              (ufScanAt c diffs diffs.length).2 := by
            simp [unifiedHunks, hfl]
          rw [hu]
          exact h2
      · have hfl : (ufScanAt c diffs diffs.length).1.hunk = true := by
          rw [hfst]
          exact hopen
        have hu : unifiedHunks c diffs =
            (ufScanAt c diffs diffs.length).2 ++
              [mkHunk c diffs (ufScanAt c diffs diffs.length).1] := by
          simp [unifiedHunks, hfl]
        rw [hu, List.length_append, List.length_singleton]
        omega
    omega

/-- Witness for C6 amended at a concrete input: a single deletion with
context 1 yields one hunk whose range contains the change. -/
theorem unified_single_hunk_wit :
    ∃ h ∈ unifiedHunks 1 [⟨Op.del, "d"⟩],
      h.hunkIndex ≤ (0 : Int) ∧ (0 : Int) < h.hunkIndex + h.body.length :=
  (unified_single_hunk 1 [⟨Op.del, "d"⟩] (by decide) (by decide)).2.1
    0 (by decide) (by decide)

/-- One-step unfolding of the snake loop. -/
lemma snake_unfold (left right : List String) (x y : Int) :
    snake left right x y =
      if snakeGuard left right x y then snake left right (x + 1) (y + 1)
      else (x, y) := by
  by_cases h : snakeGuard left right x y
  · have hx : x < (left.length : Int) := h.1
    have hfuel : ((left.length : Int) - x).toNat =
        ((left.length : Int) - (x + 1)).toNat + 1 := by omega
    rw [snake, hfuel]
    rw [snakeAux, if_pos (⟨h.1, h.2.1, h.2.2⟩ :
      x < (left.length : Int) ∧ y < (right.length : Int) ∧
        left.getD x.toNat "" = right.getD y.toNat "")]
    rw [if_pos h, snake]
  · rw [if_neg h, snake]
    cases hfuel : ((left.length : Int) - x).toNat with
    | zero => rw [snakeAux]
    | succ n =>
      rw [snakeAux]
      rw [if_neg (fun hg => h ⟨hg.1, hg.2.1, hg.2.2⟩)]

/-- Destructed properties of the snake: the result dominates the start,
stays on the same diagonal, every skipped position is a matching pair,
and the guard fails at the result. -/
lemma snake_spec (left right : List String) (x y : Int) :
    x ≤ (snake left right x y).1 ∧
    (snake left right x y).1 - (snake left right x y).2 = x - y ∧
    ¬snakeGuard left right (snake left right x y).1
      (snake left right x y).2 ∧
    (∀ j : Int, x ≤ j → j < (snake left right x y).1 →
      snakeGuard left right j (y + (j - x))) := by
  have main : ∀ fuel (x y : Int), fuel = ((left.length : Int) - x).toNat →
      x ≤ (snakeAux left right fuel x y).1 ∧
      (snakeAux left right fuel x y).1 - (snakeAux left right fuel x y).2
        = x - y ∧
      ¬snakeGuard left right (snakeAux left right fuel x y).1
        (snakeAux left right fuel x y).2 ∧
      (∀ j : Int, x ≤ j → j < (snakeAux left right fuel x y).1 →
        snakeGuard left right j (y + (j - x))) := by
    intro fuel
    induction fuel with
    | zero =>
      intro x y hf
      refine ⟨le_refl x, by simp [snakeAux], ?_, ?_⟩
      · intro hg
        have := hg.1
        simp only [snakeAux] at this
        omega
      · intro j hj1 hj2
        simp only [snakeAux] at hj2
        omega
    | succ n ih =>
      intro x y hf
      by_cases hg : snakeGuard left right x y
      · have hstep : snakeAux left right (n + 1) x y =
            snakeAux left right n (x + 1) (y + 1) := by
          rw [snakeAux]
          exact if_pos ⟨hg.1, hg.2.1, hg.2.2⟩
        have hx : x < (left.length : Int) := hg.1
        have hn : n = ((left.length : Int) - (x + 1)).toNat := by omega
        obtain ⟨ih1, ih2, ih3, ih4⟩ := ih (x + 1) (y + 1) hn
        rw [hstep]
        refine ⟨by omega, by omega, ih3, ?_⟩
        intro j hj1 hj2
        rcases eq_or_lt_of_le hj1 with hj | hj
        · rw [← hj]
          rw [show y + (x - x) = y by ring]
          exact hg
        · have := ih4 j (by omega) hj2
          have harg : y + 1 + (j - (x + 1)) = y + (j - x) := by ring
          rwa [harg] at this
      · have hstep : snakeAux left right (n + 1) x y = (x, y) := by
          rw [snakeAux]
          exact if_neg (fun hh => hg ⟨hh.1, hh.2.1, hh.2.2⟩)
        rw [hstep]
        refine ⟨le_refl x, by ring, hg, ?_⟩
        intro j hj1 hj2
        omega
  exact main ((left.length : Int) - x).toNat x y rfl

/-- Completeness of the snake: if every position of a diagonal run
satisfies the guard, the snake does not stop before the end of the
run. -/
lemma snake_complete (left right : List String) (x y t : Int)
    (hxt : x ≤ t)
    (hrun : ∀ j : Int, x ≤ j → j < t →
      snakeGuard left right j (y + (j - x))) :
    t ≤ (snake left right x y).1 := by
  have main : ∀ n (x y : Int), x ≤ t →
      (∀ j : Int, x ≤ j → j < t →
        snakeGuard left right j (y + (j - x))) →
      (t - x).toNat = n → t ≤ (snake left right x y).1 := by
    intro n
    induction n with
    | zero =>
      intro x y hxt2 _ hn
      have : t ≤ x := by omega
      exact le_trans this (snake_spec left right x y).1
    | succ n ih =>
      intro x y hxt2 hrun2 hn
      have hxlt : x < t := by omega
      have hg := hrun2 x (le_refl x) hxlt
      rw [show y + (x - x) = y by ring] at hg
      rw [snake_unfold, if_pos hg]
      refine ih (x + 1) (y + 1) (by omega) ?_ (by omega)
      intro j hj1 hj2
      have := hrun2 j (by omega) hj2
      have harg : y + 1 + (j - (x + 1)) = y + (j - x) := by ring
      rwa [harg]
  exact main (t - x).toNat x y hxt hrun rfl

/-! ### Reachability lemmas -/

lemma snakeGuard_iff_matchAt (left right : List String) (a b : Nat) :
    snakeGuard left right (a : Int) (b : Int) ↔ matchAt left right a b := by
  simp [snakeGuard, matchAt]

lemma reach_le_len {left right : List String} {d x y : Nat}
    (h : Reach left right d x y) : x ≤ left.length ∧ y ≤ right.length := by
  induction h with
  | zero => exact ⟨Nat.zero_le _, Nat.zero_le _⟩
  | diag _ hm ih => exact ⟨hm.1, hm.2.1⟩
  | del _ hx ih => exact ⟨hx, ih.2⟩
  | ins _ hy ih => exact ⟨ih.1, hy⟩

lemma reach_parity {left right : List String} {d x y : Nat}
    (h : Reach left right d x y) :
    ((d : Int) + ((x : Int) - (y : Int))) % 2 = 0 := by
  induction h with
  | zero => decide
  | diag _ _ ih => push_cast; push_cast at ih; omega
  | del _ _ ih => push_cast; push_cast at ih; omega
  | ins _ _ ih => push_cast; push_cast at ih; omega

lemma reach_diag_le {left right : List String} {d x y : Nat}
    (h : Reach left right d x y) :
    ((x : Int) - (y : Int)) ≤ d ∧ ((y : Int) - (x : Int)) ≤ d := by
  induction h with
  | zero => exact ⟨by omega, by omega⟩
  | diag _ _ ih => push_cast; push_cast at ih; omega
  | del _ _ ih => push_cast; push_cast at ih; omega
  | ins _ _ ih => push_cast; push_cast at ih; omega

/-- A pure-diagonal path: at distance 0 both coordinates agree and all
passed positions match. -/
lemma reach_zero {left right : List String} {x y : Nat}
    (h : Reach left right 0 x y) :
    x = y ∧ ∀ t, t < x → matchAt left right t t := by
  have main : ∀ (d x y : Nat), Reach left right d x y → d = 0 →
      x = y ∧ ∀ t, t < x → matchAt left right t t := by
    intro d x y h2
    induction h2 with
    | zero => exact fun _ => ⟨rfl, fun t ht => absurd ht (by omega)⟩
    | diag hr hm ih =>
      rename_i d0 x0 y0
      intro hd
      obtain ⟨hxy, hall⟩ := ih hd
      subst hxy
      refine ⟨rfl, fun t ht => ?_⟩
      rcases Nat.lt_or_ge t x0 with h1 | h1
      · exact hall t h1
      · have ht0 : t = x0 := by omega
        rw [ht0]
        exact hm
    | del _ _ _ => intro hd; omega
    | ins _ _ _ => intro hd; omega
  exact main 0 x y h rfl

lemma diagRun_refl (left right : List String) (x0 y0 : Nat) :
    DiagRun left right x0 y0 x0 y0 :=
  ⟨le_refl _, le_refl _, by omega, fun t ht => absurd ht (by omega)⟩

lemma diagRun_snoc {left right : List String} {x0 y0 x y : Nat}
    (h : DiagRun left right x0 y0 x y) (hm : matchAt left right x y) :
    DiagRun left right x0 y0 (x + 1) (y + 1) := by
  obtain ⟨h1, h2, h3, h4⟩ := h
  refine ⟨by omega, by omega, by omega, fun t ht => ?_⟩
  rcases Nat.lt_or_ge t (x - x0) with hlt | hge
  · exact h4 t hlt
  · have ht1 : x0 + t = x := by omega
    have ht2 : y0 + t = y := by omega
    rw [ht1, ht2]
    exact hm

/-- Decomposition of a `(d+1)`-path: a `d`-path to a predecessor point,
one edit step onto the current diagonal, then a diagonal run. -/
lemma reach_succ_decomp {left right : List String} {d x y : Nat}
    (h : Reach left right (d + 1) x y) :
    ∃ a b, Reach left right d a b ∧
      ((a < left.length ∧ DiagRun left right (a + 1) b x y) ∨
       (b < right.length ∧ DiagRun left right a (b + 1) x y)) := by
  have main : ∀ (e x y : Nat), Reach left right e x y → e = d + 1 →
      ∃ a b, Reach left right d a b ∧
        ((a < left.length ∧ DiagRun left right (a + 1) b x y) ∨
         (b < right.length ∧ DiagRun left right a (b + 1) x y)) := by
    intro e x y h2
    induction h2 with
    | zero => intro hd; omega
    | diag hr hm ih =>
      intro hd
      obtain ⟨a, b, hab, hcase⟩ := ih hd
      refine ⟨a, b, hab, ?_⟩
      rcases hcase with ⟨ha, hrun⟩ | ⟨hb, hrun⟩
      · exact Or.inl ⟨ha, diagRun_snoc hrun hm⟩
      · exact Or.inr ⟨hb, diagRun_snoc hrun hm⟩
    | del hr hx ih =>
      rename_i d0 x0 y0
      intro hd
      have hde : d0 = d := by omega
      subst hde
      exact ⟨x0, y0, hr, Or.inl ⟨hx, diagRun_refl left right _ _⟩⟩
    | ins hr hy ih =>
      rename_i d0 x0 y0
      intro hd
      have hde : d0 = d := by omega
      subst hde
      exact ⟨x0, y0, hr, Or.inr ⟨hy, diagRun_refl left right _ _⟩⟩
  exact main (d + 1) x y h rfl

/-- A diagonal run extends reachability. -/
lemma reach_diagRun {left right : List String} {d a b x y : Nat}
    (h : Reach left right d a b) (hrun : DiagRun left right a b x y) :
    Reach left right d x y := by
  have main : ∀ n x y, DiagRun left right a b x y → x - a = n →
      Reach left right d x y := by
    intro n
    induction n with
    | zero =>
      intro x y hr hn
      obtain ⟨h1, h2, h3, _⟩ := hr
      have hx : x = a := by omega
      have hy : y = b := by omega
      rw [hx, hy]
      exact h
    | succ n ih =>
      intro x y hr hn
      obtain ⟨h1, h2, h3, h4⟩ := hr
      have hx1 : 1 ≤ x := by omega
      have hy1 : 1 ≤ y := by omega
      have hsub : DiagRun left right a b (x - 1) (y - 1) := by
        refine ⟨by omega, by omega, by omega, fun t ht => h4 t (by omega)⟩
      have hprev := ih (x - 1) (y - 1) hsub (by omega)
      have hm : matchAt left right (x - 1) (y - 1) := by
        have := h4 (x - 1 - a) (by omega)
        have e1 : a + (x - 1 - a) = x - 1 := by omega
        have e2 : b + (x - 1 - a) = y - 1 := by omega
        rwa [e1, e2] at this
      have := Reach.diag hprev hm
      have e1 : x - 1 + 1 = x := by omega
      have e2 : y - 1 + 1 = y := by omega
      rwa [e1, e2] at this
  exact main (x - a) x y hrun rfl

/-! ### The idealized round arrays -/

lemma vArr_succ (left right : List String) (d : Nat) (i : Int) :
    vArr left right (d + 1) i =
      if roundValid d (i - mxOf left right) then
        valAt left right d (i - mxOf left right)
      else vArr left right d i := rfl

lemma vArr_succ_valid (left right : List String) (d : Nat) (k : Int)
    (h : roundValid d k) :
    vArr left right (d + 1) (mxOf left right + k) = valAt left right d k := by
  rw [vArr_succ]
  rw [show mxOf left right + k - mxOf left right = k by ring]
  rw [if_pos h]

lemma vArr_succ_invalid (left right : List String) (d : Nat) (i : Int)
    (h : ¬roundValid d (i - mxOf left right)) :
    vArr left right (d + 1) i = vArr left right d i := by
  rw [vArr_succ, if_neg h]

/-- Values recorded by the search are nonnegative and at least the
diagonal index. -/
lemma valAt_lb (left right : List String) :
    ∀ (d : Nat) (k : Int), roundValid d k →
      0 ≤ valAt left right d k ∧ k ≤ valAt left right d k := by
  intro d
  induction d with
  | zero =>
    intro k hk
    have hk0 : k = 0 := by
      obtain ⟨h1, h2, _⟩ := hk
      omega
    subst hk0
    rw [valAt]
    simp only [Nat.cast_zero, sub_zero]
    have hrule : ruleCond (mxOf left right) (vArr left right 0) 0 0 :=
      Or.inl (by omega)
    have hcx : chooseX (mxOf left right) (vArr left right 0) 0 0 = 0 := by
      rw [chooseX, if_pos hrule]
      rfl
    rw [hcx]
    have h1 := (snake_spec left right 0 0).1
    exact ⟨h1, h1⟩
  | succ d ih =>
    intro k hk
    obtain ⟨hk1, hk2, hk3⟩ := hk
    set mx := mxOf left right with hmx
    set w := vArr left right (d + 1) with hw
    have hs := snake_spec left right
      (chooseX mx w ((d : Int) + 1) k)
      (chooseX mx w ((d : Int) + 1) k - k)
    have hsnake : chooseX mx w ((d : Int) + 1) k ≤ valAt left right (d + 1) k := by
      have := hs.1
      rw [valAt]
      push_cast
      exact this
    by_cases hrule : ruleCond mx w ((d : Int) + 1) k
    · -- the value comes from diagonal k+1 of the previous round
      have hkne : k ≠ (d : Int) + 1 := by
        rcases hrule with h1 | ⟨h2, _⟩
        · omega
        · exact h2
      have hvalid : roundValid d (k + 1) := by
        refine ⟨by omega, by omega, by omega⟩
      have hread : w (mx + (k + 1)) = valAt left right d (k + 1) :=
        vArr_succ_valid left right d (k + 1) hvalid
      have hib := ih (k + 1) hvalid
      have hcx : chooseX mx w ((d : Int) + 1) k = w (mx + k + 1) := by
        rw [chooseX, if_pos hrule]
      have harr : mx + k + 1 = mx + (k + 1) := by ring
      rw [hcx, harr, hread] at hsnake
      constructor
      · omega
      · omega
    · have hkne : k ≠ -((d : Int) + 1) := by
        intro hcon
        exact hrule (Or.inl (by omega))
      have hvalid : roundValid d (k - 1) := by
        refine ⟨by omega, by omega, by omega⟩
      have hread : w (mx + (k - 1)) = valAt left right d (k - 1) :=
        vArr_succ_valid left right d (k - 1) hvalid
      have hib := ih (k - 1) hvalid
      have hcx : chooseX mx w ((d : Int) + 1) k = w (mx + k - 1) + 1 := by
        rw [chooseX, if_neg hrule]
      have harr : mx + k - 1 = mx + (k - 1) := by ring
      rw [hcx, harr, hread] at hsnake
      constructor
      · omega
      · omega

/-! ### Completeness and soundness of the recorded values -/

lemma matchAt_of_guard (left right : List String) (j i : Int)
    (hj : 0 ≤ j) (hi : 0 ≤ i) (h : snakeGuard left right j i) :
    matchAt left right j.toNat i.toNat := by
  obtain ⟨h1, h2, h3⟩ := h
  exact ⟨by omega, by omega, h3⟩

lemma guard_of_matchAt (left right : List String) (j i : Int)
    (hj : 0 ≤ j) (hi : 0 ≤ i)
    (h : matchAt left right j.toNat i.toNat) :
    snakeGuard left right j i := by
  obtain ⟨h1, h2, h3⟩ := h
  exact ⟨by omega, by omega, h3⟩

/-- The diagonal run skipped by a snake, in terms of points. -/
lemma diagRun_of_snake (left right : List String) (x y : Int)
    (hx : 0 ≤ x) (hy : 0 ≤ y) :
    DiagRun left right x.toNat y.toNat
      (snake left right x y).1.toNat (snake left right x y).2.toNat := by
  obtain ⟨h1, h2, h3, h4⟩ := snake_spec left right x y
  refine ⟨by omega, by omega, by omega, fun t ht => ?_⟩
  have hjx : x ≤ x + t := by omega
  have hjlt : x + t < (snake left right x y).1 := by omega
  have hg := h4 (x + t) hjx hjlt
  rw [show y + (x + t - x) = y + t by ring] at hg
  have := matchAt_of_guard left right (x + t) (y + t) (by omega) (by omega) hg
  have e1 : (x + t : Int).toNat = x.toNat + t := by omega
  have e2 : (y + t : Int).toNat = y.toNat + t := by omega
  rwa [e1, e2] at this

/-- Completeness of the forward search: any point reachable with
exactly `d` edits lies at or behind the value recorded in round `d` on
its diagonal. -/
lemma valAt_complete (left right : List String) :
    ∀ (d x y : Nat), Reach left right d x y →
      (x : Int) ≤ valAt left right d ((x : Int) - (y : Int)) := by
  intro d
  induction d with
  | zero =>
    intro x y hr
    obtain ⟨hxy, hall⟩ := reach_zero hr
    subst hxy
    rw [show (x : Int) - (x : Int) = 0 by ring]
    rw [valAt]
    simp only [Nat.cast_zero, sub_zero]
    have hrule : ruleCond (mxOf left right) (vArr left right 0) 0 0 :=
      Or.inl (by omega)
    have hcx : chooseX (mxOf left right) (vArr left right 0) 0 0 = 0 := by
      rw [chooseX, if_pos hrule]
      rfl
    rw [hcx]
    apply snake_complete left right 0 0 (x : Int) (by omega)
    intro j hj1 hj2
    rw [show (0 : Int) + (j - 0) = j by ring]
    have := hall j.toNat (by omega)
    have hg := guard_of_matchAt left right j j (by omega) (by omega)
      (by simpa using this)
    exact hg
  | succ d ih =>
    intro x y hr
    set mx := mxOf left right with hmx
    set w := vArr left right (d + 1) with hw
    set k : Int := (x : Int) - (y : Int) with hk
    have hbound := reach_diag_le hr
    have hpar := reach_parity hr
    obtain ⟨a, b, hab, hcase⟩ := reach_succ_decomp hr
    have habound := reach_diag_le hab
    have hs := snake_spec left right
      (chooseX mx w ((d : Int) + 1) k) (chooseX mx w ((d : Int) + 1) k - k)
    have hval : valAt left right (d + 1) k =
        (snake left right (chooseX mx w ((d : Int) + 1) k)
          (chooseX mx w ((d : Int) + 1) k - k)).1 := by
      rw [valAt]
      push_cast
      rfl
    rcases hcase with ⟨ha, hrun⟩ | ⟨hb, hrun⟩
    · -- deletion from diagonal k-1, then a run from (a+1, b)
      obtain ⟨hr1, hr2, hr3, hr4⟩ := hrun
      have hdiag : (a : Int) - (b : Int) = k - 1 := by omega
      have hvalid : roundValid d (k - 1) := by
        refine ⟨by omega, by omega, by omega⟩
      have hB : w (mx + k - 1) = valAt left right d (k - 1) := by
        rw [show mx + k - 1 = mx + (k - 1) by ring]
        exact vArr_succ_valid left right d (k - 1) hvalid
      have hiha : (a : Int) ≤ valAt left right d (k - 1) := by
        have := ih a b hab
        rwa [hdiag] at this
      have hxc : (a : Int) + 1 ≤ chooseX mx w ((d : Int) + 1) k := by
        by_cases hrule : ruleCond mx w ((d : Int) + 1) k
        · rw [chooseX, if_pos hrule]
          rcases hrule with h1 | ⟨h2, h3⟩
          · exfalso
            omega
          · have hA : w (mx + k - 1) < w (mx + k + 1) := h3
            omega
        · rw [chooseX, if_neg hrule]
          omega
      rw [hval]
      rcases le_or_lt (x : Int) (chooseX mx w ((d : Int) + 1) k) with hc | hc
      · exact le_trans hc hs.1
      · apply snake_complete
        · omega
        · intro j hj1 hj2
          rw [show chooseX mx w ((d : Int) + 1) k - k +
            (j - chooseX mx w ((d : Int) + 1) k) = j - k by ring]
          have hjt : j.toNat - (a + 1) < x - (a + 1) := by omega
          have hm := hr4 (j.toNat - (a + 1)) hjt
          have e1 : a + 1 + (j.toNat - (a + 1)) = j.toNat := by omega
          have e2 : (b + (j.toNat - (a + 1)) : Nat) = (j - k).toNat := by omega
          rw [e1, e2] at hm
          exact guard_of_matchAt left right j (j - k) (by omega) (by omega)
            (by simpa using hm)
    · -- insertion from diagonal k+1, then a run from (a, b+1)
      obtain ⟨hr1, hr2, hr3, hr4⟩ := hrun
      have hdiag : (a : Int) - (b : Int) = k + 1 := by omega
      have hvalid : roundValid d (k + 1) := by
        refine ⟨by omega, by omega, by omega⟩
      have hA : w (mx + k + 1) = valAt left right d (k + 1) := by
        rw [show mx + k + 1 = mx + (k + 1) by ring]
        exact vArr_succ_valid left right d (k + 1) hvalid
      have hiha : (a : Int) ≤ valAt left right d (k + 1) := by
        have := ih a b hab
        rwa [hdiag] at this
      have hxc : (a : Int) ≤ chooseX mx w ((d : Int) + 1) k := by
        by_cases hrule : ruleCond mx w ((d : Int) + 1) k
        · rw [chooseX, if_pos hrule]
          omega
        · rw [chooseX, if_neg hrule]
          have h2 : ¬(k = -((d : Int) + 1)) ∧
              (k = (d : Int) + 1 ∨ ¬(w (mx + k - 1) < w (mx + k + 1))) := by
            constructor
            · intro hcon
              exact hrule (Or.inl hcon)
            · by_cases he : k = (d : Int) + 1
              · exact Or.inl he
              · refine Or.inr fun hlt => hrule (Or.inr ⟨he, hlt⟩)
          rcases h2.2 with he | hge
          · exfalso
            omega
          · omega
      rw [hval]
      rcases le_or_lt (x : Int) (chooseX mx w ((d : Int) + 1) k) with hc | hc
      · exact le_trans hc hs.1
      · apply snake_complete
        · omega
        · intro j hj1 hj2
          rw [show chooseX mx w ((d : Int) + 1) k - k +
            (j - chooseX mx w ((d : Int) + 1) k) = j - k by ring]
          have hjt : j.toNat - a < x - a := by omega
          have hm := hr4 (j.toNat - a) hjt
          have e1 : a + (j.toNat - a) = j.toNat := by omega
          have e2 : (b + 1 + (j.toNat - a) : Nat) = (j - k).toNat := by omega
          rw [e1, e2] at hm
          exact guard_of_matchAt left right j (j - k) (by omega) (by omega)
            (by simpa using hm)

/-- Soundness of the forward search: a recorded value that lies inside
the edit grid is genuinely reachable with exactly that many edits. -/
lemma valAt_sound (left right : List String) :
    ∀ (d : Nat) (k : Int), roundValid d k →
      valAt left right d k ≤ (left.length : Int) →
      valAt left right d k - k ≤ (right.length : Int) →
      Reach left right d (valAt left right d k).toNat
        (valAt left right d k - k).toNat := by
  intro d
  induction d with
  | zero =>
    intro k hk _ _
    have hk0 : k = 0 := by
      obtain ⟨h1, h2, _⟩ := hk
      omega
    subst hk0
    have hval : valAt left right 0 0 = (snake left right 0 0).1 := by
      rw [valAt]
      simp only [Nat.cast_zero, sub_zero]
      have hrule : ruleCond (mxOf left right) (vArr left right 0) 0 0 :=
        Or.inl (by omega)
      rw [chooseX, if_pos hrule]
      rfl
    have hdiag := (snake_spec left right 0 0).2.1
    have hrun := diagRun_of_snake left right 0 0 (le_refl 0) (le_refl 0)
    have hreach := reach_diagRun Reach.zero (by simpa using hrun)
    have hsnd : (snake left right 0 0).2 = (snake left right 0 0).1 := by omega
    rw [hval, sub_zero]
    rwa [hsnd] at hreach
  | succ d ih =>
    intro k hk hxl hyr
    obtain ⟨hk1, hk2, hk3⟩ := hk
    set mx := mxOf left right with hmx
    set w := vArr left right (d + 1) with hw
    set xc := chooseX mx w ((d : Int) + 1) k with hxc
    have hval : valAt left right (d + 1) k =
        (snake left right xc (xc - k)).1 := by
      rw [valAt]
      push_cast
      rfl
    set xv := valAt left right (d + 1) k with hxv
    obtain ⟨hs1, hs2, hs3, hs4⟩ := snake_spec left right xc (xc - k)
    have hsnd : (snake left right xc (xc - k)).2 = xv - k := by omega
    have hs1v : xc ≤ xv := by omega
    by_cases hrule : ruleCond mx w ((d : Int) + 1) k
    · -- insertion parent on diagonal k+1
      have hkne : k ≠ (d : Int) + 1 := by
        rcases hrule with h1 | ⟨h2, _⟩
        · omega
        · exact h2
      have hvalid : roundValid d (k + 1) := ⟨by omega, by omega, by omega⟩
      have hA : w (mx + k + 1) = valAt left right d (k + 1) := by
        rw [show mx + k + 1 = mx + (k + 1) by ring]
        exact vArr_succ_valid left right d (k + 1) hvalid
      have hxcA : xc = valAt left right d (k + 1) := by
        rw [hxc, chooseX, if_pos hrule, hA]
      obtain ⟨hlb0, hlbk⟩ := valAt_lb left right d (k + 1) hvalid
      have hpx : valAt left right d (k + 1) ≤ (left.length : Int) := by omega
      have hpy : valAt left right d (k + 1) - (k + 1) ≤ (right.length : Int) := by
        omega
      have hparent := ih (k + 1) hvalid hpx hpy
      have hylt : (valAt left right d (k + 1) - (k + 1)).toNat <
          right.length := by omega
      have hins := Reach.ins hparent hylt
      have hcast : (valAt left right d (k + 1) - (k + 1)).toNat + 1 =
          (xc - k).toNat := by omega
      rw [hcast] at hins
      have hrun := diagRun_of_snake left right xc (xc - k)
        (by omega) (by omega)
      rw [hsnd] at hrun
      rw [← hval] at hrun
      have := reach_diagRun (by rwa [← hxcA] at hins) hrun
      exact this
    · -- deletion parent on diagonal k-1
      have hkne : k ≠ -((d : Int) + 1) := fun hcon => hrule (Or.inl hcon)
      have hvalid : roundValid d (k - 1) := ⟨by omega, by omega, by omega⟩
      have hB : w (mx + k - 1) = valAt left right d (k - 1) := by
        rw [show mx + k - 1 = mx + (k - 1) by ring]
        exact vArr_succ_valid left right d (k - 1) hvalid
      have hxcB : xc = valAt left right d (k - 1) + 1 := by
        rw [hxc, chooseX, if_neg hrule, hB]
      obtain ⟨hlb0, hlbk⟩ := valAt_lb left right d (k - 1) hvalid
      have hpx : valAt left right d (k - 1) ≤ (left.length : Int) := by omega
      have hpy : valAt left right d (k - 1) - (k - 1) ≤ (right.length : Int) := by
        omega
      have hparent := ih (k - 1) hvalid hpx hpy
      have hxlt : (valAt left right d (k - 1)).toNat < left.length := by omega
      have hdel := Reach.del hparent hxlt
      have hcast1 : (valAt left right d (k - 1)).toNat + 1 = xc.toNat := by
        omega
      have hcast2 : (valAt left right d (k - 1) - (k - 1)).toNat =
          (xc - k).toNat := by omega
      rw [hcast1, hcast2] at hdel
      have hrun := diagRun_of_snake left right xc (xc - k)
        (by omega) (by omega)
      rw [hsnd] at hrun
      rw [← hval] at hrun
      exact reach_diagRun hdel hrun

/-- The snake never moves past the grid: it stops at the boundary (or
never starts beyond it). -/
lemma snake_le (left right : List String) (x y : Int) :
    (snake left right x y).1 ≤ max x (left.length : Int) ∧
    (snake left right x y).2 ≤ max y (right.length : Int) := by
  have main : ∀ fuel (x y : Int), fuel = ((left.length : Int) - x).toNat →
      (snakeAux left right fuel x y).1 ≤ max x (left.length : Int) ∧
      (snakeAux left right fuel x y).2 ≤ max y (right.length : Int) := by
    intro fuel
    induction fuel with
    | zero =>
      intro x y _
      simp only [snakeAux]
      exact ⟨le_max_left _ _, le_max_left _ _⟩
    | succ n ih =>
      intro x y hf
      by_cases hg : x < (left.length : Int) ∧ y < (right.length : Int) ∧
          left.getD x.toNat "" = right.getD y.toNat ""
      · rw [snakeAux, if_pos hg]
        have hn : n = ((left.length : Int) - (x + 1)).toNat := by omega
        obtain ⟨ih1, ih2⟩ := ih (x + 1) (y + 1) hn
        obtain ⟨hg1, hg2, _⟩ := hg
        constructor
        · have : max (x + 1) (left.length : Int) = (left.length : Int) := by
            omega
          omega
        · have : max (y + 1) (right.length : Int) = (right.length : Int) := by
            omega
          omega
      · rw [snakeAux, if_neg hg]
        exact ⟨le_max_left _ _, le_max_left _ _⟩
  exact main ((left.length : Int) - x).toNat x y rfl

/-- Padding with insertions along the right boundary. -/
lemma reach_ins_chain {left right : List String} {d x y : Nat}
    (h : Reach left right d x y) :
    Reach left right (d + (right.length - y)) x right.length := by
  have hy := (reach_le_len h).2
  have main : ∀ n, y + n ≤ right.length →
      Reach left right (d + n) x (y + n) := by
    intro n
    induction n with
    | zero => intro _; simpa using h
    | succ n ih =>
      intro hn
      have := Reach.ins (ih (by omega)) (by omega)
      have e1 : y + n + 1 = y + (n + 1) := by omega
      rwa [e1] at this
  have := main (right.length - y) (by omega)
  have e1 : y + (right.length - y) = right.length := by omega
  rwa [e1] at this

/-- Padding with deletions along the bottom boundary. -/
lemma reach_del_chain {left right : List String} {d x y : Nat}
    (h : Reach left right d x y) :
    Reach left right (d + (left.length - x)) left.length y := by
  have hx := (reach_le_len h).1
  have main : ∀ n, x + n ≤ left.length →
      Reach left right (d + n) (x + n) y := by
    intro n
    induction n with
    | zero => intro _; simpa using h
    | succ n ih =>
      intro hn
      have := Reach.del (ih (by omega)) (by omega)
      have e1 : x + n + 1 = x + (n + 1) := by omega
      rwa [e1] at this
  have := main (left.length - x) (by omega)
  have e1 : x + (left.length - x) = left.length := by omega
  rwa [e1] at this

/-- If the full target is reachable with `e` edits, round `e` exits. -/
lemma roundExits_of_reach (left right : List String) (e : Nat)
    (h : Reach left right e left.length right.length) :
    roundExits left right e := by
  have hb := reach_diag_le h
  have hp := reach_parity h
  have hvalid : roundValid e ((left.length : Int) - right.length) :=
    ⟨by omega, by omega, by omega⟩
  have hc := valAt_complete left right e left.length right.length h
  exact ⟨(left.length : Int) - right.length, hvalid, hc, by omega⟩

/-- History of a value that overshoots the left length: it descends
from an in-grid point on the right edge of the grid, one boundary step
per round. -/
lemma valAt_overX (left right : List String) :
    ∀ (d : Nat), (∀ e, e < d → ¬roundExits left right e) →
      ∀ k, roundValid d k →
        (left.length : Int) < valAt left right d k →
        ∃ (d1 : Nat) (y1 : Int), 0 ≤ y1 ∧ y1 < (right.length : Int) ∧
          y1 ≤ valAt left right d k - k ∧
          (d : Int) = d1 + (valAt left right d k - (left.length : Int)) +
            ((valAt left right d k - k) - y1) ∧
          Reach left right d1 left.length y1.toNat := by
  intro d
  induction d with
  | zero =>
    intro _ k hk hover
    exfalso
    have hk0 : k = 0 := by
      obtain ⟨h1, h2, _⟩ := hk
      omega
    subst hk0
    have hval : valAt left right 0 0 = (snake left right 0 0).1 := by
      rw [valAt]
      simp only [Nat.cast_zero, sub_zero]
      have hrule : ruleCond (mxOf left right) (vArr left right 0) 0 0 :=
        Or.inl (by omega)
      rw [chooseX, if_pos hrule]
      rfl
    have := (snake_le left right 0 0).1
    omega
  | succ d ih =>
    intro H k hk hover
    obtain ⟨hk1, hk2, hk3⟩ := hk
    set mx := mxOf left right with hmx
    set w := vArr left right (d + 1) with hw
    set xc := chooseX mx w ((d : Int) + 1) k with hxc
    have hval : valAt left right (d + 1) k =
        (snake left right xc (xc - k)).1 := by
      rw [valAt]
      push_cast
      rfl
    set xv := valAt left right (d + 1) k with hxv
    obtain ⟨hs1, hs2, hs3, hs4⟩ := snake_spec left right xc (xc - k)
    have hle := (snake_le left right xc (xc - k)).1
    have hxceq : xv = xc := by
      rcases le_or_lt xc (left.length : Int) with hc | hc
      · exfalso
        have : max xc (left.length : Int) = (left.length : Int) := by omega
        omega
      · have : max xc (left.length : Int) = xc := by omega
        omega
    have Hd : ∀ e, e < d → ¬roundExits left right e := fun e he =>
      H e (by omega)
    have HnD : ¬roundExits left right d := H d (by omega)
    by_cases hrule : ruleCond mx w ((d : Int) + 1) k
    · -- insertion parent (xv, xv - k - 1) on diagonal k+1, also overshooting
      have hkne : k ≠ (d : Int) + 1 := by
        rcases hrule with h1 | ⟨h2, _⟩
        · omega
        · exact h2
      have hvalid : roundValid d (k + 1) := ⟨by omega, by omega, by omega⟩
      have hA : w (mx + k + 1) = valAt left right d (k + 1) := by
        rw [show mx + k + 1 = mx + (k + 1) by ring]
        exact vArr_succ_valid left right d (k + 1) hvalid
      have hxcA : xc = valAt left right d (k + 1) := by
        rw [hxc, chooseX, if_pos hrule, hA]
      have hAover : (left.length : Int) < valAt left right d (k + 1) := by
        omega
      obtain ⟨d1, y1, hy0, hy1, hy2, heq, hre⟩ := ih Hd (k + 1) hvalid hAover
      refine ⟨d1, y1, hy0, hy1, by omega, ?_, hre⟩
      push_cast
      omega
    · -- deletion parent (xv - 1, xv - k) on diagonal k-1
      have hkne : k ≠ -((d : Int) + 1) := fun hcon => hrule (Or.inl hcon)
      have hvalid : roundValid d (k - 1) := ⟨by omega, by omega, by omega⟩
      have hB : w (mx + k - 1) = valAt left right d (k - 1) := by
        rw [show mx + k - 1 = mx + (k - 1) by ring]
        exact vArr_succ_valid left right d (k - 1) hvalid
      have hxcB : xc = valAt left right d (k - 1) + 1 := by
        rw [hxc, chooseX, if_neg hrule, hB]
      have hBge : (left.length : Int) ≤ valAt left right d (k - 1) := by omega
      rcases eq_or_lt_of_le hBge with hBeq | hBlt
      · -- the parent sits exactly on the right edge: it is in-grid
        have hpy : valAt left right d (k - 1) - (k - 1) <
            (right.length : Int) := by
          by_contra hcon
          push_neg at hcon
          exact HnD ⟨k - 1, hvalid, by omega, by omega⟩
        obtain ⟨hlb0, hlbk⟩ := valAt_lb left right d (k - 1) hvalid
        have hre := valAt_sound left right d (k - 1) hvalid (by omega)
          (by omega)
        have hxt : (valAt left right d (k - 1)).toNat = left.length := by
          omega
        rw [hxt] at hre
        refine ⟨d, valAt left right d (k - 1) - (k - 1), by omega, hpy,
          by omega, by push_cast; omega, hre⟩
      · -- the parent also overshoots
        have hpover : (left.length : Int) < valAt left right d (k - 1) := hBlt
        obtain ⟨d1, y1, hy0, hy1, hy2, heq, hre⟩ := ih Hd (k - 1) hvalid hpover
        refine ⟨d1, y1, hy0, hy1, by omega, ?_, hre⟩
        push_cast
        omega

/-- History of a value whose y-coordinate overshoots the right length. -/
lemma valAt_overY (left right : List String) :
    ∀ (d : Nat), (∀ e, e < d → ¬roundExits left right e) →
      ∀ k, roundValid d k →
        (right.length : Int) < valAt left right d k - k →
        ∃ (d1 : Nat) (x1 : Int), 0 ≤ x1 ∧ x1 < (left.length : Int) ∧
          x1 ≤ valAt left right d k ∧
          (d : Int) = d1 + ((valAt left right d k - k) -
            (right.length : Int)) + (valAt left right d k - x1) ∧
          Reach left right d1 x1.toNat right.length := by
  intro d
  induction d with
  | zero =>
    intro _ k hk hover
    exfalso
    have hk0 : k = 0 := by
      obtain ⟨h1, h2, _⟩ := hk
      omega
    subst hk0
    have hval : valAt left right 0 0 = (snake left right 0 0).1 := by
      rw [valAt]
      simp only [Nat.cast_zero, sub_zero]
      have hrule : ruleCond (mxOf left right) (vArr left right 0) 0 0 :=
        Or.inl (by omega)
      rw [chooseX, if_pos hrule]
      rfl
    have h1 := (snake_le left right 0 0).2
    have h2 := (snake_spec left right 0 0).2.1
    omega
  | succ d ih =>
    intro H k hk hover
    obtain ⟨hk1, hk2, hk3⟩ := hk
    set mx := mxOf left right with hmx
    set w := vArr left right (d + 1) with hw
    set xc := chooseX mx w ((d : Int) + 1) k with hxc
    have hval : valAt left right (d + 1) k =
        (snake left right xc (xc - k)).1 := by
      rw [valAt]
      push_cast
      rfl
    set xv := valAt left right (d + 1) k with hxv
    obtain ⟨hs1, hs2, hs3, hs4⟩ := snake_spec left right xc (xc - k)
    have hle := (snake_le left right xc (xc - k)).2
    have hxceq : xv = xc := by
      rcases le_or_lt (xc - k) (right.length : Int) with hc | hc
      · exfalso
        have : max (xc - k) (right.length : Int) = (right.length : Int) := by
          omega
        omega
      · have : max (xc - k) (right.length : Int) = xc - k := by omega
        omega
    have Hd : ∀ e, e < d → ¬roundExits left right e := fun e he =>
      H e (by omega)
    have HnD : ¬roundExits left right d := H d (by omega)
    by_cases hrule : ruleCond mx w ((d : Int) + 1) k
    · -- insertion parent (xv, xv - k - 1) on diagonal k+1
      have hkne : k ≠ (d : Int) + 1 := by
        rcases hrule with h1 | ⟨h2, _⟩
        · omega
        · exact h2
      have hvalid : roundValid d (k + 1) := ⟨by omega, by omega, by omega⟩
      have hA : w (mx + k + 1) = valAt left right d (k + 1) := by
        rw [show mx + k + 1 = mx + (k + 1) by ring]
        exact vArr_succ_valid left right d (k + 1) hvalid
      have hxcA : xc = valAt left right d (k + 1) := by
        rw [hxc, chooseX, if_pos hrule, hA]
      have hpge : (right.length : Int) ≤
          valAt left right d (k + 1) - (k + 1) := by omega
      rcases eq_or_lt_of_le hpge with hpeq | hpover
      · -- the parent sits exactly on the bottom edge: it is in-grid
        have hpx : valAt left right d (k + 1) < (left.length : Int) := by
          by_contra hcon
          push_neg at hcon
          exact HnD ⟨k + 1, hvalid, by omega, by omega⟩
        obtain ⟨hlb0, hlbk⟩ := valAt_lb left right d (k + 1) hvalid
        have hre := valAt_sound left right d (k + 1) hvalid (by omega)
          (by omega)
        have hyt : (valAt left right d (k + 1) - (k + 1)).toNat =
            right.length := by omega
        rw [hyt] at hre
        refine ⟨d, valAt left right d (k + 1), by omega, hpx, by omega,
          by push_cast; omega, hre⟩
      · obtain ⟨d1, x1, hx0, hx1, hx2, heq, hre⟩ := ih Hd (k + 1) hvalid
          hpover
        refine ⟨d1, x1, hx0, hx1, by omega, ?_, hre⟩
        push_cast
        omega
    · -- deletion parent (xv - 1, xv - k) on diagonal k-1
      have hkne : k ≠ -((d : Int) + 1) := fun hcon => hrule (Or.inl hcon)
      have hvalid : roundValid d (k - 1) := ⟨by omega, by omega, by omega⟩
      have hB : w (mx + k - 1) = valAt left right d (k - 1) := by
        rw [show mx + k - 1 = mx + (k - 1) by ring]
        exact vArr_succ_valid left right d (k - 1) hvalid
      have hxcB : xc = valAt left right d (k - 1) + 1 := by
        rw [hxc, chooseX, if_neg hrule, hB]
      have hpover : (right.length : Int) <
          valAt left right d (k - 1) - (k - 1) := by omega
      obtain ⟨d1, x1, hx0, hx1, hx2, heq, hre⟩ := ih Hd (k - 1) hvalid hpover
      refine ⟨d1, x1, hx0, hx1, by omega, ?_, hre⟩
      push_cast
      omega

/-- The first exit of the search happens exactly at the target corner
`(L, R)`, on diagonal `L - R`, at the minimal reach distance. -/
lemma exit_point (left right : List String) (D : Nat)
    (H : ∀ e, e < D → ¬roundExits left right e)
    (hex : roundExits left right D) :
    roundValid D ((left.length : Int) - (right.length : Int)) ∧
    valAt left right D ((left.length : Int) - (right.length : Int)) =
      (left.length : Int) ∧
    Reach left right D left.length right.length ∧
    (∀ e, Reach left right e left.length right.length → D ≤ e) := by
  obtain ⟨ke, hkv, hex1, hex2⟩ := hex
  have hmin : ∀ e, Reach left right e left.length right.length → D ≤ e := by
    intro e hre
    by_contra hcon
    push_neg at hcon
    exact H e hcon (roundExits_of_reach left right e hre)
  have hxe : valAt left right D ke = (left.length : Int) := by
    by_contra hcon
    have hxover : (left.length : Int) < valAt left right D ke := by omega
    obtain ⟨d1, y1, hy0, hy1, hy2, heq, hre⟩ :=
      valAt_overX left right D H ke hkv hxover
    have hchain := reach_ins_chain hre
    have hlt : d1 + (right.length - y1.toNat) < D := by omega
    exact absurd (hmin _ hchain) (by omega)
  have hye : valAt left right D ke - ke = (right.length : Int) := by
    by_contra hcon
    have hyover : (right.length : Int) < valAt left right D ke - ke := by
      omega
    obtain ⟨d1, x1, hx0, hx1, hx2, heq, hre⟩ :=
      valAt_overY left right D H ke hkv hyover
    have hchain := reach_del_chain hre
    have hlt : d1 + (left.length - x1.toNat) < D := by omega
    exact absurd (hmin _ hchain) (by omega)
  have hkeq : ke = (left.length : Int) - (right.length : Int) := by omega
  subst hkeq
  have hre := valAt_sound left right D _ hkv (by omega) (by omega)
  have e1 : (valAt left right D
      ((left.length : Int) - (right.length : Int))).toNat = left.length := by
    omega
  have e2 : (valAt left right D ((left.length : Int) - (right.length : Int))
      - ((left.length : Int) - (right.length : Int))).toNat = right.length := by
    omega
  rw [e1, e2] at hre
  exact ⟨hkv, hxe, hre, hmin⟩

lemma midScan_start (left right : List String) (dN : Nat) :
    midScan left right dN (-(dN : Int)) (vArr left right dN) := by
  intro i
  by_cases h : i - mxOf left right < -(dN : Int)
  · rw [if_pos h]
    rw [vArr_succ_invalid]
    intro hvalid
    obtain ⟨h1, _, _⟩ := hvalid
    omega
  · rw [if_neg h]

/-- The inner loop over the diagonals of round `dN`: if some remaining
diagonal satisfies the exit condition the loop exits, otherwise it
completes the round and returns the next-round array. -/
lemma scanKAux_spec (left right : List String) (dN : Nat) :
    ∀ (steps : Nat) (k : Int) (v : Int → Int),
      k + 2 * (steps : Int) = (dN : Int) + 2 →
      -(dN : Int) ≤ k →
      midScan left right dN k v →
      ((∀ ke, k ≤ ke → roundValid dN ke → ¬exitCond left right dN ke) →
        scanKAux left right (left.length : Int) (right.length : Int)
          (mxOf left right) (dN : Int) steps k v =
          Sum.inl (vArr left right (dN + 1))) ∧
      ((∃ ke, k ≤ ke ∧ roundValid dN ke ∧ exitCond left right dN ke) →
        ∃ w, scanKAux left right (left.length : Int) (right.length : Int)
          (mxOf left right) (dN : Int) steps k v = Sum.inr w) := by
  intro steps
  induction steps with
  | zero =>
    intro k v hk hklb hmid
    constructor
    · intro _
      rw [scanKAux]
      congr 1
      funext i
      have := hmid i
      by_cases h : i - mxOf left right < k
      · rwa [if_pos h] at this
      · rw [if_neg h] at this
        rw [this]
        rw [vArr_succ_invalid]
        intro hvalid
        obtain ⟨_, h2, _⟩ := hvalid
        omega
    · intro hex
      obtain ⟨ke, hke1, hkev, hkee⟩ := hex
      obtain ⟨_, hke2, _⟩ := hkev
      exfalso
      omega
  | succ steps ih =>
    intro k v hk hklb hmid
    have hkub : k ≤ (dN : Int) := by omega
    have hkpar : ((dN : Int) + k) % 2 = 0 := by omega
    have hkvalid : roundValid dN k := ⟨hklb, hkub, hkpar⟩
    -- the reads of this iteration see round-start values
    have hm1 : v (mxOf left right + k - 1) =
        vArr left right dN (mxOf left right + k - 1) := by
      have := hmid (mxOf left right + k - 1)
      by_cases h : mxOf left right + k - 1 - mxOf left right < k
      · rw [if_pos h] at this
        rw [this]
        rw [vArr_succ_invalid]
        intro hvalid
        obtain ⟨_, _, h3⟩ := hvalid
        omega
      · rwa [if_neg h] at this
    have hm2 : v (mxOf left right + k + 1) =
        vArr left right dN (mxOf left right + k + 1) := by
      have := hmid (mxOf left right + k + 1)
      rw [if_neg (by omega)] at this
      exact this
    have hrule : ruleCond (mxOf left right) v (dN : Int) k ↔
        ruleCond (mxOf left right) (vArr left right dN) (dN : Int) k := by
      rw [ruleCond, ruleCond, hm1, hm2]
    have hcx : chooseX (mxOf left right) v (dN : Int) k =
        chooseX (mxOf left right) (vArr left right dN) (dN : Int) k := by
      rw [chooseX, chooseX]
      by_cases h : ruleCond (mxOf left right) v (dN : Int) k
      · rw [if_pos h, if_pos (hrule.mp h), hm2]
      · rw [if_neg h, if_neg (fun hc => h (hrule.mpr hc)), hm1]
    have hp1 : (snake left right (chooseX (mxOf left right) v (dN : Int) k)
        (chooseX (mxOf left right) v (dN : Int) k - k)).1 =
        valAt left right dN k := by
      rw [hcx, valAt]
    have hp2 : (snake left right (chooseX (mxOf left right) v (dN : Int) k)
        (chooseX (mxOf left right) v (dN : Int) k - k)).2 =
        valAt left right dN k - k := by
      have := (snake_spec left right
        (chooseX (mxOf left right) v (dN : Int) k)
        (chooseX (mxOf left right) v (dN : Int) k - k)).2.1
      omega
    have hstep : scanKAux left right (left.length : Int)
        (right.length : Int) (mxOf left right) (dN : Int) (steps + 1) k v =
        (if (left.length : Int) ≤ valAt left right dN k ∧
            (right.length : Int) ≤ valAt left right dN k - k then
          Sum.inr (fun i => if i = mxOf left right + k
            then valAt left right dN k else v i)
        else scanKAux left right (left.length : Int) (right.length : Int)
          (mxOf left right) (dN : Int) steps (k + 2)
          (fun i => if i = mxOf left right + k
            then valAt left right dN k else v i)) := by
      rw [scanKAux]
      rw [hp1, hp2]
    by_cases hexit : exitCond left right dN k
    · have hexit2 : (left.length : Int) ≤ valAt left right dN k ∧
          (right.length : Int) ≤ valAt left right dN k - k := hexit
      constructor
      · intro hall
        exact absurd hexit (hall k (le_refl k) hkvalid)
      · intro _
        rw [hstep, if_pos hexit2]
        exact ⟨_, rfl⟩
    · have hexit2 : ¬((left.length : Int) ≤ valAt left right dN k ∧
          (right.length : Int) ≤ valAt left right dN k - k) := hexit
      have hmid2 : midScan left right dN (k + 2)
          (fun i => if i = mxOf left right + k
            then valAt left right dN k else v i) := by
        intro i
        by_cases hik : i = mxOf left right + k
        · subst hik
          simp only [if_pos rfl]
          rw [if_pos (show mxOf left right + k - mxOf left right < k + 2 by
            omega)]
          exact (vArr_succ_valid left right dN k hkvalid).symm
        · simp only [if_neg hik]
          have := hmid i
          by_cases h1 : i - mxOf left right < k
          · rw [if_pos h1] at this
            rw [if_pos (by omega)]
            exact this
          · rw [if_neg h1] at this
            by_cases h2 : i - mxOf left right < k + 2
            · rw [if_pos h2, this]
              have hinv : i - mxOf left right = k + 1 := by omega
              rw [vArr_succ_invalid]
              intro hvalid
              obtain ⟨_, _, h3⟩ := hvalid
              omega
            · rw [if_neg h2]
              exact this
      obtain ⟨ihA, ihB⟩ := ih (k + 2) _ (by omega) (by omega) hmid2
      constructor
      · intro hall
        rw [hstep, if_neg hexit2]
        exact ihA (fun ke hke => hall ke (by omega))
      · rintro ⟨ke, hke1, hke2, hke3⟩
        rw [hstep, if_neg hexit2]
        apply ihB
        refine ⟨ke, ?_, hke2, hke3⟩
        have : ke ≠ k := fun hc => hexit (hc ▸ hke3)
        have : ke ≠ k + 1 := by
          intro hc
          obtain ⟨_, _, h3⟩ := hke2
          omega
        omega

lemma traceList_succ (left right : List String) (n : Nat) :
    traceList left right (n + 1) =
      traceList left right n ++ [vArr left right n] := by
  simp [traceList, List.range_succ]

/-- The outer loop of the search: it returns `none` exactly when no
started round exits, and otherwise the trace of all rounds up to and
including the first exiting round. -/
lemma searchAux_spec (left right : List String) :
    ∀ (fuel dstart : Nat),
      (searchAux left right (left.length : Int) (right.length : Int)
          (mxOf left right) fuel dstart (traceList left right dstart)
          (vArr left right dstart) = none →
        ∀ e, dstart ≤ e → e < dstart + fuel → ¬roundExits left right e) ∧
      (∀ tr, searchAux left right (left.length : Int) (right.length : Int)
          (mxOf left right) fuel dstart (traceList left right dstart)
          (vArr left right dstart) = some tr →
        ∃ D, dstart ≤ D ∧ D < dstart + fuel ∧ roundExits left right D ∧
          (∀ e, dstart ≤ e → e < D → ¬roundExits left right e) ∧
          tr = traceList left right (D + 1)) := by
  intro fuel
  induction fuel with
  | zero =>
    intro dstart
    constructor
    · intro _ e he1 he2
      omega
    · intro tr htr
      simp [searchAux] at htr
  | succ fuel ih =>
    intro dstart
    have hmid := midScan_start left right dstart
    have hspec := scanKAux_spec left right dstart (dstart + 1)
      (-(dstart : Int)) (vArr left right dstart) (by push_cast; ring)
      (le_refl _) hmid
    by_cases hex : roundExits left right dstart
    · obtain ⟨ke, hkev, hkee⟩ := hex
      obtain ⟨w, hw⟩ := hspec.2 ⟨ke, hkev.1, hkev, hkee⟩
      have hrun : searchAux left right (left.length : Int)
          (right.length : Int) (mxOf left right) (fuel + 1) dstart
          (traceList left right dstart) (vArr left right dstart) =
          some (traceList left right (dstart + 1)) := by
        rw [searchAux, ← traceList_succ]
        rw [show ((dstart : Nat) : Int) = (dstart : Int) from rfl] at hw
        rw [hw]
      constructor
      · intro hnone
        rw [hrun] at hnone
        simp at hnone
      · intro tr htr
        rw [hrun] at htr
        refine ⟨dstart, le_refl _, by omega, ⟨ke, hkev, hkee⟩, ?_, ?_⟩
        · intro e he1 he2
          omega
        · simpa using htr.symm
    · have hnoexit : ∀ ke, -(dstart : Int) ≤ ke → roundValid dstart ke →
          ¬exitCond left right dstart ke := by
        intro ke _ hv hc
        exact hex ⟨ke, hv, hc⟩
      have hinl := hspec.1 hnoexit
      have hrun : searchAux left right (left.length : Int)
          (right.length : Int) (mxOf left right) (fuel + 1) dstart
          (traceList left right dstart) (vArr left right dstart) =
          searchAux left right (left.length : Int) (right.length : Int)
            (mxOf left right) fuel (dstart + 1)
            (traceList left right (dstart + 1))
            (vArr left right (dstart + 1)) := by
        rw [searchAux, ← traceList_succ]
        rw [hinl]
      obtain ⟨ihA, ihB⟩ := ih (dstart + 1)
      constructor
      · intro hnone e he1 he2
        rw [hrun] at hnone
        rcases Nat.eq_or_lt_of_le he1 with he | he
        · rw [← he]
          exact hex
        · exact ihA hnone e he (by omega)
      · intro tr htr
        rw [hrun] at htr
        obtain ⟨D, hD1, hD2, hD3, hD4, hD5⟩ := ihB tr htr
        refine ⟨D, by omega, by omega, hD3, ?_, hD5⟩
        intro e he1 he2
        rcases Nat.eq_or_lt_of_le he1 with he | he
        · rw [← he]
          exact hex
        · exact hD4 e he he2

/-- The search always exits: at the latest in round `L + R`, and the
returned trace covers exactly the rounds up to the first exit. -/
lemma searchTrace_spec (left right : List String) :
    ∃ D, D ≤ left.length + right.length ∧ roundExits left right D ∧
      (∀ e, e < D → ¬roundExits left right e) ∧
      searchTrace left right (left.length : Int) (right.length : Int)
        (mxOf left right) = some (traceList left right (D + 1)) := by
  have hreach : Reach left right (left.length + right.length)
      left.length right.length := by
    have h0 : Reach left right 0 0 0 := Reach.zero
    have h1 := reach_del_chain h0
    simp only [Nat.zero_add, Nat.sub_zero] at h1
    have h2 := reach_ins_chain h1
    simpa using h2
  have hexists : roundExits left right (left.length + right.length) :=
    roundExits_of_reach left right _ hreach
  have hst : searchTrace left right (left.length : Int)
      (right.length : Int) (mxOf left right) =
      searchAux left right (left.length : Int) (right.length : Int)
        (mxOf left right) ((mxOf left right).toNat + 1) 0
        (traceList left right 0) (vArr left right 0) := by
    rw [searchTrace]
    rfl
  have hmxt : (mxOf left right).toNat = left.length + right.length := by
    rw [mxOf]
    omega
  obtain ⟨hA, hB⟩ := searchAux_spec left right
    ((mxOf left right).toNat + 1) 0
  cases hres : searchAux left right (left.length : Int)
      (right.length : Int) (mxOf left right) ((mxOf left right).toNat + 1) 0
      (traceList left right 0) (vArr left right 0) with
  | none =>
    exfalso
    exact hA hres (left.length + right.length) (Nat.zero_le _)
      (by omega) hexists
  | some tr =>
    obtain ⟨D, _, hD2, hD3, hD4, hD5⟩ := hB tr hres
    refine ⟨D, ?_, hD3, fun e he => hD4 e (Nat.zero_le _) he, ?_⟩
    · by_contra hcon
      push_neg at hcon
      exact hD4 (left.length + right.length) (Nat.zero_le _) hcon hexists
    · rw [hst, hres, hD5]

/-! ### Collect bookkeeping for the backtrack -/

lemma collectLeft_append (xs ys : List LineDiff) :
    collectLeft (xs ++ ys) = collectLeft xs ++ collectLeft ys := by
  simp [collectLeft]

lemma collectRight_append (xs ys : List LineDiff) :
    collectRight (xs ++ ys) = collectRight xs ++ collectRight ys := by
  simp [collectRight]

lemma nonEqlCount_append (xs ys : List LineDiff) :
    nonEqlCount (xs ++ ys) = nonEqlCount xs + nonEqlCount ys := by
  simp [nonEqlCount]

lemma collectLeft_eqlMap (ls : List String) :
    collectLeft (ls.map (fun z => ⟨Op.eql, z⟩)) = ls := by
  induction ls with
  | nil => rfl
  | cons a as ih =>
    simpa [collectLeft, List.filterMap_cons] using ih

lemma collectRight_eqlMap (ls : List String) :
    collectRight (ls.map (fun z => ⟨Op.eql, z⟩)) = ls := by
  induction ls with
  | nil => rfl
  | cons a as ih =>
    simpa [collectRight, List.filterMap_cons] using ih

lemma nonEqlCount_eqlMap (ls : List String) :
    nonEqlCount (ls.map (fun z => ⟨Op.eql, z⟩)) = 0 := by
  induction ls with
  | nil => rfl
  | cons a as _ =>
    simp [nonEqlCount]

lemma collectLeft_del_single (z : String) :
    collectLeft [⟨Op.del, z⟩] = [z] := rfl

lemma collectLeft_add_single (z : String) :
    collectLeft [⟨Op.add, z⟩] = [] := rfl

lemma collectRight_del_single (z : String) :
    collectRight [⟨Op.del, z⟩] = [] := rfl

lemma collectRight_add_single (z : String) :
    collectRight [⟨Op.add, z⟩] = [z] := rfl

lemma nonEqlCount_del_single (z : String) :
    nonEqlCount [⟨Op.del, z⟩] = 1 := rfl

lemma nonEqlCount_add_single (z : String) :
    nonEqlCount [⟨Op.add, z⟩] = 1 := rfl

/-- Peeling the last `s` elements of a reversed prefix as an explicit
index map. -/
lemma take_reverse_seg (L : List String) :
    ∀ (s x0 : Nat), x0 + s ≤ L.length →
      (L.take (x0 + s)).reverse =
        (List.range s).map (fun t => L.getD (x0 + s - 1 - t) "") ++
          (L.take x0).reverse := by
  intro s
  induction s with
  | zero =>
    intro x0 _
    simp
  | succ s ih =>
    intro x0 hle
    have h1 : x0 + (s + 1) = (x0 + s) + 1 := by ring
    rw [h1, List.take_succ]
    have hlt : x0 + s < L.length := by omega
    rw [List.getElem?_eq_getElem hlt]
    rw [show (some L[x0 + s]).toList = [L[x0 + s]] from rfl]
    rw [List.reverse_append]
    simp only [List.reverse_cons, List.reverse_nil, List.nil_append,
      List.singleton_append]
    rw [ih x0 (by omega)]
    rw [List.range_succ_eq_map]
    rw [List.map_cons, List.map_map]
    have hf0 : L.getD (x0 + s + 1 - 1 - 0) "" = L[x0 + s] := by
      have he : x0 + s + 1 - 1 - 0 = x0 + s := by omega
      rw [he]
      exact List.getD_eq_getElem L "" hlt
    have hfs : ((fun t => L.getD (x0 + s + 1 - 1 - t) "") ∘ Nat.succ) =
        (fun t => L.getD (x0 + s - 1 - t) "") := by
      funext t
      simp only [Function.comp]
      congr 1
      omega
    rw [hf0, hfs]
    rfl

/-- The equal-run loop emits, in reverse order, one Equal entry per
diagonal step walked back. -/
lemma eqWalkAux_struct (left : List String) :
    ∀ (fuel : Nat) (x y : Int) (acc : List LineDiff),
      eqWalkAux left fuel x y acc =
        (x - (fuel : Int), y - (fuel : Int),
         acc ++ (List.range fuel).map
           (fun t : Nat => ⟨Op.eql, left.getD (x - 1 - (t : Int)).toNat ""⟩)) := by
  intro fuel
  induction fuel with
  | zero =>
    intro x y acc
    simp [eqWalkAux]
  | succ fuel ih =>
    intro x y acc
    rw [eqWalkAux, ih]
    have hc1 : x - 1 - (fuel : Int) = x - ((fuel + 1 : Nat) : Int) := by
      push_cast
      ring
    have hc2 : y - 1 - (fuel : Int) = y - ((fuel + 1 : Nat) : Int) := by
      push_cast
      ring
    have hseg : (⟨Op.eql, left.getD (x - 1).toNat ""⟩ : LineDiff) ::
        (List.range fuel).map
          (fun t : Nat => ⟨Op.eql, left.getD (x - 1 - 1 - (t : Int)).toNat ""⟩) =
        (List.range (fuel + 1)).map
          (fun t : Nat => ⟨Op.eql, left.getD (x - 1 - (t : Int)).toNat ""⟩) := by
      rw [List.range_succ_eq_map, List.map_cons, List.map_map]
      have h0 : (⟨Op.eql, left.getD (x - 1 - ((0 : Nat) : Int)).toNat ""⟩ :
          LineDiff) = ⟨Op.eql, left.getD (x - 1).toNat ""⟩ := by
        norm_num
      have hfun : ((fun t : Nat =>
          (⟨Op.eql, left.getD (x - 1 - (t : Int)).toNat ""⟩ : LineDiff)) ∘
            Nat.succ) =
          (fun t : Nat =>
            (⟨Op.eql, left.getD (x - 1 - 1 - (t : Int)).toNat ""⟩ :
              LineDiff)) := by
        funext t
        have harg : x - 1 - ((Nat.succ t : Nat) : Int) =
            x - 1 - 1 - (t : Int) := by
          push_cast
          ring
        simp only [Function.comp]
        rw [harg]
      rw [h0, hfun]
    rw [List.append_assoc, List.singleton_append, hseg, hc1, hc2]

/-- The segment of Equal entries produced by walking a snake back:
walking from the snake end `(x, x - k)` lands on the snake start
`(c, c - k)` and appends Equal entries whose lines are, in reverse, the
left lines and at the same time the right lines the snake matched. -/
lemma snakeSeg (left right : List String) (c k x : Int)
    (hc0 : 0 ≤ c) (hck : 0 ≤ c - k)
    (hx : x = (snake left right c (c - k)).1)
    (hxl : x ≤ (left.length : Int))
    (hyr : x - k ≤ (right.length : Int)) :
    ∃ seg0 : List LineDiff,
      c ≤ x ∧
      (∀ acc, eqWalkAux left (x - c).toNat x (x - k) acc =
        (c, c - k, acc ++ seg0)) ∧
      collectLeft seg0 ++ (left.take c.toNat).reverse =
        (left.take x.toNat).reverse ∧
      collectRight seg0 ++ (right.take (c - k).toNat).reverse =
        (right.take (x - k).toNat).reverse ∧
      nonEqlCount seg0 = 0 := by
  have hspec := snake_spec left right c (c - k)
  have hcx : c ≤ x := by
    rw [hx]
    exact hspec.1
  have hguard := hspec.2.2.2
  rw [← hx] at hguard
  refine ⟨(List.range (x - c).toNat).map
    (fun t : Nat => ⟨Op.eql, left.getD (x - 1 - (t : Int)).toNat ""⟩),
    hcx, ?_, ?_, ?_, ?_⟩
  · intro acc
    rw [eqWalkAux_struct left ((x - c).toNat) x (x - k) acc]
    rw [show x - (((x - c).toNat : Nat) : Int) = c from by omega]
    rw [show x - k - (((x - c).toNat : Nat) : Int) = c - k from by omega]
  · have hfunL : (List.range (x - c).toNat).map
        (fun t : Nat => (⟨Op.eql, left.getD (x - 1 - (t : Int)).toNat ""⟩ :
          LineDiff)) =
        ((List.range (x - c).toNat).map
          (fun t : Nat => left.getD (x.toNat - 1 - t) "")).map
          (fun z => ⟨Op.eql, z⟩) := by
      rw [List.map_map]
      apply List.map_congr_left
      intro t _
      show (⟨Op.eql, left.getD (x - 1 - (t : Int)).toNat ""⟩ : LineDiff) =
        ⟨Op.eql, left.getD (x.toNat - 1 - t) ""⟩
      rw [show (x - 1 - (t : Int)).toNat = x.toNat - 1 - t from by omega]
    rw [hfunL, collectLeft_eqlMap]
    have hdecomp := take_reverse_seg left ((x - c).toNat) c.toNat (by omega)
    rw [show c.toNat + (x - c).toNat = x.toNat from by omega] at hdecomp
    rw [hdecomp]
  · have hfunR : (List.range (x - c).toNat).map
        (fun t : Nat => (⟨Op.eql, left.getD (x - 1 - (t : Int)).toNat ""⟩ :
          LineDiff)) =
        ((List.range (x - c).toNat).map
          (fun t : Nat => right.getD ((x - k).toNat - 1 - t) "")).map
          (fun z => ⟨Op.eql, z⟩) := by
      rw [List.map_map]
      apply List.map_congr_left
      intro t ht
      have htlt : t < (x - c).toNat := List.mem_range.mp ht
      have hg := hguard (x - 1 - (t : Int)) (by omega) (by omega)
      have harg : c - k + (x - 1 - (t : Int) - c) = x - 1 - (t : Int) - k := by
        ring
      rw [harg] at hg
      obtain ⟨hg1, hg2, hg3⟩ := hg
      show (⟨Op.eql, left.getD (x - 1 - (t : Int)).toNat ""⟩ : LineDiff) =
        ⟨Op.eql, right.getD ((x - k).toNat - 1 - t) ""⟩
      rw [hg3]
      rw [show (x - 1 - (t : Int) - k).toNat = (x - k).toNat - 1 - t
        from by omega]
    rw [hfunR, collectRight_eqlMap]
    have hdecomp := take_reverse_seg right ((x - c).toNat) ((c - k).toNat)
      (by omega)
    rw [show (c - k).toNat + (x - c).toNat = (x - k).toNat from by omega]
      at hdecomp
    rw [hdecomp]
  · have hfunL : (List.range (x - c).toNat).map
        (fun t : Nat => (⟨Op.eql, left.getD (x - 1 - (t : Int)).toNat ""⟩ :
          LineDiff)) =
        ((List.range (x - c).toNat).map
          (fun t : Nat => left.getD (x.toNat - 1 - t) "")).map
          (fun z => ⟨Op.eql, z⟩) := by
      rw [List.map_map]
      apply List.map_congr_left
      intro t _
      show (⟨Op.eql, left.getD (x - 1 - (t : Int)).toNat ""⟩ : LineDiff) =
        ⟨Op.eql, left.getD (x.toNat - 1 - t) ""⟩
      rw [show (x - 1 - (t : Int)).toNat = x.toNat - 1 - t from by omega]
    rw [hfunL, nonEqlCount_eqlMap]

lemma traceList_length (left right : List String) (n : Nat) :
    (traceList left right n).length = n := by
  simp [traceList]

lemma traceList_reverse_succ (left right : List String) (n : Nat) :
    (traceList left right (n + 1)).reverse =
      vArr left right n :: (traceList left right n).reverse := by
  rw [traceList_succ]
  simp

/-- The backtracking loop deterministically replays the forward search:
started at a recorded point of round `d` it appends (in reverse) an edit
script whose Equal and Deleted lines are exactly the consumed left
prefix, whose Equal and Added lines are exactly the consumed right
prefix, and which contains exactly `d` non-Equal entries. -/
lemma btAux_spec (left right : List String) :
    ∀ (d : Nat) (x y : Int),
      roundValid d (x - y) →
      x = valAt left right d (x - y) →
      0 ≤ y →
      x ≤ (left.length : Int) → y ≤ (right.length : Int) →
      ∀ acc : List LineDiff, ∃ seg : List LineDiff,
        btAux left right (mxOf left right)
            ((traceList left right (d + 1)).reverse) x y acc = acc ++ seg ∧
        collectLeft seg = (left.take x.toNat).reverse ∧
        collectRight seg = (right.take y.toNat).reverse ∧
        nonEqlCount seg = d := by
  intro d
  induction d with
  | zero =>
    intro x y hv hval hy0 hxl hyr acc
    have hk0 : x - y = 0 := by
      obtain ⟨a1, a2, a3⟩ := hv
      omega
    rw [valAt] at hval
    simp only [Nat.cast_zero] at hval
    have hrule : ruleCond (mxOf left right) (vArr left right 0) (0 : Int)
        (x - y) := Or.inl (by omega)
    have hc : chooseX (mxOf left right) (vArr left right 0) (0 : Int)
        (x - y) = 0 := by
      rw [chooseX, if_pos hrule]
      rfl
    rw [hc] at hval
    obtain ⟨seg0, hcx, hwalk, hsL, hsR, hs0⟩ :=
      snakeSeg left right 0 (x - y) x (le_refl 0) (by omega) hval hxl
        (by omega)
    have hw : eqWalk left x y (0 : Int) (0 - (x - y + 1)) acc =
        (0, 0 - (x - y), acc ++ seg0) := by
      rw [eqWalk]
      rw [show (min (x - 0) (y - (0 - (x - y + 1)))).toNat = (x - 0).toNat
        from by omega]
      have h := hwalk acc
      rw [show x - (x - y) = y from by ring] at h
      exact h
    have hnil : (traceList left right 0).reverse = [] := by
      simp [traceList]
    refine ⟨seg0, ?_, ?_, ?_, hs0⟩
    · rw [traceList_reverse_succ, hnil]
      simp only [btAux, List.length_nil, Nat.cast_zero]
      rw [if_pos hrule]
      simp only [vArr]
      rw [hw]
      rw [if_neg (show ¬(0 : Int) < 0 from by omega)]
    · simpa using hsL
    · rw [show (0 : Int) - (x - y) = 0 from by omega,
        show x - (x - y) = y from by ring] at hsR
      simpa using hsR
  | succ d ih =>
    intro x y hv hval hy0 hxl hyr acc
    rw [valAt] at hval
    by_cases hrule : ruleCond (mxOf left right) (vArr left right (d + 1))
        ((d + 1 : Nat) : Int) (x - y)
    · -- the predecessor diagonal is k + 1
      have hor : x - y = -((d : Int) + 1) ∨ x - y ≠ (d : Int) + 1 := by
        rcases hrule with h | h
        · left
          push_cast at h
          omega
        · right
          obtain ⟨h1, _⟩ := h
          push_cast at h1
          omega
      have hprevV : roundValid d (x - y + 1) := by
        obtain ⟨a1, a2, a3⟩ := hv
        push_cast at a1 a2 a3
        rcases hor with h | h
        · exact ⟨by omega, by omega, by omega⟩
        · exact ⟨by omega, by omega, by omega⟩
      have hcEq : chooseX (mxOf left right) (vArr left right (d + 1))
          ((d + 1 : Nat) : Int) (x - y) =
          valAt left right d (x - y + 1) := by
        rw [chooseX, if_pos hrule]
        rw [show mxOf left right + (x - y) + 1 =
          mxOf left right + (x - y + 1) from by ring]
        exact vArr_succ_valid left right d (x - y + 1) hprevV
      rw [hcEq] at hval
      have hlb := valAt_lb left right d (x - y + 1) hprevV
      obtain ⟨seg0, hcx, hwalk, hsL, hsR, hs0⟩ :=
        snakeSeg left right (valAt left right d (x - y + 1)) (x - y) x
          hlb.1 (by omega) hval hxl (by omega)
      have hvArrEq : vArr left right (d + 1)
          (mxOf left right + (x - y + 1)) =
          valAt left right d (x - y + 1) :=
        vArr_succ_valid left right d (x - y + 1) hprevV
      have hw : eqWalk left x y
          (vArr left right (d + 1) (mxOf left right + (x - y + 1)))
          (vArr left right (d + 1) (mxOf left right + (x - y + 1)) -
            (x - y + 1)) acc =
          (valAt left right d (x - y + 1),
           valAt left right d (x - y + 1) - (x - y), acc ++ seg0) := by
        rw [eqWalk, hvArrEq]
        rw [show (min (x - valAt left right d (x - y + 1))
            (y - (valAt left right d (x - y + 1) - (x - y + 1)))).toNat =
            (x - valAt left right d (x - y + 1)).toNat from by omega]
        have h := hwalk acc
        rw [show x - (x - y) = y from by ring] at h
        exact h
      have hnlt : ¬ vArr left right (d + 1)
          (mxOf left right + (x - y + 1)) <
          valAt left right d (x - y + 1) := by
        rw [hvArrEq]
        omega
      have hky' : valAt left right d (x - y + 1) -
          (valAt left right d (x - y + 1) - (x - y) - 1) = x - y + 1 := by
        ring
      obtain ⟨seg', hbt', hL', hR', hn'⟩ :=
        ih (valAt left right d (x - y + 1))
          (valAt left right d (x - y + 1) - (x - y) - 1)
          (by rw [hky']; exact hprevV)
          (by rw [hky'])
          (by omega) (by omega) (by omega)
          ((acc ++ seg0) ++
            [⟨Op.add, right.getD
              (valAt left right d (x - y + 1) - (x - y) - 1).toNat ""⟩])
      refine ⟨seg0 ++
        [⟨Op.add, right.getD
          (valAt left right d (x - y + 1) - (x - y) - 1).toNat ""⟩] ++ seg',
        ?_, ?_, ?_, ?_⟩
      · rw [traceList_reverse_succ]
        simp only [btAux, List.length_reverse, traceList_length]
        rw [if_pos hrule, hw]
        rw [if_pos (show (0 : Int) < ((d + 1 : Nat) : Int) from by omega)]
        rw [if_neg hnlt]
        dsimp only
        rw [hbt']
        simp [List.append_assoc]
      · rw [collectLeft_append, collectLeft_append, collectLeft_add_single,
          List.append_nil, hL']
        exact hsL
      · rw [collectRight_append, collectRight_append,
          collectRight_add_single, hR', List.append_assoc,
          List.singleton_append]
        have hpeel : (right.take
            (valAt left right d (x - y + 1) - (x - y)).toNat).reverse =
            right.getD
              (valAt left right d (x - y + 1) - (x - y) - 1).toNat "" ::
            (right.take
              (valAt left right d (x - y + 1) - (x - y) - 1).toNat).reverse
            := by
          have h1 := take_reverse_seg right 1
            ((valAt left right d (x - y + 1) - (x - y) - 1).toNat)
            (by omega)
          rw [show (valAt left right d (x - y + 1) - (x - y) - 1).toNat + 1 =
            (valAt left right d (x - y + 1) - (x - y)).toNat from by omega]
            at h1
          rw [h1]
          rw [show List.range 1 = [0] from rfl]
          simp only [List.map_cons, List.map_nil, List.singleton_append]
          rw [show (valAt left right d (x - y + 1) - (x - y)).toNat - 1 - 0 =
            (valAt left right d (x - y + 1) - (x - y) - 1).toNat
            from by omega]
        rw [← hpeel]
        rw [show x - (x - y) = y from by ring] at hsR
        exact hsR
      · rw [nonEqlCount_append, nonEqlCount_append, nonEqlCount_add_single,
          hs0, hn']
        omega
    · -- the predecessor diagonal is k - 1
      have hnot : x - y ≠ -((d : Int) + 1) := by
        intro h
        exact hrule (Or.inl (by push_cast; omega))
      have hprevV : roundValid d (x - y - 1) := by
        obtain ⟨a1, a2, a3⟩ := hv
        push_cast at a1 a2 a3
        exact ⟨by omega, by omega, by omega⟩
      have hcEq : chooseX (mxOf left right) (vArr left right (d + 1))
          ((d + 1 : Nat) : Int) (x - y) =
          valAt left right d (x - y - 1) + 1 := by
        rw [chooseX, if_neg hrule]
        rw [show mxOf left right + (x - y) - 1 =
          mxOf left right + (x - y - 1) from by ring]
        rw [vArr_succ_valid left right d (x - y - 1) hprevV]
      rw [hcEq] at hval
      have hlb := valAt_lb left right d (x - y - 1) hprevV
      obtain ⟨seg0, hcx, hwalk, hsL, hsR, hs0⟩ :=
        snakeSeg left right (valAt left right d (x - y - 1) + 1) (x - y) x
          (by omega) (by omega) hval hxl (by omega)
      have hvArrEq : vArr left right (d + 1)
          (mxOf left right + (x - y - 1)) =
          valAt left right d (x - y - 1) :=
        vArr_succ_valid left right d (x - y - 1) hprevV
      have hw : eqWalk left x y
          (vArr left right (d + 1) (mxOf left right + (x - y - 1)))
          (vArr left right (d + 1) (mxOf left right + (x - y - 1)) -
            (x - y - 1)) acc =
          (valAt left right d (x - y - 1) + 1,
           valAt left right d (x - y - 1) + 1 - (x - y), acc ++ seg0) := by
        rw [eqWalk, hvArrEq]
        rw [show (min (x - valAt left right d (x - y - 1))
            (y - (valAt left right d (x - y - 1) - (x - y - 1)))).toNat =
            (x - (valAt left right d (x - y - 1) + 1)).toNat from by omega]
        have h := hwalk acc
        rw [show x - (x - y) = y from by ring] at h
        exact h
      have hlt : vArr left right (d + 1)
          (mxOf left right + (x - y - 1)) <
          valAt left right d (x - y - 1) + 1 := by
        rw [hvArrEq]
        omega
      have hky' : valAt left right d (x - y - 1) -
          (valAt left right d (x - y - 1) + 1 - (x - y)) = x - y - 1 := by
        ring
      obtain ⟨seg', hbt', hL', hR', hn'⟩ :=
        ih (valAt left right d (x - y - 1))
          (valAt left right d (x - y - 1) + 1 - (x - y))
          (by rw [hky']; exact hprevV)
          (by rw [hky'])
          (by omega) (by omega) (by omega)
          ((acc ++ seg0) ++
            [⟨Op.del, left.getD
              (valAt left right d (x - y - 1)).toNat ""⟩])
      refine ⟨seg0 ++
        [⟨Op.del, left.getD (valAt left right d (x - y - 1)).toNat ""⟩] ++
          seg', ?_, ?_, ?_, ?_⟩
      · rw [traceList_reverse_succ]
        simp only [btAux, List.length_reverse, traceList_length]
        rw [if_neg hrule, hw]
        rw [if_pos (show (0 : Int) < ((d + 1 : Nat) : Int) from by omega)]
        rw [if_pos hlt]
        dsimp only
        rw [show valAt left right d (x - y - 1) + 1 - 1 =
          valAt left right d (x - y - 1) from by ring]
        rw [hbt']
        simp [List.append_assoc]
      · rw [collectLeft_append, collectLeft_append, collectLeft_del_single,
          hL', List.append_assoc, List.singleton_append]
        have hpeel : (left.take
            (valAt left right d (x - y - 1) + 1).toNat).reverse =
            left.getD (valAt left right d (x - y - 1)).toNat "" ::
            (left.take (valAt left right d (x - y - 1)).toNat).reverse := by
          have h1 := take_reverse_seg left 1
            ((valAt left right d (x - y - 1)).toNat) (by omega)
          rw [show (valAt left right d (x - y - 1)).toNat + 1 =
            (valAt left right d (x - y - 1) + 1).toNat from by omega] at h1
          rw [h1]
          rw [show List.range 1 = [0] from rfl]
          simp only [List.map_cons, List.map_nil, List.singleton_append]
          rw [show (valAt left right d (x - y - 1) + 1).toNat - 1 - 0 =
            (valAt left right d (x - y - 1)).toNat from by omega]
        rw [← hpeel]
        exact hsL
      · rw [collectRight_append, collectRight_append,
          collectRight_del_single, List.append_nil, hR']
        rw [show x - (x - y) = y from by ring] at hsR
        exact hsR
      · rw [nonEqlCount_append, nonEqlCount_append, nonEqlCount_del_single,
          hs0, hn']
        omega

lemma collectLeft_reverse (ds : List LineDiff) :
    collectLeft ds.reverse = (collectLeft ds).reverse := by
  simp [collectLeft, List.filterMap_reverse]

lemma collectRight_reverse (ds : List LineDiff) :
    collectRight ds.reverse = (collectRight ds).reverse := by
  simp [collectRight, List.filterMap_reverse]

lemma nonEqlCount_reverse (ds : List LineDiff) :
    nonEqlCount ds.reverse = nonEqlCount ds := by
  simp [nonEqlCount, List.filter_reverse]

lemma collectLeft_addMap (ls : List String) :
    collectLeft (ls.map (fun z => ⟨Op.add, z⟩)) = [] := by
  induction ls with
  | nil => rfl
  | cons a as _ => simp [collectLeft, List.filterMap_cons]

lemma collectRight_addMap (ls : List String) :
    collectRight (ls.map (fun z => ⟨Op.add, z⟩)) = ls := by
  induction ls with
  | nil => rfl
  | cons a as ih => simpa [collectRight, List.filterMap_cons] using ih

lemma collectLeft_delMap (ls : List String) :
    collectLeft (ls.map (fun z => ⟨Op.del, z⟩)) = ls := by
  induction ls with
  | nil => rfl
  | cons a as ih => simpa [collectLeft, List.filterMap_cons] using ih

lemma collectRight_delMap (ls : List String) :
    collectRight (ls.map (fun z => ⟨Op.del, z⟩)) = [] := by
  induction ls with
  | nil => rfl
  | cons a as _ => simp [collectRight, List.filterMap_cons]

lemma nonEqlCount_addMap (ls : List String) :
    nonEqlCount (ls.map (fun z => ⟨Op.add, z⟩)) = ls.length := by
  induction ls with
  | nil => rfl
  | cons a as ih =>
    simp [nonEqlCount, List.filter_cons] at ih ⊢
    omega

lemma nonEqlCount_delMap (ls : List String) :
    nonEqlCount (ls.map (fun z => ⟨Op.del, z⟩)) = ls.length := by
  induction ls with
  | nil => rfl
  | cons a as ih =>
    simp [nonEqlCount, List.filter_cons] at ih ⊢
    omega

/-- `runFull` never takes the panic branch: it returns a script that
reconstructs both inputs and whose number of non-Equal entries is the
first exiting round, the minimal edit distance. -/
lemma runFull_spec (left right : List String) :
    ∃ ds : List LineDiff, runFull left right = some ds ∧
      collectLeft ds = left ∧ collectRight ds = right ∧
      roundExits left right (nonEqlCount ds) ∧
      (∀ e, e < nonEqlCount ds → ¬roundExits left right e) ∧
      nonEqlCount ds ≤ left.length + right.length ∧
      Reach left right (nonEqlCount ds) left.length right.length ∧
      (∀ e, Reach left right e left.length right.length →
        nonEqlCount ds ≤ e) := by
  obtain ⟨D, hDle, hDex, hDfirst, hst⟩ := searchTrace_spec left right
  obtain ⟨hkv, hvalEq, hreach, hmin⟩ := exit_point left right D hDfirst hDex
  obtain ⟨seg, hbt, hsL, hsR, hs0⟩ :=
    btAux_spec left right D (left.length : Int) (right.length : Int)
      hkv hvalEq.symm (by omega) (le_refl _) (le_refl _) []
  rw [List.nil_append] at hbt
  have hds : runFull left right = some ((btAux left right (mxOf left right)
      (traceList left right (D + 1)).reverse (left.length : Int)
      (right.length : Int) []).reverse) := by
    simp only [runFull]
    rw [show ((left.length : Int) + (right.length : Int)) = mxOf left right
      from rfl]
    rw [hst, Option.map_some', runFullBacktrack]
  rw [hbt] at hds
  have hcnt : nonEqlCount seg.reverse = D := by
    rw [nonEqlCount_reverse, hs0]
  refine ⟨seg.reverse, hds, ?_, ?_, ?_, ?_, ?_, ?_, ?_⟩
  · rw [collectLeft_reverse, hsL]
    rw [show ((left.length : Int)).toNat = left.length
      from Int.toNat_natCast _]
    rw [List.take_length, List.reverse_reverse]
  · rw [collectRight_reverse, hsR]
    rw [show ((right.length : Int)).toNat = right.length
      from Int.toNat_natCast _]
    rw [List.take_length, List.reverse_reverse]
  · rw [hcnt]
    exact hDex
  · rw [hcnt]
    exact hDfirst
  · rw [hcnt]
    exact hDle
  · rw [hcnt]
    exact hreach
  · rw [hcnt]
    exact hmin

/-- The fast paths of `run`: either both inputs are non-empty and the
full algorithm runs, or one side is empty and the returned script is
all-Added or all-Deleted (or empty). -/
lemma runFast_spec (left right : List String) :
    (runFast left right = none ∧ left ≠ [] ∧ right ≠ []) ∨
    (∃ ds, runFast left right = some ds ∧ collectLeft ds = left ∧
      collectRight ds = right ∧
      nonEqlCount ds = left.length + right.length ∧
      (left.length = 0 ∨ right.length = 0) ∧
      Reach left right (left.length + right.length)
        left.length right.length) := by
  by_cases h0 : left.length + right.length = 0
  · right
    refine ⟨[], ?_, ?_, ?_, ?_, ?_, ?_⟩
    · rw [runFast, if_pos h0]
    · have : left = [] := List.eq_nil_of_length_eq_zero (by omega)
      rw [this]
      rfl
    · have : right = [] := List.eq_nil_of_length_eq_zero (by omega)
      rw [this]
      rfl
    · have hz : nonEqlCount ([] : List LineDiff) = 0 := rfl
      omega
    · omega
    · have hl : left.length = 0 := by omega
      have hr : right.length = 0 := by omega
      rw [show left.length + right.length = 0 from by omega, hl, hr]
      exact Reach.zero
  · by_cases hl : left.length = 0
    · right
      refine ⟨right.map (fun z => ⟨Op.add, z⟩), ?_, ?_, ?_, ?_, ?_, ?_⟩
      · rw [runFast, if_neg h0, if_pos hl]
      · rw [collectLeft_addMap]
        exact (List.eq_nil_of_length_eq_zero hl).symm
      · exact collectRight_addMap right
      · rw [nonEqlCount_addMap]
        omega
      · exact Or.inl hl
      · have h0 : Reach left right 0 0 0 := Reach.zero
        have h1 := reach_ins_chain h0
        simp only [Nat.zero_add, Nat.sub_zero] at h1
        rw [show left.length + right.length = right.length from by omega]
        rw [show left.length = 0 from hl]
        exact h1
    · by_cases hr : right.length = 0
      · right
        refine ⟨left.map (fun z => ⟨Op.del, z⟩), ?_, ?_, ?_, ?_, ?_, ?_⟩
        · rw [runFast, if_neg h0, if_neg hl, if_pos hr]
        · exact collectLeft_delMap left
        · rw [collectRight_delMap]
          exact (List.eq_nil_of_length_eq_zero hr).symm
        · rw [nonEqlCount_delMap]
          omega
        · exact Or.inr hr
        · have h0 : Reach left right 0 0 0 := Reach.zero
          have h1 := reach_del_chain h0
          simp only [Nat.zero_add, Nat.sub_zero] at h1
          rw [show left.length + right.length = left.length from by omega]
          rw [show right.length = 0 from hr]
          exact h1
      · left
        refine ⟨?_, ?_, ?_⟩
        · rw [runFast, if_neg h0, if_neg hl, if_neg hr]
        · intro h
          exact hl (by rw [h]; rfl)
        · intro h
          exact hr (by rw [h]; rfl)

/-- The script produced by `differ.run` reconstructs both inputs and
realizes the minimal edit distance. -/
lemma differRun_spec (left right : List String) (ln rn : String)
    (res : Result) (h : differRun left ln right rn = some res) :
    collectLeft res.diffs = left ∧ collectRight res.diffs = right ∧
    Reach left right (nonEqlCount res.diffs) left.length right.length ∧
    (∀ e, Reach left right e left.length right.length →
      nonEqlCount res.diffs ≤ e) := by
  rw [differRun] at h
  rcases runFast_spec left right with ⟨hnone, _, _⟩ |
    ⟨ds, hsome, hcl, hcr, hcnt, hzero, hre⟩
  · rw [hnone] at h
    obtain ⟨ds, hfull, hL, hR, _, _, _, hreach, hmin⟩ :=
      runFull_spec left right
    rw [hfull, Option.map_some'] at h
    have hres : (⟨ln, rn, ds⟩ : Result) = res := Option.some.inj h
    rw [← hres]
    exact ⟨hL, hR, hreach, hmin⟩
  · rw [hsome] at h
    have hres : (⟨ln, rn, ds⟩ : Result) = res := Option.some.inj h
    rw [← hres]
    refine ⟨hcl, hcr, ?_, ?_⟩
    · show Reach left right (nonEqlCount ds) left.length right.length
      rw [hcnt]
      exact hre
    · intro e he
      show nonEqlCount ds ≤ e
      rw [hcnt]
      have hd := reach_diag_le he
      rcases hzero with hz | hz <;> omega

/-! ### Longest common subsequence -/

lemma lcsLen_nil_left (R : List String) : lcsLen [] R = 0 := by
  simp [lcsLen]

lemma lcsLen_nil_right (L : List String) : lcsLen L [] = 0 := by
  cases L <;> simp [lcsLen]

/-- `lcsLen` is achieved by some common subsequence. -/
lemma lcsLen_exists (L R : List String) :
    ∃ t : List String, t.Sublist L ∧ t.Sublist R ∧
      t.length = lcsLen L R := by
  have main : ∀ (n : Nat) (L R : List String), L.length + R.length ≤ n →
      ∃ t : List String, t.Sublist L ∧ t.Sublist R ∧
        t.length = lcsLen L R := by
    intro n
    induction n with
    | zero =>
      intro L R hn
      have hL : L = [] := List.eq_nil_of_length_eq_zero (by omega)
      subst hL
      exact ⟨[], List.nil_sublist _, List.nil_sublist _, by simp [lcsLen]⟩
    | succ n ihn =>
      intro L R hn
      cases L with
      | nil =>
        exact ⟨[], List.nil_sublist _, List.nil_sublist _, by simp [lcsLen]⟩
      | cons a as =>
        cases R with
        | nil =>
          exact ⟨[], List.nil_sublist _, List.nil_sublist _,
            by simp [lcsLen_nil_right]⟩
        | cons b bs =>
          by_cases hab : a = b
          · obtain ⟨t, h1, h2, h3⟩ := ihn as bs
              (by simp only [List.length_cons] at hn ⊢; omega)
            subst hab
            refine ⟨a :: t, h1.cons₂ a, h2.cons₂ a, ?_⟩
            rw [show lcsLen (a :: as) (a :: bs) = lcsLen as bs + 1
              from by simp [lcsLen]]
            simp only [List.length_cons]
            omega
          · rcases le_total (lcsLen (a :: as) bs) (lcsLen as (b :: bs))
              with hle | hle
            · obtain ⟨t, h1, h2, h3⟩ := ihn as (b :: bs)
                (by simp only [List.length_cons] at hn ⊢; omega)
              refine ⟨t, h1.cons a, h2, ?_⟩
              rw [show lcsLen (a :: as) (b :: bs) =
                max (lcsLen (a :: as) bs) (lcsLen as (b :: bs))
                from by simp [lcsLen, hab]]
              rw [Nat.max_eq_right hle]
              exact h3
            · obtain ⟨t, h1, h2, h3⟩ := ihn (a :: as) bs
                (by simp only [List.length_cons] at hn ⊢; omega)
              refine ⟨t, h1, h2.cons b, ?_⟩
              rw [show lcsLen (a :: as) (b :: bs) =
                max (lcsLen (a :: as) bs) (lcsLen as (b :: bs))
                from by simp [lcsLen, hab]]
              rw [Nat.max_eq_left hle]
              exact h3
  exact main (L.length + R.length) L R (le_refl _)

/-- `lcsLen` bounds every common subsequence. -/
lemma lcsLen_ub (L R : List String) :
    ∀ t : List String, t.Sublist L → t.Sublist R →
      t.length ≤ lcsLen L R := by
  have main : ∀ (n : Nat) (L R t : List String), L.length + R.length ≤ n →
      t.Sublist L → t.Sublist R → t.length ≤ lcsLen L R := by
    intro n
    induction n with
    | zero =>
      intro L R t hn h1 h2
      have hL : L = [] := List.eq_nil_of_length_eq_zero (by omega)
      subst hL
      rw [List.sublist_nil.mp h1]
      simp
    | succ n ihn =>
      intro L R t hn h1 h2
      cases L with
      | nil =>
        rw [List.sublist_nil.mp h1]
        simp
      | cons a as =>
        cases R with
        | nil =>
          rw [List.sublist_nil.mp h2]
          simp
        | cons b bs =>
          cases t with
          | nil => simp
          | cons c t' =>
            by_cases hab : a = b
            · rw [show lcsLen (a :: as) (b :: bs) = lcsLen as bs + 1
                from by simp [lcsLen, hab]]
              have ht'as : t'.Sublist as := by
                cases h1 with
                | cons _ h => exact (List.sublist_cons_self c t').trans h
                | cons₂ _ h => exact h
              have ht'bs : t'.Sublist bs := by
                cases h2 with
                | cons _ h => exact (List.sublist_cons_self c t').trans h
                | cons₂ _ h => exact h
              have hrec := ihn as bs t'
                (by simp only [List.length_cons] at hn ⊢; omega) ht'as ht'bs
              simp only [List.length_cons]
              omega
            · rw [show lcsLen (a :: as) (b :: bs) =
                max (lcsLen (a :: as) bs) (lcsLen as (b :: bs))
                from by simp [lcsLen, hab]]
              by_cases hca : c = a
              · have hcb : c ≠ b := by
                  rw [hca]
                  exact hab
                have h2' : (c :: t').Sublist bs := by
                  cases h2 with
                  | cons _ h => exact h
                  | cons₂ _ h => exact absurd rfl hcb
                have hrec := ihn (a :: as) bs (c :: t')
                  (by simp only [List.length_cons] at hn ⊢; omega) h1 h2'
                have hm := Nat.le_max_left (lcsLen (a :: as) bs)
                  (lcsLen as (b :: bs))
                omega
              · have h1' : (c :: t').Sublist as := by
                  cases h1 with
                  | cons _ h => exact h
                  | cons₂ _ h => exact absurd rfl hca
                have hrec := ihn as (b :: bs) (c :: t')
                  (by simp only [List.length_cons] at hn ⊢; omega) h1' h2
                have hm := Nat.le_max_right (lcsLen (a :: as) bs)
                  (lcsLen as (b :: bs))
                omega
  intro t h1 h2
  exact main (L.length + R.length) L R t (le_refl _) h1 h2

/-! ### A common subsequence yields a short edit path -/

lemma reach_del_steps {left right : List String} {d x y : Nat}
    (h : Reach left right d x y) :
    ∀ i : Nat, x + i ≤ left.length → Reach left right (d + i) (x + i) y := by
  intro i
  induction i with
  | zero =>
    intro _
    simpa using h
  | succ i ih =>
    intro hle
    have h2 := Reach.del (ih (by omega)) (show x + i < left.length by omega)
    exact h2

lemma reach_ins_steps {left right : List String} {d x y : Nat}
    (h : Reach left right d x y) :
    ∀ j : Nat, y + j ≤ right.length → Reach left right (d + j) x (y + j) := by
  intro j
  induction j with
  | zero =>
    intro _
    simpa using h
  | succ j ih =>
    intro hle
    have h2 := Reach.ins (ih (by omega)) (show y + j < right.length by omega)
    exact h2

lemma cons_sublist_decomp {c : String} {t l : List String}
    (h : (c :: t).Sublist l) :
    ∃ p q, l = p ++ c :: q ∧ t.Sublist q := by
  obtain ⟨r1, r2, hl, hmem, hsub⟩ := List.cons_sublist_iff.mp h
  obtain ⟨p, s, hr1⟩ := List.append_of_mem hmem
  refine ⟨p, s ++ r2, ?_, ?_⟩
  · rw [hl, hr1]
    simp [List.append_assoc]
  · exact hsub.trans (List.sublist_append_right s r2)

/-- Extending a path along a common subsequence of the remainders. -/
lemma reach_of_common_aux (left right : List String) :
    ∀ (t : List String) (d x y : Nat),
      Reach left right d x y →
      t.Sublist (left.drop x) → t.Sublist (right.drop y) →
      Reach left right
        (d + ((left.length - x) + (right.length - y) - 2 * t.length))
        left.length right.length := by
  intro t
  induction t with
  | nil =>
    intro d x y h _ _
    have h1 := reach_ins_chain (reach_del_chain h)
    rw [show d + ((left.length - x) + (right.length - y) -
      2 * ([] : List String).length) =
      d + (left.length - x) + (right.length - y)
      from by simp only [List.length_nil]; omega]
    exact h1
  | cons c t' iht =>
    intro d x y h h1 h2
    obtain ⟨p, q, hpq, ht'q⟩ := cons_sublist_decomp h1
    obtain ⟨p2, q2, hpq2, ht'q2⟩ := cons_sublist_decomp h2
    have hxb := (reach_le_len h).1
    have hyb := (reach_le_len h).2
    have hdlen : left.length - x = p.length + 1 + q.length := by
      rw [← List.length_drop, hpq]
      simp only [List.length_append, List.length_cons]
      omega
    have hdlen2 : right.length - y = p2.length + 1 + q2.length := by
      rw [← List.length_drop, hpq2]
      simp only [List.length_append, List.length_cons]
      omega
    have hq : left.drop (x + p.length + 1) = q := by
      have hd := List.drop_drop (p.length + 1) x left
      rw [hpq] at hd
      have hpc : (p ++ c :: q).drop (p.length + 1) = q := by
        rw [show p.length + 1 = (p ++ [c]).length from by simp]
        rw [show p ++ c :: q = (p ++ [c]) ++ q from by simp]
        exact List.drop_left _ _
      rw [hpc] at hd
      rw [hd]
      congr 1
    have hq2 : right.drop (y + p2.length + 1) = q2 := by
      have hd := List.drop_drop (p2.length + 1) y right
      rw [hpq2] at hd
      have hpc : (p2 ++ c :: q2).drop (p2.length + 1) = q2 := by
        rw [show p2.length + 1 = (p2 ++ [c]).length from by simp]
        rw [show p2 ++ c :: q2 = (p2 ++ [c]) ++ q2 from by simp]
        exact List.drop_left _ _
      rw [hpc] at hd
      rw [hd]
      congr 1
    have hgl : left.getD (x + p.length) "" = c := by
      rw [List.getD_eq_getElem?_getD, ← List.getElem?_drop, hpq]
      rw [List.getElem?_append_right (le_refl p.length)]
      simp
    have hgr : right.getD (y + p2.length) "" = c := by
      rw [List.getD_eq_getElem?_getD, ← List.getElem?_drop, hpq2]
      rw [List.getElem?_append_right (le_refl p2.length)]
      simp
    have hmatch : matchAt left right (x + p.length) (y + p2.length) :=
      ⟨by omega, by omega, by rw [hgl, hgr]⟩
    have hA := reach_del_steps h p.length (by omega)
    have hB := reach_ins_steps hA p2.length (by omega)
    have hC := Reach.diag hB hmatch
    have hlt' : t'.length ≤ q.length := ht'q.length_le
    have hlt2' : t'.length ≤ q2.length := ht'q2.length_le
    have hD := iht (d + p.length + p2.length) (x + p.length + 1)
      (y + p2.length + 1) hC (by rw [hq]; exact ht'q)
      (by rw [hq2]; exact ht'q2)
    rw [show d + ((left.length - x) + (right.length - y) -
      2 * (c :: t').length) =
      d + p.length + p2.length + ((left.length - (x + p.length + 1)) +
        (right.length - (y + p2.length + 1)) - 2 * t'.length)
      from by simp only [List.length_cons]; omega]
    exact hD

/-- Any common subsequence of the inputs yields an edit path with
`L + R - 2 * |t|` edits. -/
lemma reach_of_common (left right : List String) (t : List String)
    (h1 : t.Sublist left) (h2 : t.Sublist right) :
    Reach left right (left.length + right.length - 2 * t.length)
      left.length right.length := by
  have h := reach_of_common_aux left right t 0 0 0 Reach.zero
    (by rw [List.drop_zero]; exact h1) (by rw [List.drop_zero]; exact h2)
  rw [show left.length + right.length - 2 * t.length =
    0 + ((left.length - 0) + (right.length - 0) - 2 * t.length)
    from by omega]
  exact h

lemma eqlLines_sublist_left (ds : List LineDiff) :
    (eqlLines ds).Sublist (collectLeft ds) := by
  induction ds with
  | nil => exact List.Sublist.refl _
  | cons e ds ih =>
    rcases e with ⟨op, line⟩
    cases op with
    | eql =>
      rw [show eqlLines (⟨Op.eql, line⟩ :: ds) = line :: eqlLines ds
        from by simp [eqlLines, List.filterMap_cons]]
      rw [show collectLeft (⟨Op.eql, line⟩ :: ds) = line :: collectLeft ds
        from by simp [collectLeft, List.filterMap_cons]]
      exact ih.cons₂ line
    | add =>
      rw [show eqlLines (⟨Op.add, line⟩ :: ds) = eqlLines ds
        from by simp [eqlLines, List.filterMap_cons]]
      rw [show collectLeft (⟨Op.add, line⟩ :: ds) = collectLeft ds
        from by simp [collectLeft, List.filterMap_cons]]
      exact ih
    | del =>
      rw [show eqlLines (⟨Op.del, line⟩ :: ds) = eqlLines ds
        from by simp [eqlLines, List.filterMap_cons]]
      rw [show collectLeft (⟨Op.del, line⟩ :: ds) = line :: collectLeft ds
        from by simp [collectLeft, List.filterMap_cons]]
      exact ih.cons line

lemma eqlLines_sublist_right (ds : List LineDiff) :
    (eqlLines ds).Sublist (collectRight ds) := by
  induction ds with
  | nil => exact List.Sublist.refl _
  | cons e ds ih =>
    rcases e with ⟨op, line⟩
    cases op with
    | eql =>
      rw [show eqlLines (⟨Op.eql, line⟩ :: ds) = line :: eqlLines ds
        from by simp [eqlLines, List.filterMap_cons]]
      rw [show collectRight (⟨Op.eql, line⟩ :: ds) = line :: collectRight ds
        from by simp [collectRight, List.filterMap_cons]]
      exact ih.cons₂ line
    | add =>
      rw [show eqlLines (⟨Op.add, line⟩ :: ds) = eqlLines ds
        from by simp [eqlLines, List.filterMap_cons]]
      rw [show collectRight (⟨Op.add, line⟩ :: ds) = line :: collectRight ds
        from by simp [collectRight, List.filterMap_cons]]
      exact ih.cons line
    | del =>
      rw [show eqlLines (⟨Op.del, line⟩ :: ds) = eqlLines ds
        from by simp [eqlLines, List.filterMap_cons]]
      rw [show collectRight (⟨Op.del, line⟩ :: ds) = collectRight ds
        from by simp [collectRight, List.filterMap_cons]]
      exact ih

lemma counts_eqls (ds : List LineDiff) :
    (collectLeft ds).length + (collectRight ds).length =
      ds.length + (eqlLines ds).length ∧
    nonEqlCount ds + (eqlLines ds).length = ds.length := by
  induction ds with
  | nil => exact ⟨rfl, rfl⟩
  | cons e ds ih =>
    obtain ⟨ih1, ih2⟩ := ih
    rcases e with ⟨op, line⟩
    cases op with
    | eql =>
      rw [show collectLeft (⟨Op.eql, line⟩ :: ds) = line :: collectLeft ds
        from by simp [collectLeft, List.filterMap_cons]]
      rw [show collectRight (⟨Op.eql, line⟩ :: ds) =
        line :: collectRight ds
        from by simp [collectRight, List.filterMap_cons]]
      rw [show eqlLines (⟨Op.eql, line⟩ :: ds) = line :: eqlLines ds
        from by simp [eqlLines, List.filterMap_cons]]
      rw [show nonEqlCount (⟨Op.eql, line⟩ :: ds) = nonEqlCount ds
        from by simp [nonEqlCount]]
      simp only [List.length_cons]
      omega
    | add =>
      rw [show collectLeft (⟨Op.add, line⟩ :: ds) = collectLeft ds
        from by simp [collectLeft, List.filterMap_cons]]
      rw [show collectRight (⟨Op.add, line⟩ :: ds) =
        line :: collectRight ds
        from by simp [collectRight, List.filterMap_cons]]
      rw [show eqlLines (⟨Op.add, line⟩ :: ds) = eqlLines ds
        from by simp [eqlLines, List.filterMap_cons]]
      rw [show nonEqlCount (⟨Op.add, line⟩ :: ds) = nonEqlCount ds + 1
        from by simp [nonEqlCount]]
      simp only [List.length_cons]
      omega
    | del =>
      rw [show collectLeft (⟨Op.del, line⟩ :: ds) = line :: collectLeft ds
        from by simp [collectLeft, List.filterMap_cons]]
      rw [show collectRight (⟨Op.del, line⟩ :: ds) = collectRight ds
        from by simp [collectRight, List.filterMap_cons]]
      rw [show eqlLines (⟨Op.del, line⟩ :: ds) = eqlLines ds
        from by simp [eqlLines, List.filterMap_cons]]
      rw [show nonEqlCount (⟨Op.del, line⟩ :: ds) = nonEqlCount ds + 1
        from by simp [nonEqlCount]]
      simp only [List.length_cons]
      omega

/-- Every script entry's line is consumed from one of the two sides. -/
lemma mem_collect (ds : List LineDiff) (e : LineDiff) (he : e ∈ ds) :
    e.line ∈ collectLeft ds ∨ e.line ∈ collectRight ds := by
  by_cases hop : e.op = Op.add
  · right
    rw [collectRight]
    refine List.mem_filterMap.mpr ⟨e, he, ?_⟩
    rw [hop]
    rfl
  · left
    rw [collectLeft]
    exact List.mem_filterMap.mpr ⟨e, he, by rw [if_neg hop]⟩

/-! ## Claim C1: round-trip reconstruction -/

/-- C1: for every pair of line sequences, the Result produced by the
diff engine satisfies the round-trip invariant: collecting the Line of
every Equal or Deleted entry of its Diffs in order yields exactly the
left sequence, and collecting the Line of every Equal or Added entry
yields exactly the right sequence. -/
theorem diff_round_trip (left right : List String) (ln rn : String)
    (res : Result) (h : differRun left ln right rn = some res) :
    collectLeft res.diffs = left ∧ collectRight res.diffs = right := by
  obtain ⟨h1, h2, _, _⟩ := differRun_spec left right ln rn res h
  exact ⟨h1, h2⟩

/-- Witness for C1 at a concrete input. -/
theorem diff_round_trip_wit :
    differRun ["a\n", "b\n"] "l" ["b\n", "c\n"] "r" =
      some ⟨"l", "r",
        [⟨Op.del, "a\n"⟩, ⟨Op.eql, "b\n"⟩, ⟨Op.add, "c\n"⟩]⟩ ∧
    (collectLeft (Result.mk "l" "r"
        [⟨Op.del, "a\n"⟩, ⟨Op.eql, "b\n"⟩, ⟨Op.add, "c\n"⟩]).diffs =
      ["a\n", "b\n"] ∧
     collectRight (Result.mk "l" "r"
        [⟨Op.del, "a\n"⟩, ⟨Op.eql, "b\n"⟩, ⟨Op.add, "c\n"⟩]).diffs =
      ["b\n", "c\n"]) :=
  ⟨by decide, diff_round_trip ["a\n", "b\n"] ["b\n", "c\n"] "l" "r"
    ⟨"l", "r", [⟨Op.del, "a\n"⟩, ⟨Op.eql, "b\n"⟩, ⟨Op.add, "c\n"⟩]⟩
    (by decide)⟩

/-! ## Claim C2: minimality -/

/-- C2: the number of non-Equal entries of the produced script equals
`|left| + |right| - 2 * LCS(left, right)`, where `lcsLen` is the length
of a longest common subsequence: it is achieved by a common subsequence
and bounds every common subsequence. -/
theorem diff_minimal (left right : List String) (ln rn : String)
    (res : Result) (h : differRun left ln right rn = some res) :
    (∀ t : List String, t.Sublist left → t.Sublist right →
      t.length ≤ lcsLen left right) ∧
    (∃ t : List String, t.Sublist left ∧ t.Sublist right ∧
      t.length = lcsLen left right) ∧
    (nonEqlCount res.diffs : Int) =
      (left.length : Int) + (right.length : Int) -
        2 * (lcsLen left right : Int) := by
  obtain ⟨hcl, hcr, hreach, hmin⟩ := differRun_spec left right ln rn res h
  refine ⟨lcsLen_ub left right, lcsLen_exists left right, ?_⟩
  obtain ⟨hsplit, hne⟩ := counts_eqls res.diffs
  rw [hcl, hcr] at hsplit
  have hEub : (eqlLines res.diffs).length ≤ lcsLen left right := by
    refine lcsLen_ub left right _ ?_ ?_
    · rw [← hcl]
      exact eqlLines_sublist_left res.diffs
    · rw [← hcr]
      exact eqlLines_sublist_right res.diffs
  obtain ⟨t0, ht1, ht2, ht3⟩ := lcsLen_exists left right
  have hr0 := reach_of_common left right t0 ht1 ht2
  have hminle := hmin _ hr0
  have hlenl := ht1.length_le
  have hlenr := ht2.length_le
  omega

/-- Witness for C2 at a concrete input. -/
theorem diff_minimal_wit :
    differRun ["x\n"] "l" ["x\n", "y\n"] "r" =
      some ⟨"l", "r", [⟨Op.eql, "x\n"⟩, ⟨Op.add, "y\n"⟩]⟩ ∧
    ((∀ t : List String, t.Sublist ["x\n"] → t.Sublist ["x\n", "y\n"] →
        t.length ≤ lcsLen ["x\n"] ["x\n", "y\n"]) ∧
     (∃ t : List String, t.Sublist ["x\n"] ∧ t.Sublist ["x\n", "y\n"] ∧
        t.length = lcsLen ["x\n"] ["x\n", "y\n"]) ∧
     (nonEqlCount (Result.mk "l" "r"
        [⟨Op.eql, "x\n"⟩, ⟨Op.add, "y\n"⟩]).diffs : Int) =
       ((["x\n"] : List String).length : Int) +
         ((["x\n", "y\n"] : List String).length : Int) -
         2 * (lcsLen ["x\n"] ["x\n", "y\n"] : Int)) :=
  ⟨by decide, diff_minimal ["x\n"] ["x\n", "y\n"] "l" "r"
    ⟨"l", "r", [⟨Op.eql, "x\n"⟩, ⟨Op.add, "y\n"⟩]⟩ (by decide)⟩

/-! ## Claim C3: the search always exits and the panic is unreachable -/

/-- C3: for non-empty inputs the forward search reaches a round `D` at
most `L + R` in which the value recorded on the diagonal `L - R`
satisfies `x = L` and `y = R` (the exit condition), so `runFull`
returns a result and the `panic("unexpected")` branch after the search
loop is unreachable. -/
theorem runFull_no_panic (left right : List String)
    (_hleft : left ≠ []) (_hright : right ≠ []) :
    ∃ D : Nat, D ≤ left.length + right.length ∧
      roundValid D ((left.length : Int) - (right.length : Int)) ∧
      valAt left right D ((left.length : Int) - (right.length : Int)) =
        (left.length : Int) ∧
      valAt left right D ((left.length : Int) - (right.length : Int)) -
        ((left.length : Int) - (right.length : Int)) =
        (right.length : Int) ∧
      (runFull left right).isSome := by
  obtain ⟨D, hDle, hDex, hDfirst, hst⟩ := searchTrace_spec left right
  obtain ⟨hkv, hvalEq, _, _⟩ := exit_point left right D hDfirst hDex
  refine ⟨D, hDle, hkv, hvalEq, by rw [hvalEq]; ring, ?_⟩
  simp only [runFull]
  rw [show ((left.length : Int) + (right.length : Int)) = mxOf left right
    from rfl]
  rw [hst]
  rfl

/-- Witness for C3 at a concrete input. -/
theorem runFull_no_panic_wit :
    (["p\n"] : List String) ≠ [] ∧ (["q\n"] : List String) ≠ [] ∧
    (∃ D : Nat, D ≤ (["p\n"] : List String).length +
        (["q\n"] : List String).length ∧
      roundValid D (((["p\n"] : List String).length : Int) -
        ((["q\n"] : List String).length : Int)) ∧
      valAt ["p\n"] ["q\n"] D (((["p\n"] : List String).length : Int) -
        ((["q\n"] : List String).length : Int)) =
        ((["p\n"] : List String).length : Int) ∧
      valAt ["p\n"] ["q\n"] D (((["p\n"] : List String).length : Int) -
        ((["q\n"] : List String).length : Int)) -
        (((["p\n"] : List String).length : Int) -
          ((["q\n"] : List String).length : Int)) =
        ((["q\n"] : List String).length : Int) ∧
      (runFull ["p\n"] ["q\n"]).isSome) :=
  ⟨by decide, by decide, runFull_no_panic _ _ (by decide) (by decide)⟩

/-! ## Claim C10: unterminated final fragments are dropped -/

/-- C10: when a compared source's content is newline-terminated lines
followed by an unterminated fragment, the line-reading step keeps
exactly the terminated lines and drops the fragment, so every entry of
the resulting edit script carries one of the kept lines — each contains
a newline and in particular no entry carries either fragment. -/
theorem readLines_drops_unterminated (lls rls : List String)
    (lfrag rfrag : String) (res : Result)
    (hlls : ∀ s ∈ lls, ∃ t : String, s = t ++ "\n" ∧
      ('\n' : Char) ∉ t.data)
    (hrls : ∀ s ∈ rls, ∃ t : String, s = t ++ "\n" ∧
      ('\n' : Char) ∉ t.data)
    (hlf : ('\n' : Char) ∉ lfrag.data) (hrf : ('\n' : Char) ∉ rfrag.data)
    (hres : differRun (readLines (String.join lls ++ lfrag))
        DefaultLeftName (readLines (String.join rls ++ rfrag))
        DefaultRightName = some res) :
    readLines (String.join lls ++ lfrag) = lls ∧
    readLines (String.join rls ++ rfrag) = rls ∧
    ∀ e ∈ res.diffs, (e.line ∈ lls ∨ e.line ∈ rls) ∧
      ('\n' : Char) ∈ e.line.data ∧ e.line ≠ lfrag ∧ e.line ≠ rfrag := by
  have hL := readLines_join lls lfrag hlls hlf
  have hR := readLines_join rls rfrag hrls hrf
  obtain ⟨hcl, hcr, _, _⟩ := differRun_spec _ _ _ _ res hres
  rw [hL] at hcl
  rw [hR] at hcr
  refine ⟨hL, hR, fun e he => ?_⟩
  have hmem := mem_collect res.diffs e he
  rw [hcl, hcr] at hmem
  have hnl : ('\n' : Char) ∈ e.line.data := by
    rcases hmem with hm | hm
    · obtain ⟨t, ht1, _⟩ := hlls _ hm
      rw [ht1]
      rw [String.data_append]
      exact List.mem_append.mpr (Or.inr (by decide))
    · obtain ⟨t, ht1, _⟩ := hrls _ hm
      rw [ht1]
      rw [String.data_append]
      exact List.mem_append.mpr (Or.inr (by decide))
  refine ⟨hmem, hnl, ?_, ?_⟩
  · intro hEq
    rw [hEq] at hnl
    exact hlf hnl
  · intro hEq
    rw [hEq] at hnl
    exact hrf hnl

/-- Witness for C10 at a concrete input. -/
theorem readLines_drops_unterminated_wit :
    ((∀ s ∈ (["a\n"] : List String), ∃ t : String, s = t ++ "\n" ∧
        ('\n' : Char) ∉ t.data) ∧
     (∀ s ∈ (["b\n"] : List String), ∃ t : String, s = t ++ "\n" ∧
        ('\n' : Char) ∉ t.data) ∧
     ('\n' : Char) ∉ "x".data ∧ ('\n' : Char) ∉ "y".data ∧
     differRun (readLines (String.join ["a\n"] ++ "x")) DefaultLeftName
        (readLines (String.join ["b\n"] ++ "y")) DefaultRightName =
       some ⟨DefaultLeftName, DefaultRightName,
         [⟨Op.del, "a\n"⟩, ⟨Op.add, "b\n"⟩]⟩) ∧
    (readLines (String.join ["a\n"] ++ "x") = ["a\n"] ∧
     readLines (String.join ["b\n"] ++ "y") = ["b\n"] ∧
     ∀ e ∈ (Result.mk DefaultLeftName DefaultRightName
        [⟨Op.del, "a\n"⟩, ⟨Op.add, "b\n"⟩]).diffs,
       (e.line ∈ (["a\n"] : List String) ∨
        e.line ∈ (["b\n"] : List String)) ∧
       ('\n' : Char) ∈ e.line.data ∧ e.line ≠ "x" ∧ e.line ≠ "y") := by
  have hlls : ∀ s ∈ (["a\n"] : List String), ∃ t : String,
      s = t ++ "\n" ∧ ('\n' : Char) ∉ t.data := by
    intro s hs
    rw [List.mem_singleton] at hs
    exact ⟨"a", by rw [hs]; rfl, by decide⟩
  have hrls : ∀ s ∈ (["b\n"] : List String), ∃ t : String,
      s = t ++ "\n" ∧ ('\n' : Char) ∉ t.data := by
    intro s hs
    rw [List.mem_singleton] at hs
    exact ⟨"b", by rw [hs]; rfl, by decide⟩
  exact ⟨⟨hlls, hrls, by decide, by decide, by decide⟩,
    readLines_drops_unterminated _ _ _ _ _ hlls hrls (by decide) (by decide)
      (by decide)⟩

end GoDiff
